import Mathlib

/-!
# Network speed monitor: counter parsing, rate estimation and the sampling loop

Shallow embedding of `Project.c` and `Network_Test.c`.

Conventions of the embedding.

* A C string, and the text of the counter table `/proc/net/dev`, is a `List Char`
  (one `Char` per byte, no NUL byte inside).
* `unsigned long long` values are natural numbers below `2 ^ 64`; every C
  operation that can wrap is written with an explicit `% 2 ^ 64`.
* `double` values are rationals (`ℚ`). The sampling loops are written in exact
  arithmetic (`to_mbps`, `tick_rates`, `tick`); the rate expression of one tick
  is also written with the rounding of every binary64 operation
  (`to_mbps_binary64`, `tick_rates_binary64`), and the two are compared.
* Behaviour that C leaves undefined (writing past `iface_name[32]`, converting an
  out-of-range `double` to `int`) is an explicit `none` result.
* `sleep` has no effect on the values computed and is left out.
* The `%lf` conversion of `measure_ping_ms` gives the exact rational value of a
  decimal number with an optional sign, fraction and exponent; `inf`, `nan`,
  hexadecimal input and an exponent without digits are an explicit `none` result.
-/

namespace NetSpeed

/-! ## Constants -/

/-- `#define TOTAL_TIME 10` (both files). -/
def TOTAL_TIME : Nat := 10

/-- `#define SAMPLE_INTERVAL 1` (both files). -/
def SAMPLE_INTERVAL : Nat := 1

/-- `#define MAX_BAR_WIDTH 50` (`Project.c`). -/
def MAX_BAR_WIDTH : Nat := 50

/-- `sizeof(line)` for `char line[256]` in `read_bytes`. -/
def LINE_SIZE : Nat := 256

/-- `sizeof(iface_name)` for `char iface_name[32]` in `read_bytes`. -/
def IFACE_NAME_SIZE : Nat := 32

/-- Number of values of `unsigned long long`. -/
def ULL : Nat := 2 ^ 64

/-! ## C library functions used by `read_bytes` -/

/-- C `isspace` in the "C" locale: space, `\t`, `\n`, `\v`, `\f`, `\r`. -/
def isspace (c : Char) : Bool :=
  c == ' ' || c == '\t' || c == '\n' || c == Char.ofNat 11 || c == Char.ofNat 12 || c == '\r'

/-- C `isdigit`. -/
def isdigit (c : Char) : Bool :=
  decide (48 ≤ c.toNat) && decide (c.toNat ≤ 57)

/-- The characters `fgets` stores when at most `k` more fit: it stops after a
newline, at the end of the file, or when `k` characters are stored. Returns the
characters stored and the rest of the stream. -/
def fgets_take : Nat → List Char → List Char × List Char
  | 0, s => ([], s)
  | _ + 1, [] => ([], [])
  | k + 1, c :: s =>
    if c = '\n' then ([c], s)
    else (c :: (fgets_take k s).1, (fgets_take k s).2)

/-- `fgets(buf, size, fp)`: `none` (NULL) at the end of the file, otherwise the
string stored in `buf` (at most `size - 1` characters) and the rest of the stream. -/
def fgets (size : Nat) (fp : List Char) : Option (List Char × List Char) :=
  match fp with
  | [] => none
  | _ :: _ => some (fgets_take (size - 1) fp)

/-- Whether `s` begins with the characters of `needle`. -/
def starts_with : List Char → List Char → Bool
  | [], _ => true
  | _ :: _, [] => false
  | a :: needle, b :: s => a == b && starts_with needle s

/-- `strstr(s, needle)`: offset of the first occurrence of `needle` in `s`, or
`none` (NULL) when there is none. -/
def strstr : List Char → List Char → Option Nat
  | [], needle => if needle = [] then some 0 else none
  | c :: s, needle =>
    if starts_with needle (c :: s) then some 0
    else (strstr s needle).map (· + 1)

/-- `strspn(s, accept)`: length of the longest initial segment of `s` made of
characters of `accept`. -/
def strspn (s accept : List Char) : Nat :=
  (s.takeWhile (fun c => accept.contains c)).length

/-- A white-space directive of a `scanf` format: skips any white space. -/
def skip_space (s : List Char) : List Char :=
  s.dropWhile isspace

/-- Value of a string of decimal digits. -/
def digits_value (ds : List Char) : Nat :=
  ds.foldl (fun acc c => 10 * acc + (c.toNat - 48)) 0

/-- The `%llu` directive: skips white space, then reads an optional sign and a
non-empty run of decimal digits. The value is converted as `strtoull` does: a
value that does not fit is stored as `ULLONG_MAX`, a value after `-` is negated
modulo `2 ^ 64`. Returns `none` on a matching or input failure, otherwise the
value stored and the unread input. -/
def scan_llu (s : List Char) : Option (Nat × List Char) :=
  let s1 := skip_space s
  let neg := s1.head? == some '-'
  let s2 := if s1.head? == some '-' || s1.head? == some '+' then s1.tail else s1
  let ds := s2.takeWhile isdigit
  if ds = [] then none
  else
    let v := digits_value ds
    let stored := if ULL ≤ v then ULL - 1 else if neg then (ULL - v) % ULL else v
    some (stored, s2.dropWhile isdigit)

/-- The values stored by up to `k` consecutive `%llu` directives (each
preceded in the format by a white-space directive, which `%llu` subsumes):
conversion stops at the first directive that fails. -/
def scan_llus : Nat → List Char → List Nat
  | 0, _ => []
  | k + 1, s =>
    match scan_llu s with
    | none => []
    | some (v, rest) => v :: scan_llus k rest

/-- The call
`sscanf(line, " %[^:]: %llu %llu ... %llu", iface_name, &rbytes, ..., &tcompressed)`
of `read_bytes` (one `%[^:]` and sixteen `%llu`). Returns `none` when the token
matched by `%[^:]` does not fit `iface_name[32]` with its terminating NUL
(undefined behaviour), otherwise the return value `n` of `sscanf` and the values
stored by the `%llu` directives, in order (`rbytes` first, `tbytes` ninth). -/
def sscanf_line (line : List Char) : Option (Int × List Nat) :=
  let s := skip_space line
  let tok := s.takeWhile (fun c => c != ':')
  if s = [] then some (-1, [])
  else if tok = [] then some (0, [])
  else if IFACE_NAME_SIZE ≤ tok.length then none
  else
    match s.dropWhile (fun c => c != ':') with
    | [] => some (1, [])
    | _ :: rest =>
      let vals := scan_llus 16 rest
      some (1 + (vals.length : Int), vals)

/-! ## `read_bytes` (identical in `Project.c` and `Network_Test.c`) -/

/-- What a call of `read_bytes` leaves behind: its return value and the contents
of `*rx` and `*tx`. -/
structure ReadResult where
  ret : Int
  rx : Nat
  tx : Nat
  deriving DecidableEq, Repr

/-- The test `pos && pos == line + strspn(line, " ")` on `pos = strstr(line, iface)`. -/
def iface_at_start (line iface : List Char) : Bool :=
  strstr line iface == some (strspn line [' '])

/-- The `while (fgets(line, sizeof(line), fp))` loop of `read_bytes`, on the
unread part `fp` of the stream. `fuel` bounds the number of iterations; each
iteration consumes at least one character, so `fp.length` iterations suffice.
`none` is undefined behaviour (see `sscanf_line`). -/
def read_bytes_loop (iface : List Char) : Nat → List Char → Option ReadResult
  | 0, _ => some ⟨-1, 0, 0⟩
  | fuel + 1, fp =>
    match fgets LINE_SIZE fp with
    | none => some ⟨-1, 0, 0⟩
    | some (line, rest) =>
      if iface_at_start line iface then
        match sscanf_line line with
        | none => none
        | some (n, vals) =>
          if 10 ≤ n then some ⟨0, vals.getD 0 0, vals.getD 8 0⟩
          else read_bytes_loop iface fuel rest
      else read_bytes_loop iface fuel rest

/-- `read_bytes(iface, &rx, &tx)`. `proc_net_dev` is the text of `/proc/net/dev`
at the time of the call, `none` when `fopen` fails; `rx0` and `tx0` are the
contents of `*rx` and `*tx` before the call (left untouched when `fopen` fails).
The result is `none` when the call has undefined behaviour. -/
def read_bytes (proc_net_dev : Option (List Char)) (iface : List Char) (rx0 tx0 : Nat) :
    Option ReadResult :=
  match proc_net_dev with
  | none => some ⟨-1, rx0, tx0⟩
  | some text => read_bytes_loop iface text.length text

/-! ## Arithmetic shared by the two sampling loops -/

/-- The C expression `(cur >= prev) ? (cur - prev) : 0` on `unsigned long long`
(`rxdiff` and `txdiff` in both files). -/
def counter_diff (cur prev : Nat) : Nat :=
  if prev ≤ cur then (cur - prev) % ULL else 0

/-- The C expression `((double)diff * 8.0) / (interval * 1000000.0)`, for a
positive `interval` (`main_with` never evaluates it with `interval = 0`). -/
def to_mbps (interval : Nat) (diff : Nat) : ℚ :=
  ((diff : ℚ) * 8) / ((interval : ℚ) * 1000000)

/-- How a run of `main` ends: `return code`, or undefined behaviour. -/
inductive Status where
  | exit (code : Int)
  | undefined
  deriving DecidableEq, Repr

/-- The environment of a run: `proc_net_dev j` is the text of `/proc/net/dev`
at the `j`-th call of `read_bytes` (`j = 0` is the priming call; `none` when
`fopen` fails), `ping j` is the value returned by the `j`-th call of
`measure_ping_ms` (negative when the probe fails). -/
structure World where
  proc_net_dev : Nat → Option (List Char)
  ping : Nat → ℚ

/-! ## `Network_Test.c` -/

namespace Network_Test

/-- One `printf` of `main`, with the values printed. -/
inductive Out where
  | ask_iface
  | invalid_input
  | iface_error (iface : List Char)
  | measuring (total_time : Nat)
  | showing
  | second (i : Nat) (download_mbps upload_mbps : ℚ) (ping_ms : Option ℚ)
  | read_error
  | average_download (mbps : ℚ)
  | average_upload (mbps : ℚ)
  | average_ping (ms : Option ℚ)
  deriving DecidableEq, Repr

/-- The variables of `main`, the output so far, and the number of calls of
`read_bytes` and of `measure_ping_ms` made so far. -/
structure State where
  prev_rx : Nat
  prev_tx : Nat
  total_rx_mbps : ℚ
  total_tx_mbps : ℚ
  total_ping_ms : ℚ
  ping_count : Nat
  reads : Nat
  probes : Nat
  out : List Out
  deriving DecidableEq, Repr

/-- The rates of one iteration of the loop of `main`, `(download_mbps, upload_mbps)`,
from the counters of the previous and of the current snapshot:
`rxdiff = (cur_rx >= prev_rx) ? (cur_rx - prev_rx) : 0`, likewise `txdiff`, and
`((double)diff * 8.0) / (SAMPLE_INTERVAL * 1000000.0)` for each. -/
def tick_rates (sample_interval prev_rx prev_tx cur_rx cur_tx : Nat) : ℚ × ℚ :=
  let rxdiff := counter_diff cur_rx prev_rx
  let txdiff := counter_diff cur_tx prev_tx
  (to_mbps sample_interval rxdiff, to_mbps sample_interval txdiff)

/-- The code after the `for` loop of `main`: the three averages, `return 0`. -/
def summary (samples : Nat) (st : State) : Status × State :=
  (Status.exit 0,
    { st with
      out := st.out ++
        [Out.average_download (st.total_rx_mbps / samples),
         Out.average_upload (st.total_tx_mbps / samples),
         Out.average_ping
           (if 0 < st.ping_count then some (st.total_ping_ms / st.ping_count) else none)] })

/-- The body of the loop of `main` after a successful call of `read_bytes` with
result `r`, in iteration `i`: the two rates, the replacement of the previous
snapshot, the two sums, the call of `measure_ping_ms` and the line printed. -/
def tick (sample_interval : Nat) (w : World) (i : Nat) (st : State) (r : ReadResult) : State :=
  let download_mbps := (tick_rates sample_interval st.prev_rx st.prev_tx r.rx r.tx).1
  let upload_mbps := (tick_rates sample_interval st.prev_rx st.prev_tx r.rx r.tx).2
  let ping_ms := w.ping st.probes
  { prev_rx := r.rx
    prev_tx := r.tx
    total_rx_mbps := st.total_rx_mbps + download_mbps
    total_tx_mbps := st.total_tx_mbps + upload_mbps
    total_ping_ms := if 0 ≤ ping_ms then st.total_ping_ms + ping_ms else st.total_ping_ms
    ping_count := if 0 ≤ ping_ms then st.ping_count + 1 else st.ping_count
    reads := st.reads + 1
    probes := st.probes + 1
    out := st.out ++
      [Out.second (i + 1) download_mbps upload_mbps
        (if 0 ≤ ping_ms then some ping_ms else none)] }

/-- The loop `for (int i = 0; i < samples; i++)` of `main` followed by the
summary, with `n = samples - i` iterations still to run. The old contents of
`cur_rx` and `cur_tx` survive a call of `read_bytes` only when `fopen` fails,
where `main` does not read them: they are passed as 0. -/
def loop (sample_interval samples : Nat) (w : World) (iface : List Char) :
    Nat → Nat → State → Status × State
  | 0, _, st => summary samples st
  | n + 1, i, st =>
    match read_bytes (w.proc_net_dev st.reads) iface 0 0 with
    | none => (Status.undefined, { st with reads := st.reads + 1 })
    | some r =>
      if r.ret ≠ 0 then
        (Status.exit 1, { st with reads := st.reads + 1, out := st.out ++ [Out.read_error] })
      else
        loop sample_interval samples w iface n (i + 1) (tick sample_interval w i st r)

/-- The function `main` with the constants `TOTAL_TIME` and `SAMPLE_INTERVAL` as
parameters. `input` is the token stored by `scanf("%31s", iface)`, `none` when
that call does not return 1. A `SAMPLE_INTERVAL` of zero makes
`TOTAL_TIME / SAMPLE_INTERVAL` undefined. -/
def main_with (total_time sample_interval : Nat) (w : World) (input : Option (List Char)) :
    Status × State :=
  let st0 : State := ⟨0, 0, 0, 0, 0, 0, 0, 0, [Out.ask_iface]⟩
  match input with
  | none => (Status.exit 1, { st0 with out := st0.out ++ [Out.invalid_input] })
  | some iface =>
    match read_bytes (w.proc_net_dev 0) iface 0 0 with
    | none => (Status.undefined, { st0 with reads := 1 })
    | some r =>
      if r.ret ≠ 0 then
        (Status.exit 1, { st0 with reads := 1, out := st0.out ++ [Out.iface_error iface] })
      else if sample_interval = 0 then
        (Status.undefined, { st0 with reads := 1 })
      else
        loop sample_interval (total_time / sample_interval) w iface
          (total_time / sample_interval) 0
          { st0 with
            prev_rx := r.rx
            prev_tx := r.tx
            reads := 1
            out := st0.out ++ [Out.measuring total_time, Out.showing] }

/-- The function `main` of `Network_Test.c`. -/
def main (w : World) (input : Option (List Char)) : Status × State :=
  main_with TOTAL_TIME SAMPLE_INTERVAL w input

/-- The per-second lines printed by a run, in order. -/
def tick_records (out : List Out) : List Out :=
  out.filter (fun o => match o with
    | Out.second _ _ _ _ => true
    | _ => false)

/-- The lines of the summary printed by a run, in order. -/
def summary_records (out : List Out) : List Out :=
  out.filter (fun o => match o with
    | Out.average_download _ => true
    | Out.average_upload _ => true
    | Out.average_ping _ => true
    | _ => false)

/-- The index printed in a per-second line. -/
def tick_index : Out → Nat
  | Out.second i _ _ _ => i
  | _ => 0

/-- The latency printed in a per-second line, `none` for `N/A`. -/
def tick_ping : Out → Option ℚ
  | Out.second _ _ _ p => p
  | _ => none

end Network_Test

/-! ## `Project.c` -/

namespace Project

/-- `INT_MAX` for a 32-bit `int`. -/
def INT_MAX : Int := 2 ^ 31 - 1

/-- `INT_MIN` for a 32-bit `int`. -/
def INT_MIN : Int := -(2 ^ 31)

/-- The function `draw_bar`: the characters written by `putchar`, or `none` when
the conversion `(int)mbps` is undefined because the truncated value does not
fit in an `int`. -/
def draw_bar (mbps : ℚ) : Option (List Char) :=
  let t : Int := Int.tdiv mbps.num mbps.den
  if t < INT_MIN ∨ INT_MAX < t then none
  else
    let width : Int := if t > MAX_BAR_WIDTH then MAX_BAR_WIDTH else t
    let width : Int := if width < 0 then 0 else width
    some (List.replicate width.toNat '#' ++ ['\n'])

/-- One `printf` of `main` with the values printed; `sample` also carries the
output of the call `draw_bar(mbps)` that follows its `printf`. -/
inductive Out where
  | ask_iface
  | invalid_input
  | iface_error (iface : List Char)
  | measuring (total_time : Nat)
  | legend (max_bar_width : Nat)
  | sample (t : Nat) (mbps : ℚ) (bar : Option (List Char))
  | sampling_error
  | average (total_time : Nat) (avg_mbps : ℚ)
  deriving DecidableEq, Repr

/-- The variables of `main`, the output so far, and the number of calls of
`read_bytes` made so far. -/
structure State where
  prev_rx : Nat
  prev_tx : Nat
  speeds : List ℚ
  sum_mbps : ℚ
  reads : Nat
  out : List Out
  deriving DecidableEq, Repr

/-- The rate `mbps` of one iteration of the loop of `main`, from the counters of
the previous and of the current snapshot: `rxdiff` and `txdiff` as in
`Network_Test.c`, their sum in `unsigned long long`, and
`total_bits / (interval * 1000000.0)`. -/
def tick_mbps (sample_interval prev_rx prev_tx cur_rx cur_tx : Nat) : ℚ :=
  let rxdiff := counter_diff cur_rx prev_rx
  let txdiff := counter_diff cur_tx prev_tx
  to_mbps sample_interval ((rxdiff + txdiff) % ULL)

/-- The code after the `for` loop of `main`: the average, `return 0`. -/
def summary (total_time samples : Nat) (st : State) : Status × State :=
  (Status.exit 0,
    { st with out := st.out ++ [Out.average total_time (st.sum_mbps / samples)] })

/-- The body of the loop of `main` after a successful call of `read_bytes` with
result `r`, in iteration `i`: the rate, the replacement of the previous
snapshot, `speeds[i]`, the sum and the line printed with its bar. -/
def tick (sample_interval : Nat) (i : Nat) (st : State) (r : ReadResult) : State :=
  let mbps := tick_mbps sample_interval st.prev_rx st.prev_tx r.rx r.tx
  { prev_rx := r.rx
    prev_tx := r.tx
    speeds := st.speeds ++ [mbps]
    sum_mbps := st.sum_mbps + mbps
    reads := st.reads + 1
    out := st.out ++ [Out.sample ((i + 1) * sample_interval) mbps (draw_bar mbps)] }

/-- The loop `for (int i = 0; i < samples; i++)` of `main` followed by the
summary, with `n = samples - i` iterations still to run. A bar of `none` marks
a run whose behaviour is undefined from that sample on. The old contents of
`cur_rx` and `cur_tx` are passed to `read_bytes` as 0, as in `Network_Test.loop`. -/
def loop (total_time sample_interval samples : Nat) (w : World) (iface : List Char) :
    Nat → Nat → State → Status × State
  | 0, _, st => summary total_time samples st
  | n + 1, i, st =>
    match read_bytes (w.proc_net_dev st.reads) iface 0 0 with
    | none => (Status.undefined, { st with reads := st.reads + 1 })
    | some r =>
      if r.ret ≠ 0 then
        (Status.exit 1,
          { st with reads := st.reads + 1, out := st.out ++ [Out.sampling_error] })
      else
        loop total_time sample_interval samples w iface n (i + 1) (tick sample_interval i st r)

/-- The function `main` with the constants `TOTAL_TIME` and `SAMPLE_INTERVAL` as
parameters. `input` is the token stored by `scanf("%31s", iface)`, `none` when
that call does not return 1. A `SAMPLE_INTERVAL` of zero makes
`TOTAL_TIME / SAMPLE_INTERVAL` undefined. -/
def main_with (total_time sample_interval : Nat) (w : World) (input : Option (List Char)) :
    Status × State :=
  let st0 : State := ⟨0, 0, [], 0, 0, [Out.ask_iface]⟩
  match input with
  | none => (Status.exit 1, { st0 with out := st0.out ++ [Out.invalid_input] })
  | some iface =>
    match read_bytes (w.proc_net_dev 0) iface 0 0 with
    | none => (Status.undefined, { st0 with reads := 1 })
    | some r =>
      if r.ret ≠ 0 then
        (Status.exit 1, { st0 with reads := 1, out := st0.out ++ [Out.iface_error iface] })
      else if sample_interval = 0 then
        (Status.undefined, { st0 with reads := 1 })
      else
        loop total_time sample_interval (total_time / sample_interval) w iface
          (total_time / sample_interval) 0
          { st0 with
            prev_rx := r.rx
            prev_tx := r.tx
            reads := 1
            out := st0.out ++ [Out.measuring total_time, Out.legend MAX_BAR_WIDTH] }

/-- The function `main` of `Project.c`. -/
def main (w : World) (input : Option (List Char)) : Status × State :=
  main_with TOTAL_TIME SAMPLE_INTERVAL w input

/-- The per-sample lines printed by a run, in order. -/
def tick_records (out : List Out) : List Out :=
  out.filter (fun o => match o with
    | Out.sample _ _ _ => true
    | _ => false)

/-- The summary lines printed by a run, in order. -/
def summary_records (out : List Out) : List Out :=
  out.filter (fun o => match o with
    | Out.average _ _ => true
    | _ => false)

/-- The time printed in a per-sample line. -/
def tick_time : Out → Nat
  | Out.sample t _ _ => t
  | _ => 0

end Project

/-! ## Vocabulary of the statements about the counter table -/

/-- The text of a table whose lines are `ls`, each line ended by a newline. -/
def lines_text : List (List Char) → List Char
  | [] => []
  | l :: ls => l ++ '\n' :: lines_text ls

/-- Whether `line` begins, after its leading spaces, with the characters of `name`. -/
def begins_with (line name : List Char) : Bool :=
  starts_with name (line.dropWhile (fun c => c == ' '))

/-- The text of numeric fields given as pairs of a separator and a string of
digits: each separator followed by its digits, in order. -/
def fields_text : List (List Char × List Char) → List Char
  | [] => []
  | f :: fs => f.1 ++ f.2 ++ fields_text fs

/-- A table line: `k` spaces, the interface name, a colon, the numeric fields
and what follows them on the line. -/
def counter_line (k : Nat) (name : List Char) (fields : List (List Char × List Char))
    (trail : List Char) : List Char :=
  List.replicate k ' ' ++ name ++ ':' :: (fields_text fields ++ trail)

/-- White space other than the newline. -/
def is_blank (c : Char) : Bool :=
  isspace c && c != '\n'

/-- An interface name: not empty, no white space. -/
def is_iface_name (name : List Char) : Prop :=
  name ≠ [] ∧ ∀ c ∈ name, isspace c = false

instance is_iface_name_decidable (name : List Char) : Decidable (is_iface_name name) := by
  unfold is_iface_name
  infer_instance

/-- A numeric field below `2 ^ 64`: blanks, then a non-empty string of decimal digits. -/
def is_field (f : List Char × List Char) : Prop :=
  (∀ c ∈ f.1, is_blank c = true) ∧ f.2 ≠ [] ∧ (∀ c ∈ f.2, isdigit c = true) ∧
    digits_value f.2 < ULL

instance is_field_decidable (f : List Char × List Char) : Decidable (is_field f) := by
  unfold is_field
  infer_instance

/-- Numeric fields separated by white space: every field is well formed and
every field but the first has a non-empty separator before it. -/
def are_fields (fields : List (List Char × List Char)) : Prop :=
  (∀ f ∈ fields, is_field f) ∧ ∀ f ∈ fields.tail, f.1 ≠ []

instance are_fields_decidable (fields : List (List Char × List Char)) :
    Decidable (are_fields fields) := by
  unfold are_fields
  infer_instance

/-- No digit at the head of `s`: a run of digits read before `s` ends there. -/
def stops (s : List Char) : Prop :=
  ∀ c, s.head? = some c → isdigit c = false

/-- The strings `fgets` stores in `line` over the iterations of the loop of
`read_bytes` when no iteration returns, on the unread part `fp` of the stream
(`fuel` bounds the number of iterations, as in `read_bytes_loop`). -/
def fgets_records : Nat → List Char → List (List Char)
  | 0, _ => []
  | fuel + 1, fp =>
    match fgets LINE_SIZE fp with
    | none => []
    | some (line, rest) => line :: fgets_records fuel rest

/-- The records of a whole table: its lines with their newline, a line of more
than 255 characters being cut in pieces of 255 characters. -/
def table_records (text : List Char) : List (List Char) :=
  fgets_records text.length text

/-- Whether `sscanf` converts fewer than ten items from `line` (the name and
fewer than nine numbers). -/
def few_fields (line : List Char) : Bool :=
  match sscanf_line line with
  | some (n, _) => decide (n < 10)
  | none => false

/-- The table can be opened and no record of it passes the test on the name
(the case called NotFound). -/
def not_found (proc_net_dev : Option (List Char)) (iface : List Char) : Prop :=
  ∃ text, proc_net_dev = some text ∧ ∀ r ∈ table_records text, iface_at_start r iface = false

/-- The table cannot be opened, or some record passes the test on the name and
every record that does has too few numeric fields (the case called ReadError). -/
def read_error (proc_net_dev : Option (List Char)) (iface : List Char) : Prop :=
  proc_net_dev = none ∨
    ∃ text, proc_net_dev = some text ∧
      (∃ r ∈ table_records text, iface_at_start r iface = true) ∧
      ∀ r ∈ table_records text, iface_at_start r iface = true → few_fields r = true

/-- The call of `read_bytes` number `j` of a run succeeds (returns 0). -/
def read_ok (w : World) (iface : List Char) (j : Nat) : Prop :=
  ∃ r, read_bytes (w.proc_net_dev j) iface 0 0 = some r ∧ r.ret = 0

/-- The call of `read_bytes` number `j` of a run fails (returns a value other than 0). -/
def read_fails (w : World) (iface : List Char) (j : Nat) : Prop :=
  ∃ r, read_bytes (w.proc_net_dev j) iface 0 0 = some r ∧ r.ret ≠ 0

/-- The results of the first `n` calls of the probe, in order. -/
def probe_script (w : World) (n : Nat) : List ℚ :=
  (List.range n).map w.ping

/-- The results of the probe calls that succeeded (`ping_ms >= 0.0`). -/
def successful (script : List ℚ) : List ℚ :=
  script.filter (fun p => decide (0 ≤ p))

/-- The table of the examples: the interfaces `lo` and `wlan0`. -/
def sample_table : List Char :=
  ("    lo: 100 2 0 0 0 0 0 0 100 2 0 0 0 0 0 0\n" ++
    " wlan0: 123456 10 0 0 0 0 0 0 654321 5 0 0 0 0 0 0\n").toList

/-- A world in which the table never changes and the probe fails at its second
and third call. -/
def flaky_probe_world : World :=
  ⟨fun _ => some sample_table, fun j => [20, -1, -1, 30].getD j 0⟩

/-- A world in which the table never changes and every probe takes 12 ms. -/
def steady_world : World :=
  ⟨fun _ => some sample_table, fun _ => 12⟩

/-- The world `steady_world` except that `/proc/net/dev` cannot be opened at the
call of `read_bytes` number 3. -/
def failing_world : World :=
  ⟨fun j => if j = 3 then none else some sample_table, fun _ => 12⟩

/-- The integer part of a rate, as the conversion `(int)mbps` takes it: rounding
towards zero. -/
def truncate (q : ℚ) : Int :=
  if 0 ≤ q then ⌊q⌋ else ⌈q⌉

/-- The state of `Network_Test.c` after `k` more iterations of the loop of `main`,
starting iteration `i` in state `st`; `none` when one of their calls of
`read_bytes` does not return 0 (the loop ends there). -/
def nt_after_ticks (sample_interval : Nat) (w : World) (iface : List Char) :
    Nat → Nat → Network_Test.State → Option Network_Test.State
  | 0, _, st => some st
  | k + 1, i, st =>
    match read_bytes (w.proc_net_dev st.reads) iface 0 0 with
    | none => none
    | some r =>
      if r.ret ≠ 0 then none
      else nt_after_ticks sample_interval w iface k (i + 1) (Network_Test.tick sample_interval w i st r)

/-- The state of `Network_Test.c` when the loop of `main` is entered, after a
priming call of `read_bytes` that stored `rx` and `tx`. -/
def nt_start (total_time rx tx : Nat) : Network_Test.State :=
  ⟨rx, tx, 0, 0, 0, 0, 1, 0,
    [Network_Test.Out.ask_iface, Network_Test.Out.measuring total_time,
      Network_Test.Out.showing]⟩

/-- The sum of the per-tick deltas of a counter over `n` ticks, from the values
`c 0, c 1, ..., c n` of the counter: a tick contributes `c (j + 1) - c j` when the
counter did not decrease and 0 when it did (subtraction of natural numbers). -/
def sum_of_steps (c : Nat → Nat) (n : Nat) : Nat :=
  ((List.range n).map (fun j => c (j + 1) - c j)).sum

/-- The state of `Project.c` after `k` more iterations of the loop of `main`,
starting iteration `i` in state `st`; `none` when one of their calls of
`read_bytes` does not return 0 (the loop ends there). -/
def pj_after_ticks (sample_interval : Nat) (w : World) (iface : List Char) :
    Nat → Nat → Project.State → Option Project.State
  | 0, _, st => some st
  | k + 1, i, st =>
    match read_bytes (w.proc_net_dev st.reads) iface 0 0 with
    | none => none
    | some r =>
      if r.ret ≠ 0 then none
      else pj_after_ticks sample_interval w iface k (i + 1) (Project.tick sample_interval i st r)



/-- A world with three successive tables for `eth0`: `rx` goes 1000, 3000, 2000
(a decrease at the second tick) and `tx` goes 500, 700, 900. -/
def step_world : World :=
  ⟨fun j =>
    [some "eth0: 1000 0 0 0 0 0 0 0 500 0 0 0 0 0 0 0\n".toList,
      some "eth0: 3000 0 0 0 0 0 0 0 700 0 0 0 0 0 0 0\n".toList,
      some "eth0: 2000 0 0 0 0 0 0 0 900 0 0 0 0 0 0 0\n".toList].getD j none,
    fun _ => 12⟩

/-- Whether the loop of `read_bytes` passes over the record `r`: `r` does not
begin with the name, or `sscanf` converts fewer than ten items from it. -/
def passed_over (name r : List Char) : Bool :=
  !begins_with r name || few_fields r

/-! ## `measure_ping_ms` (`Network_Test.c`) -/

/-- The outcome of a `%lf` directive: a matching or input failure, a value, or
an input outside this model. Outside the model are the inputs whose value is
not a rational number (`inf`, `nan`), hexadecimal input (`0x...`), and a
mantissa followed by `e` or `E` without exponent digits, on which C libraries
differ. -/
inductive LfResult where
  | fail
  | unmodelled
  | value (v : ℚ)
  deriving DecidableEq, Repr

/-- Whether `s` begins with the characters of `needle` (given in lower case),
letters compared without regard to case. -/
def starts_with_ci : List Char → List Char → Bool
  | [], _ => true
  | _ :: _, [] => false
  | a :: needle, b :: s => a == b.toLower && starts_with_ci needle s

/-- The end of a `%lf` conversion on the input `r` that follows the mantissa,
whose digits without the point have the value `m` and which has `f` digits after
the point: an optional exponent `e`, sign, digits. The value is
`± m * 10 ^ exponent / 10 ^ f`, computed as one fraction of integers. -/
def lf_exponent (neg : Bool) (m f : Nat) (r : List Char) : LfResult :=
  let sm : Int := if neg then -(m : Int) else (m : Int)
  if r.head? == some 'e' || r.head? == some 'E' then
    let r1 := r.tail
    let r2 := if r1.head? == some '-' || r1.head? == some '+' then r1.tail else r1
    let ed := r2.takeWhile isdigit
    if ed.isEmpty then LfResult.unmodelled
    else if r1.head? == some '-' then
      LfResult.value (mkRat sm (10 ^ f * 10 ^ digits_value ed))
    else LfResult.value (mkRat (sm * 10 ^ digits_value ed) (10 ^ f))
  else LfResult.value (mkRat sm (10 ^ f))

/-- A `%lf` conversion after white space and sign: digits, an optional point
and digits (at least one digit in all), then `lf_exponent`. -/
def lf_mantissa (neg : Bool) (s : List Char) : LfResult :=
  let ip := s.takeWhile isdigit
  let r1 := s.dropWhile isdigit
  let fp := if r1.head? == some '.' then r1.tail.takeWhile isdigit else []
  let r2 := if r1.head? == some '.' then r1.tail.dropWhile isdigit else r1
  if ip.isEmpty && fp.isEmpty then LfResult.fail
  else lf_exponent neg (digits_value (ip ++ fp)) fp.length r2

/-- The `%lf` directive (decimal input as `strtod` reads it, in the C locale):
skips white space, reads an optional sign, then a decimal floating-point number. -/
def scan_lf (s : List Char) : LfResult :=
  let s1 := skip_space s
  let s2 := if s1.head? == some '-' || s1.head? == some '+' then s1.tail else s1
  if starts_with_ci "inf".toList s2 || starts_with_ci "nan".toList s2 ||
      starts_with_ci "0x".toList s2 then LfResult.unmodelled
  else lf_mantissa (s1.head? == some '-') s2

/-- The call `sscanf(pos, "time=%lf", &ping_ms)`: the outcome of `%lf` after the
literal `time=`, a failure when `pos` does not begin with `time=`. -/
def sscanf_time (pos : List Char) : LfResult :=
  if starts_with "time=".toList pos then scan_lf (pos.drop 5) else LfResult.fail

/-- The `while (fgets(line, sizeof(line), fp))` loop of `measure_ping_ms`, on the
unread part `fp` of the output of the probe; `fuel` bounds the number of
iterations as in `read_bytes_loop`. The result is the final value of `ping_ms`,
or `none` when a conversion is outside the model (see `LfResult`). -/
def measure_ping_loop : Nat → List Char → Option ℚ
  | 0, _ => some (-1)
  | fuel + 1, fp =>
    match fgets LINE_SIZE fp with
    | none => some (-1)
    | some (line, rest) =>
      match strstr line "time=".toList with
      | none => measure_ping_loop fuel rest
      | some k =>
        match sscanf_time (line.drop k) with
        | LfResult.value v => some v
        | LfResult.fail => measure_ping_loop fuel rest
        | LfResult.unmodelled => none

/-- `measure_ping_ms(host)`. `probe_output` is what the command
`ping -c 1 -w 1 host 2>/dev/null` writes, `none` when `popen` fails. The result
is the value returned, `none` when it is outside the model (see `LfResult`). -/
def measure_ping_ms (probe_output : Option (List Char)) : Option ℚ :=
  match probe_output with
  | none => some (-1)
  | some text => measure_ping_loop text.length text



/-- What a line of the output of the probe gives: `none` when it does not
contain `time=`, otherwise the outcome of the conversion after its first `time=`. -/
def time_reading (line : List Char) : Option LfResult :=
  (strstr line "time=".toList).map (fun k => sscanf_time (line.drop k))

/-- The text of a decimal number: the digits `ip`, then, when `dot` holds, a
point and the digits `fp`. -/
def decimal_text (ip : List Char) (dot : Bool) (fp : List Char) : List Char :=
  ip ++ (if dot then '.' :: fp else [])

/-- The value of the decimal number with integer digits `ip` and fraction digits `fp`. -/
def decimal_value (ip fp : List Char) : ℚ :=
  (digits_value ip : ℚ) + (digits_value fp : ℚ) / 10 ^ fp.length



/-- Whether a decimal number read by `%lf` ends before `suf`: `suf` is empty or
begins with a character that is not a digit, a point, `e` or `E`. -/
def ends_decimal (suf : List Char) : Bool :=
  match suf with
  | [] => true
  | c :: _ => !isdigit c && c != '.' && c != 'e' && c != 'E'


/-- A line of probe output made of the text `pre`, the characters `time=`, a
decimal number (`decimal_text ip dot fp`) and the text `suf` after the number. -/
def ping_line (pre ip : List Char) (dot : Bool) (fp suf : List Char) : List Char :=
  pre ++ ("time=".toList ++ (decimal_text ip dot fp ++ suf))

/-! ## Binary64 arithmetic -/

/-- The integer nearest to `n / d`, a tie going to the even one (the rounding of
binary64 arithmetic), for `d > 0`. -/
def round_half_even (n d : Nat) : Nat :=
  if 2 * (n % d) < d then n / d
  else if d < 2 * (n % d) then n / d + 1
  else if (n / d) % 2 = 0 then n / d else n / d + 1

/-- The number of binary digits of `n` (`0` for `n = 0`), for `n ≤ fuel`. -/
def bit_length : Nat → Nat → Nat
  | 0, _ => 0
  | fuel + 1, n => if n = 0 then 0 else bit_length fuel (n / 2) + 1

/-- The integer `k` with `2 ^ k ≤ n / d < 2 ^ (k + 1)`, for positive `n` and `d`. -/
def floor_log2 (n d : Nat) : Int :=
  let k0 : Int := (bit_length n n : Int) - (bit_length d d : Int)
  if d * 2 ^ k0.toNat ≤ n * 2 ^ (-k0).toNat then k0 else k0 - 1

/-- The exponent of the last binary place kept by binary64 for `n / d`: 53
significant bits, and no place below `2 ^ (-1074)` (subnormal numbers). -/
def binary64_exponent (n d : Nat) : Int :=
  max (floor_log2 n d - 52) (-1074)

/-- The binary64 number nearest to `n / d`, ties to even, for `d > 0` and
`n / d < 2 ^ 1024`. -/
def binary64_of_fraction (n d : Nat) : ℚ :=
  if n = 0 then 0
  else
    mkRat
      ((round_half_even (n * 2 ^ (-binary64_exponent n d).toNat)
          (d * 2 ^ (binary64_exponent n d).toNat) * 2 ^ (binary64_exponent n d).toNat : Nat) : Int)
      (2 ^ (-binary64_exponent n d).toNat)

/-- The value of type `double` that a C operation with the exact result `x`
delivers: the binary64 number nearest to `x`, ties to even, for
`|x| < 2 ^ 1024` (larger results, which C turns into an infinity, do not arise
from `unsigned long long` counters and an `int` interval). -/
def binary64 (x : ℚ) : ℚ :=
  if x.num < 0 then -binary64_of_fraction x.num.natAbs x.den
  else binary64_of_fraction x.num.natAbs x.den

/-- The C expression `((double)diff * 8.0) / (interval * 1000000.0)` in binary64
arithmetic (IEEE 754, round to nearest, every operation evaluated in `double`):
the conversion of `diff`, the product, the conversion of `interval`, its product
with `1000000.0` and the quotient are each rounded. -/
def to_mbps_binary64 (interval : Nat) (diff : Nat) : ℚ :=
  binary64 (binary64 (binary64 (diff : ℚ) * 8) / binary64 (binary64 (interval : ℚ) * 1000000))

/-- Whether `x` is a non-negative binary64 number: `m * 2 ^ j` with at most 53
binary digits in `m` and `j` not below the exponent of the subnormal numbers. -/
def is_binary64 (x : ℚ) : Prop :=
  ∃ (m : Nat) (j : Int), m ≤ 2 ^ 53 ∧ -1074 ≤ j ∧ x = (m : ℚ) * (2 : ℚ) ^ j

/-- The rates of one iteration of the loop of `main` as `tick_rates`, with the
binary64 arithmetic of `double` instead of exact arithmetic. -/
def Network_Test.tick_rates_binary64 (sample_interval prev_rx prev_tx cur_rx cur_tx : Nat) : ℚ × ℚ :=
  let rxdiff := counter_diff cur_rx prev_rx
  let txdiff := counter_diff cur_tx prev_tx
  (to_mbps_binary64 sample_interval rxdiff, to_mbps_binary64 sample_interval txdiff)

/-! ## Lemmas on `fgets` -/

theorem fgets_take_append (k : Nat) (s : List Char) :
    (fgets_take k s).1 ++ (fgets_take k s).2 = s := by
  induction k generalizing s with
  | zero => simp [fgets_take]
  | succ k ih =>
    cases s with
    | nil => simp [fgets_take]
    | cons c s =>
      by_cases h : c = '\n'
      · simp [fgets_take, h]
      · simp [fgets_take, h, ih s]

theorem fgets_take_rest_length (k : Nat) (c : Char) (s : List Char) :
    (fgets_take (k + 1) (c :: s)).2.length ≤ s.length := by
  have h := congrArg List.length (fgets_take_append k s)
  by_cases hc : c = '\n'
  · simp [fgets_take, hc]
  · simp only [fgets_take, hc, if_false]
    simp only [List.length_append] at h
    omega

theorem fgets_take_line_nl (k : Nat) (l rest : List Char) (hl : '\n' ∉ l) (hk : l.length < k) :
    fgets_take k (l ++ '\n' :: rest) = (l ++ ['\n'], rest) := by
  induction l generalizing k with
  | nil =>
    cases k with
    | zero => omega
    | succ k => simp [fgets_take]
  | cons c l ih =>
    cases k with
    | zero => simp at hk
    | succ k =>
      have hc : c ≠ '\n' := fun h => hl (by simp [h])
      have hl2 : '\n' ∉ l := fun h => hl (by simp [h])
      have hk2 : l.length < k := by simpa using hk
      simp [fgets_take, hc, ih k hl2 hk2]

theorem fgets_take_line_full (k : Nat) (l rest : List Char) (hl : '\n' ∉ l)
    (hk : l.length = k) : fgets_take k (l ++ rest) = (l, rest) := by
  induction l generalizing k with
  | nil =>
    subst hk
    simp [fgets_take]
  | cons c l ih =>
    cases k with
    | zero => simp at hk
    | succ k =>
      have hc : c ≠ '\n' := fun h => hl (by simp [h])
      have hl2 : '\n' ∉ l := fun h => hl (by simp [h])
      have hk2 : l.length = k := by simpa using hk
      simp [fgets_take, hc, ih k hl2 hk2]

theorem fgets_take_line_eof (k : Nat) (l : List Char) (hl : '\n' ∉ l) (hk : l.length ≤ k) :
    fgets_take k l = (l, []) := by
  induction l generalizing k with
  | nil => cases k <;> simp [fgets_take]
  | cons c l ih =>
    cases k with
    | zero => simp at hk
    | succ k =>
      have hc : c ≠ '\n' := fun h => hl (by simp [h])
      have hl2 : '\n' ∉ l := fun h => hl (by simp [h])
      have hk2 : l.length ≤ k := by simpa using hk
      simp [fgets_take, hc, ih k hl2 hk2]

/-! ## Lemmas on the loop of `read_bytes` -/

theorem read_bytes_loop_fuel (iface : List Char) (f1 f2 : Nat) (fp : List Char)
    (h1 : fp.length ≤ f1) (h2 : fp.length ≤ f2) :
    read_bytes_loop iface f1 fp = read_bytes_loop iface f2 fp := by
  induction f1 generalizing f2 fp with
  | zero =>
    have hfp : fp = [] := List.length_eq_zero.mp (by omega)
    subst hfp
    cases f2 <;> simp [read_bytes_loop, fgets]
  | succ n ih =>
    cases fp with
    | nil => cases f2 <;> simp [read_bytes_loop, fgets]
    | cons c s =>
      cases f2 with
      | zero => simp at h2
      | succ m =>
        have hr : (fgets_take 255 (c :: s)).2.length ≤ s.length :=
          fgets_take_rest_length 254 c s
        have hn : (fgets_take 255 (c :: s)).2.length ≤ n := by
          simp only [List.length_cons] at h1; omega
        have hm : (fgets_take 255 (c :: s)).2.length ≤ m := by
          simp only [List.length_cons] at h2; omega
        simp only [read_bytes_loop, fgets, LINE_SIZE]
        rw [ih m _ hn hm]

/-- One iteration of the loop on a record that fails the test on `strstr`. -/
theorem read_bytes_loop_skip (iface : List Char) (c : Char) (s : List Char)
    (h : iface_at_start (fgets_take 255 (c :: s)).1 iface = false) :
    read_bytes_loop iface (c :: s).length (c :: s) =
      read_bytes_loop iface (fgets_take 255 (c :: s)).2.length (fgets_take 255 (c :: s)).2 := by
  have hr : (fgets_take 255 (c :: s)).2.length ≤ s.length :=
    fgets_take_rest_length 254 c s
  simp only [List.length_cons, read_bytes_loop, fgets, LINE_SIZE, h]
  exact read_bytes_loop_fuel iface _ _ _ hr (le_refl _)

/-! ## Lemmas on the test on `strstr` and `strspn` -/

theorem strspn_space_cons (c : Char) (s : List Char) :
    strspn (c :: s) [' '] = if c = ' ' then strspn s [' '] + 1 else 0 := by
  by_cases h : c = ' ' <;> simp [strspn, List.takeWhile_cons, h]

theorem iface_at_start_begins (s n : List Char) (h : iface_at_start s n = true) :
    begins_with s n = true := by
  induction s with
  | nil =>
    by_cases hn : n = []
    · simp [begins_with, hn, starts_with]
    · simp [iface_at_start, strstr, hn] at h
  | cons c s ih =>
    by_cases hc : c = ' '
    · subst hc
      by_cases hs : starts_with n (' ' :: s) = true
      · simp [iface_at_start, strstr, hs, strspn_space_cons] at h
      · have : iface_at_start s n = true := by
          simp only [iface_at_start, strstr, hs, strspn_space_cons] at h ⊢
          cases hq : strstr s n with
          | none => simp [hq] at h
          | some j => simpa [hq] using h
        simpa [begins_with] using ih this
    · by_cases hs : starts_with n (c :: s) = true
      · simp [begins_with, List.dropWhile_cons, hc, hs]
      · simp only [iface_at_start, strstr, hs, strspn_space_cons, hc] at h
        cases hq : strstr s n with
        | none => simp [hq] at h
        | some j => simp [hq] at h

theorem begins_iface_at_start (s n : List Char) (a : Char) (t : List Char) (hn : n = a :: t)
    (ha : a ≠ ' ') (h : begins_with s n = true) : iface_at_start s n = true := by
  induction s with
  | nil => simp [begins_with, hn, starts_with] at h
  | cons c s ih =>
    by_cases hc : c = ' '
    · subst hc
      have hs : starts_with n (' ' :: s) = false := by simp [hn, starts_with, ha]
      have h2 : begins_with s n = true := by simpa [begins_with] using h
      have h3 := ih h2
      simp only [iface_at_start, strstr, hs, strspn_space_cons] at h3 ⊢
      cases hq : strstr s n with
      | none => simp [hq] at h3
      | some j => simpa [hq] using h3
    · have hs : starts_with n (c :: s) = true := by
        simpa [begins_with, List.dropWhile_cons, hc] using h
      simp [iface_at_start, strstr, hs, strspn_space_cons, hc]

theorem isspace_newline : isspace '\n' = true := by decide

theorem iface_name_head (name : List Char) (h : is_iface_name name) :
    ∃ a t, name = a :: t ∧ a ≠ ' ' ∧ a ≠ '\n' := by
  obtain ⟨hne, hsp⟩ := h
  cases name with
  | nil => exact absurd rfl hne
  | cons a t =>
    refine ⟨a, t, rfl, ?_, ?_⟩
    · intro ha
      have := hsp a (by simp)
      rw [ha] at this
      exact absurd this (by decide)
    · intro ha
      have := hsp a (by simp)
      rw [ha] at this
      exact absurd this (by decide)

theorem starts_with_append_self (n t : List Char) : starts_with n (n ++ t) = true := by
  induction n with
  | nil => simp [starts_with]
  | cons a n ih => simp [starts_with, ih]

theorem starts_with_drop_newline (n s : List Char) (hn : '\n' ∉ n)
    (h : starts_with n (s ++ ['\n']) = true) : starts_with n s = true := by
  induction n generalizing s with
  | nil => simp [starts_with]
  | cons a n ih =>
    have ha : a ≠ '\n' := fun e => hn (by simp [e])
    have hn2 : '\n' ∉ n := fun e => hn (by simp [e])
    cases s with
    | nil => simp [starts_with, ha] at h
    | cons b s =>
      simp only [List.cons_append, starts_with, Bool.and_eq_true] at h ⊢
      exact ⟨h.1, ih s hn2 h.2⟩

theorem dropWhile_space_append_newline (l : List Char) :
    (l ++ ['\n']).dropWhile (fun c => c == ' ') = l.dropWhile (fun c => c == ' ') ++ ['\n'] := by
  induction l with
  | nil => simp [List.dropWhile_cons]
  | cons c l ih =>
    by_cases hc : c = ' '
    · simp [List.dropWhile_cons, hc, ih]
    · simp [List.dropWhile_cons, hc]

theorem begins_with_record (l name : List Char) (hname : is_iface_name name)
    (h : begins_with l name = false) : begins_with (l ++ ['\n']) name = false := by
  have hnl : '\n' ∉ name := by
    intro hmem
    have := hname.2 _ hmem
    rw [isspace_newline] at this
    exact absurd this (by decide)
  cases hb : begins_with (l ++ ['\n']) name with
  | false => rfl
  | true =>
    have h2 : starts_with name (l.dropWhile (fun c => c == ' ')) = true := by
      apply starts_with_drop_newline _ _ hnl
      rw [← dropWhile_space_append_newline]
      exact hb
    rw [begins_with, h2] at h
    exact absurd h (by decide)

theorem begins_with_newline (name : List Char) (hname : is_iface_name name) :
    begins_with ['\n'] name = false := by
  obtain ⟨a, t, rfl, _, ha⟩ := iface_name_head name hname
  simp [begins_with, List.dropWhile_cons, starts_with, ha]

theorem iface_at_start_false (l name : List Char) (h : begins_with l name = false) :
    iface_at_start l name = false := by
  cases hi : iface_at_start l name with
  | false => rfl
  | true =>
    rw [iface_at_start_begins l name hi] at h
    exact absurd h (by decide)

/-- The loop of `read_bytes` passes over a line of at most 255 characters that
does not begin with the name, and over the newline that ends it. -/
theorem read_bytes_loop_skip_line (name l rest : List Char) (hname : is_iface_name name)
    (hnl : '\n' ∉ l) (hlen : l.length < 256) (hb : begins_with l name = false) :
    read_bytes_loop name (l ++ '\n' :: rest).length (l ++ '\n' :: rest) =
      read_bytes_loop name rest.length rest := by
  by_cases hfull : l.length = 255
  · -- the newline is read as a record of its own
    cases l with
    | nil => simp at hfull
    | cons c l =>
      have e1 : fgets_take 255 (c :: l ++ '\n' :: rest) = (c :: l, '\n' :: rest) :=
        fgets_take_line_full 255 (c :: l) ('\n' :: rest) hnl hfull
      have s1 := read_bytes_loop_skip name c (l ++ '\n' :: rest)
        (by rw [← List.cons_append, e1]; exact iface_at_start_false _ _ hb)
      rw [← List.cons_append, e1] at s1
      have e2 : fgets_take 255 ('\n' :: rest) = (['\n'], rest) := by simp [fgets_take]
      have s2 := read_bytes_loop_skip name '\n' rest
        (by rw [e2]; exact iface_at_start_false _ _ (begins_with_newline name hname))
      rw [e2] at s2
      exact s1.trans s2
  · have hlt : l.length < 255 := by omega
    have e1 : fgets_take 255 (l ++ '\n' :: rest) = (l ++ ['\n'], rest) :=
      fgets_take_line_nl 255 l rest hnl hlt
    cases hl : l ++ '\n' :: rest with
    | nil => simp at hl
    | cons c s =>
      have s1 := read_bytes_loop_skip name c s
        (by rw [← hl, e1]; exact iface_at_start_false _ _ (begins_with_record l name hname hb))
      rw [← hl, e1] at s1
      rw [← hl]
      exact s1

/-- The loop of `read_bytes` passes over any number of such lines. -/
theorem read_bytes_loop_skip_lines (name : List Char) (ls : List (List Char)) (rest : List Char)
    (hname : is_iface_name name)
    (h : ∀ l ∈ ls, '\n' ∉ l ∧ l.length < 256 ∧ begins_with l name = false) :
    read_bytes_loop name (lines_text ls ++ rest).length (lines_text ls ++ rest) =
      read_bytes_loop name rest.length rest := by
  induction ls with
  | nil => simp [lines_text]
  | cons l ls ih =>
    obtain ⟨h1, h2, h3⟩ := h l (by simp)
    have e : lines_text (l :: ls) ++ rest = l ++ '\n' :: (lines_text ls ++ rest) := by
      simp [lines_text]
    rw [e, read_bytes_loop_skip_line name l _ hname h1 h2 h3]
    exact ih (fun l hl => h l (by simp [hl]))

/-! ## Lemmas on `sscanf` -/

theorem isspace_not_isdigit (c : Char) (h : isspace c = true) : isdigit c = false := by
  simp only [isspace, Bool.or_eq_true, beq_iff_eq] at h
  rcases h with ((((h | h) | h) | h) | h) | h <;> subst h <;> decide

theorem isdigit_not_isspace (c : Char) (h : isdigit c = true) : isspace c = false := by
  cases hs : isspace c with
  | false => rfl
  | true =>
    rw [isspace_not_isdigit c hs] at h
    exact absurd h (by decide)

theorem takeWhile_append_stop (p : Char → Bool) (l r : List Char) (hl : ∀ c ∈ l, p c = true)
    (hr : ∀ c, r.head? = some c → p c = false) : (l ++ r).takeWhile p = l := by
  induction l with
  | nil =>
    cases r with
    | nil => rfl
    | cons c r => simp [List.takeWhile_cons, hr c rfl]
  | cons a l ih =>
    have ha : p a = true := hl a (by simp)
    simp [List.takeWhile_cons, ha, ih (fun c hc => hl c (by simp [hc]))]

theorem dropWhile_append_stop (p : Char → Bool) (l r : List Char) (hl : ∀ c ∈ l, p c = true)
    (hr : ∀ c, r.head? = some c → p c = false) : (l ++ r).dropWhile p = r := by
  induction l with
  | nil =>
    cases r with
    | nil => rfl
    | cons c r => simp [List.dropWhile_cons, hr c rfl]
  | cons a l ih =>
    have ha : p a = true := hl a (by simp)
    simp [List.dropWhile_cons, ha, ih (fun c hc => hl c (by simp [hc]))]

theorem scan_llu_field (sep ds more : List Char) (hsep : ∀ c ∈ sep, isspace c = true)
    (hne : ds ≠ []) (hds : ∀ c ∈ ds, isdigit c = true) (hv : digits_value ds < ULL)
    (hmore : stops more) :
    scan_llu (sep ++ ds ++ more) = some (digits_value ds, more) := by
  cases ds with
  | nil => exact absurd rfl hne
  | cons d ds =>
    have hd : isdigit d = true := hds d (by simp)
    have hdsp : isspace d = false := isdigit_not_isspace d hd
    have hminus : d ≠ '-' := by
      intro e; rw [e] at hd; exact absurd hd (by decide)
    have hplus : d ≠ '+' := by
      intro e; rw [e] at hd; exact absurd hd (by decide)
    have e1 : skip_space (sep ++ (d :: ds) ++ more) = d :: ds ++ more := by
      rw [skip_space, List.append_assoc]
      apply dropWhile_append_stop isspace sep _ hsep
      intro c hc
      simp only [List.cons_append, List.head?_cons, Option.some.injEq] at hc
      rw [← hc]; exact hdsp
    have e2 : (d :: ds ++ more).takeWhile isdigit = d :: ds :=
      takeWhile_append_stop isdigit (d :: ds) more hds hmore
    have e3 : (d :: ds ++ more).dropWhile isdigit = more :=
      dropWhile_append_stop isdigit (d :: ds) more hds hmore
    have hv2 : ¬ ULL ≤ digits_value (d :: ds) := by omega
    have hs1 : (some d == some '-') = false := by simp [hminus]
    have hs2 : (some d == some '+') = false := by simp [hplus]
    have e4 : (d :: ds ++ more).head? = some d := rfl
    simp only [scan_llu, e1, e4, hs1, hs2, Bool.or_self, Bool.false_eq_true, if_false, e2, e3,
      hv2]
    simp

theorem stops_fields_text (fs : List (List Char × List Char)) (tail : List Char)
    (hf : ∀ f ∈ fs, is_field f) (hsep : ∀ f ∈ fs, f.1 ≠ []) (ht : stops tail) :
    stops (fields_text fs ++ tail) := by
  cases fs with
  | nil => simpa [fields_text] using ht
  | cons f fs =>
    intro c hc
    have h1 := hsep f (by simp)
    cases hs : f.1 with
    | nil => exact absurd hs h1
    | cons a sep =>
      simp only [fields_text, hs, List.cons_append, List.head?_cons, Option.some.injEq] at hc
      have hb := (hf f (by simp)).1 a (by simp [hs])
      simp only [is_blank, Bool.and_eq_true] at hb
      rw [← hc]
      exact isspace_not_isdigit a hb.1

theorem scan_llus_fields (fs : List (List Char × List Char)) (tail : List Char)
    (hf : ∀ f ∈ fs, is_field f) (hsep : ∀ f ∈ fs.tail, f.1 ≠ []) (ht : stops tail) :
    scan_llus fs.length (fields_text fs ++ tail) = fs.map (fun f => digits_value f.2) := by
  induction fs with
  | nil => simp [scan_llus]
  | cons f fs ih =>
    obtain ⟨h1, h2, h3, h4⟩ := hf f (by simp)
    have hf2 : ∀ g ∈ fs, is_field g := fun g hg => hf g (by simp [hg])
    have hsep2 : ∀ g ∈ fs, g.1 ≠ [] := by simpa using hsep
    have hmore := stops_fields_text fs tail hf2 hsep2 ht
    have hsp : ∀ c ∈ f.1, isspace c = true := by
      intro c hc
      have := h1 c hc
      simp only [is_blank, Bool.and_eq_true] at this
      exact this.1
    have e : fields_text (f :: fs) ++ tail = f.1 ++ f.2 ++ (fields_text fs ++ tail) := by
      simp [fields_text]
    rw [List.length_cons, scan_llus, e, scan_llu_field f.1 f.2 _ hsp h2 h3 h4 hmore]
    simp only [List.map_cons]
    rw [ih hf2 (fun g hg => hsep2 g (List.mem_of_mem_tail hg))]

theorem stops_trail (trail nl : List Char) (ht : ∀ c ∈ trail, is_blank c = true)
    (hnl : nl = [] ∨ nl = ['\n']) : stops (trail ++ nl) := by
  intro c hc
  cases trail with
  | nil =>
    rcases hnl with h | h
    · simp [h] at hc
    · simp only [h, List.nil_append, List.head?_cons, Option.some.injEq] at hc
      rw [← hc]; decide
  | cons a t =>
    simp only [List.cons_append, List.head?_cons, Option.some.injEq] at hc
    have := ht a (by simp)
    simp only [is_blank, Bool.and_eq_true] at this
    rw [← hc]
    exact isspace_not_isdigit a this.1

theorem sscanf_line_counter_line (k : Nat) (name : List Char)
    (fields : List (List Char × List Char)) (tail : List Char)
    (hname : is_iface_name name) (hlen : name.length < 32) (hcolon : ':' ∉ name)
    (hfields : are_fields fields) (h16 : fields.length = 16) (ht : stops tail) :
    sscanf_line (List.replicate k ' ' ++ name ++ ':' :: (fields_text fields ++ tail)) =
      some (17, fields.map (fun f => digits_value f.2)) := by
  obtain ⟨a, t, hn, _, _⟩ := iface_name_head name hname
  have ha : isspace a = false := hname.2 a (by simp [hn])
  have e1 : skip_space (List.replicate k ' ' ++ name ++ ':' :: (fields_text fields ++ tail)) =
      name ++ ':' :: (fields_text fields ++ tail) := by
    rw [skip_space, List.append_assoc]
    apply dropWhile_append_stop isspace
    · intro c hc
      rw [List.eq_of_mem_replicate hc]; decide
    · intro c hc
      simp only [hn, List.cons_append, List.head?_cons, Option.some.injEq] at hc
      rw [← hc]; exact ha
  have hp : ∀ c ∈ name, (fun c => c != ':') c = true := by
    intro c hc
    have : c ≠ ':' := fun e => hcolon (e ▸ hc)
    simp [this]
  have hq : ∀ c, (':' :: (fields_text fields ++ tail)).head? = some c →
      (fun c => c != ':') c = false := by
    intro c hc
    simp only [List.head?_cons, Option.some.injEq] at hc
    simp [← hc]
  have e2 := takeWhile_append_stop (fun c => c != ':') name _ hp hq
  have e3 := dropWhile_append_stop (fun c => c != ':') name _ hp hq
  have e4 := scan_llus_fields fields tail hfields.1 hfields.2 ht
  rw [h16] at e4
  have hne : name ++ ':' :: (fields_text fields ++ tail) ≠ [] := by simp [hn]
  have hlen2 : ¬ IFACE_NAME_SIZE ≤ name.length := by simp only [IFACE_NAME_SIZE]; omega
  simp only [sscanf_line, e1, e2, e3, e4, hne, hname.1, hlen2, if_false, List.length_map, h16]
  rfl

theorem not_newline_of_isdigit (c : Char) (h : isdigit c = true) : c ≠ '\n' := by
  intro e; rw [e] at h; exact absurd h (by decide)

theorem fields_text_no_newline (fs : List (List Char × List Char))
    (hf : ∀ f ∈ fs, is_field f) : '\n' ∉ fields_text fs := by
  induction fs with
  | nil => simp [fields_text]
  | cons f fs ih =>
    obtain ⟨h1, _, h3, _⟩ := hf f (by simp)
    intro hmem
    simp only [fields_text, List.mem_append] at hmem
    rcases hmem with (h | h) | h
    · have := h1 _ h
      simp [is_blank] at this
    · exact not_newline_of_isdigit _ (h3 _ h) rfl
    · exact ih (fun g hg => hf g (by simp [hg])) h

theorem counter_line_no_newline (k : Nat) (name : List Char)
    (fields : List (List Char × List Char)) (trail : List Char)
    (hname : is_iface_name name) (hfields : are_fields fields)
    (htrail : ∀ c ∈ trail, is_blank c = true) : '\n' ∉ counter_line k name fields trail := by
  intro hmem
  simp only [counter_line, List.mem_append, List.mem_cons, List.mem_replicate] at hmem
  rcases hmem with (h | h) | h | h | h
  · exact absurd h.2 (by decide)
  · have := hname.2 _ h
    rw [isspace_newline] at this
    exact absurd this (by decide)
  · exact absurd h (by decide)
  · exact fields_text_no_newline fields hfields.1 h
  · have := htrail _ h
    simp [is_blank] at this

/-- One iteration of the loop on a record that passes the test on `strstr` and
from which `sscanf` converts at least ten items. -/
theorem read_bytes_loop_accept (iface : List Char) (c : Char) (s : List Char) (n : Int)
    (vals : List Nat) (h : iface_at_start (fgets_take 255 (c :: s)).1 iface = true)
    (hs : sscanf_line (fgets_take 255 (c :: s)).1 = some (n, vals)) (hn : 10 ≤ n) :
    read_bytes_loop iface (c :: s).length (c :: s) = some ⟨0, vals.getD 0 0, vals.getD 8 0⟩ := by
  simp only [List.length_cons, read_bytes_loop, fgets, LINE_SIZE, h, hs, hn, if_true]

/-- The record `fgets` reads at a line of at most 255 characters that is
followed by the end of the text or by a newline: the line, with its newline
when that fits. -/
theorem fgets_take_at_line (line after : List Char) (hnl : '\n' ∉ line)
    (hlen : line.length < 256) (hafter : after = [] ∨ ∃ t, after = '\n' :: t) :
    ∃ nl, (nl = [] ∨ nl = ['\n']) ∧ (fgets_take 255 (line ++ after)).1 = line ++ nl := by
  rcases hafter with h | ⟨t, h⟩
  · subst h
    refine ⟨[], Or.inl rfl, ?_⟩
    rw [List.append_nil, fgets_take_line_eof 255 line hnl (by omega)]
  · subst h
    by_cases hfull : line.length = 255
    · refine ⟨[], Or.inl rfl, ?_⟩
      rw [fgets_take_line_full 255 line _ hnl hfull]
      simp
    · refine ⟨['\n'], Or.inr rfl, ?_⟩
      rw [fgets_take_line_nl 255 line t hnl (by omega)]

/-! ## The counter table: statements -/

set_option maxRecDepth 100000

/-- C1 (code defect): on the table whose only line is
`eth01: 1 0 0 0 0 0 0 0 2 0 0 0 0 0 0 0`, `read_bytes("eth0")` succeeds with
`rx = 1` and `tx = 2`: the test on `strstr` and `strspn` accepts a line whose
token merely starts with the name. -/
theorem read_bytes_accepts_longer_token :
    read_bytes (some "eth01: 1 0 0 0 0 0 0 0 2 0 0 0 0 0 0 0\n".toList) "eth0".toList 0 0 =
      some ⟨0, 1, 2⟩ := by
  decide

/-- C2 (amended): for a table line shorter than 256 characters made of leading
spaces, an interface name (not empty, under 32 characters, no colon, no white
space), a colon and sixteen decimal numbers below `2 ^ 64` separated by white
space, when every earlier line of the table is shorter than 256 characters and
none of them begins with the name, `read_bytes(name)` returns 0 with `rx` the
first number and `tx` the ninth. -/
theorem read_bytes_counter_line (earlier : List (List Char)) (k : Nat) (name : List Char)
    (fields : List (List Char × List Char)) (trail after : List Char) (rx0 tx0 : Nat)
    (hname : is_iface_name name) (hlen : name.length < 32) (hcolon : ':' ∉ name)
    (hfields : are_fields fields) (h16 : fields.length = 16)
    (htrail : ∀ c ∈ trail, is_blank c = true)
    (hline : (counter_line k name fields trail).length < 256)
    (hafter : after = [] ∨ ∃ t, after = '\n' :: t)
    (hearlier : ∀ l ∈ earlier, '\n' ∉ l ∧ l.length < 256 ∧ begins_with l name = false) :
    read_bytes (some (lines_text earlier ++ (counter_line k name fields trail ++ after)))
        name rx0 tx0 =
      some ⟨0, (fields.map (fun f => digits_value f.2)).getD 0 0,
        (fields.map (fun f => digits_value f.2)).getD 8 0⟩ := by
  obtain ⟨a, t, hn, ha, _⟩ := iface_name_head name hname
  have hnl := counter_line_no_newline k name fields trail hname hfields htrail
  obtain ⟨nl, hnl2, hrec⟩ := fgets_take_at_line _ after hnl hline hafter
  rw [read_bytes, read_bytes_loop_skip_lines name earlier _ hname hearlier]
  cases hcs : counter_line k name fields trail ++ after with
  | nil => simp [counter_line, hn] at hcs
  | cons c s =>
    rw [hcs] at hrec
    have hrec2 : (fgets_take 255 (c :: s)).1 =
        List.replicate k ' ' ++ name ++ ':' :: (fields_text fields ++ (trail ++ nl)) := by
      rw [hrec]; simp [counter_line]
    apply read_bytes_loop_accept name c s 17
    · rw [hrec2]
      apply begins_iface_at_start _ name a t hn ha
      rw [begins_with, List.append_assoc,
        dropWhile_append_stop (fun c => c == ' ') (List.replicate k ' ')]
      · exact starts_with_append_self name _
      · intro c hc
        rw [List.eq_of_mem_replicate hc]; decide
      · intro c hc
        simp only [hn, List.cons_append, List.head?_cons, Option.some.injEq] at hc
        simp [← hc, ha]
    · rw [hrec2]
      exact sscanf_line_counter_line k name fields _ hname hlen hcolon hfields h16
        (stops_trail trail nl htrail hnl2)
    · decide

/-- C2, witness: the line `wlan0: 123456 10 0 0 0 0 0 0 654321 5 0 0 0 0 0 0`
after the line of `lo`, with the name `wlan0`, gives `rx = 123456` and
`tx = 654321`. -/
theorem read_bytes_counter_line_witness :
    read_bytes
        (some ("    lo: 100 2 0 0 0 0 0 0 100 2 0 0 0 0 0 0\n".toList ++
          " wlan0: 123456 10 0 0 0 0 0 0 654321 5 0 0 0 0 0 0\n".toList))
        "wlan0".toList 0 0 =
      some ⟨0, 123456, 654321⟩ :=
  read_bytes_counter_line ["    lo: 100 2 0 0 0 0 0 0 100 2 0 0 0 0 0 0".toList] 1 "wlan0".toList
    [([' '], "123456".toList), ([' '], "10".toList), ([' '], ['0']), ([' '], ['0']),
      ([' '], ['0']), ([' '], ['0']), ([' '], ['0']), ([' '], ['0']),
      ([' '], "654321".toList), ([' '], ['5']), ([' '], ['0']), ([' '], ['0']),
      ([' '], ['0']), ([' '], ['0']), ([' '], ['0']), ([' '], ['0'])]
    [] ['\n'] 0 0
    (by decide) (by decide) (by decide)
    (by decide) (by decide) (by decide) (by decide)
    (Or.inr ⟨[], rfl⟩) (by decide)

/-- C2 (as stated, without a bound on the length of the earlier lines) fails: an
earlier line of 255 characters `x` followed by `wlan0: 9 0 0 0 0 0 0 0 8 ...`
does not begin with `wlan0`, yet `fgets` reads it in two pieces and the second
piece is accepted, so `read_bytes("wlan0")` returns `rx = 9`, `tx = 8` and not
the counters 1 and 2 of the later line of `wlan0`. -/
theorem read_bytes_counter_line_long_earlier :
    ¬ ∀ (earlier : List (List Char)) (k : Nat) (name : List Char)
        (fields : List (List Char × List Char)) (trail after : List Char) (rx0 tx0 : Nat),
        is_iface_name name → name.length < 32 → ':' ∉ name →
        are_fields fields → fields.length = 16 →
        (∀ c ∈ trail, is_blank c = true) →
        (counter_line k name fields trail).length < 256 →
        (after = [] ∨ ∃ t, after = '\n' :: t) →
        (∀ l ∈ earlier, '\n' ∉ l ∧ begins_with l name = false) →
        read_bytes (some (lines_text earlier ++ (counter_line k name fields trail ++ after)))
            name rx0 tx0 =
          some ⟨0, (fields.map (fun f => digits_value f.2)).getD 0 0,
            (fields.map (fun f => digits_value f.2)).getD 8 0⟩ := by
  intro h
  have h1 := h [List.replicate 255 'x' ++ "wlan0: 9 0 0 0 0 0 0 0 8 0 0 0 0 0 0 0".toList]
    0 "wlan0".toList
    [([' '], ['1']), ([' '], ['0']), ([' '], ['0']), ([' '], ['0']),
      ([' '], ['0']), ([' '], ['0']), ([' '], ['0']), ([' '], ['0']),
      ([' '], ['2']), ([' '], ['0']), ([' '], ['0']), ([' '], ['0']),
      ([' '], ['0']), ([' '], ['0']), ([' '], ['0']), ([' '], ['0'])]
    [] ['\n'] 0 0
    (by decide) (by decide) (by decide)
    (by decide) (by decide) (by decide) (by decide)
    (Or.inr ⟨[], rfl⟩) (by decide)
  revert h1
  decide

/-- C3 (amended): for an interface name (not empty, no white space) and a
table whose lines are all shorter than 256 characters and none of which begins,
after leading spaces, with the name, `read_bytes` returns the failure result -1
(with `rx = tx = 0`), never the success result 0. The last line of the table
may lack its newline. -/
theorem read_bytes_absent (name : List Char) (ls : List (List Char)) (last : List Char)
    (rx0 tx0 : Nat) (hname : is_iface_name name)
    (h : ∀ l ∈ ls ++ [last], '\n' ∉ l ∧ l.length < 256 ∧ begins_with l name = false) :
    read_bytes (some (lines_text ls ++ last)) name rx0 tx0 = some ⟨-1, 0, 0⟩ := by
  rw [read_bytes, read_bytes_loop_skip_lines name ls last hname
    (fun l hl => h l (by simp [hl]))]
  obtain ⟨h1, h2, h3⟩ := h last (by simp)
  cases last with
  | nil => simp [read_bytes_loop]
  | cons c s =>
    have e : fgets_take 255 (c :: s) = (c :: s, []) :=
      fgets_take_line_eof 255 (c :: s) h1 (by omega)
    have s1 := read_bytes_loop_skip name c s (by rw [e]; exact iface_at_start_false _ _ h3)
    rw [e] at s1
    rw [s1]
    simp [read_bytes_loop]

/-- C3, witness: `read_bytes("nonexistent-iface-xyz")` fails on a table that
lists only `lo` and `wlan0`. -/
theorem read_bytes_absent_witness :
    read_bytes
        (some ("    lo: 100 2 0 0 0 0 0 0 100 2 0 0 0 0 0 0\n".toList ++
          " wlan0: 123456 10 0 0 0 0 0 0 654321 5 0 0 0 0 0 0\n".toList))
        "nonexistent-iface-xyz".toList 0 0 =
      some ⟨-1, 0, 0⟩ :=
  read_bytes_absent "nonexistent-iface-xyz".toList
    ["    lo: 100 2 0 0 0 0 0 0 100 2 0 0 0 0 0 0".toList,
      " wlan0: 123456 10 0 0 0 0 0 0 654321 5 0 0 0 0 0 0".toList] [] 0 0
    (by decide) (by decide)

/-- C3 (as stated, for tables with lines of any length) fails: the only line of
the table, 255 characters `y` followed by `eth0: 5 0 0 0 0 0 0 0 7 ...`, does
not begin with `eth0`, yet `read_bytes("eth0")` returns 0 with `rx = 5` and
`tx = 7`, because `fgets` delivers the part after the 255th character as a
record of its own. -/
theorem read_bytes_absent_long_line :
    ¬ ∀ (name : List Char) (ls : List (List Char)) (last : List Char) (rx0 tx0 : Nat),
        is_iface_name name →
        (∀ l ∈ ls ++ [last], '\n' ∉ l ∧ begins_with l name = false) →
        ∃ r, read_bytes (some (lines_text ls ++ last)) name rx0 tx0 = some r ∧ r.ret = -1 := by
  intro h
  obtain ⟨r, h1, h2⟩ := h "eth0".toList
    [List.replicate 255 'y' ++ "eth0: 5 0 0 0 0 0 0 0 7 0 0 0 0 0 0 0".toList] [] 0 0
    (by decide) (by decide)
  have h3 : read_bytes (some (lines_text
      [List.replicate 255 'y' ++ "eth0: 5 0 0 0 0 0 0 0 7 0 0 0 0 0 0 0".toList] ++ []))
      "eth0".toList 0 0 = some ⟨0, 5, 7⟩ := by decide
  rw [h3] at h1
  cases h1
  exact absurd h2 (by decide)

/-! ## One failure value -/

theorem read_bytes_loop_none_accepted (iface : List Char) (fuel : Nat) (fp : List Char)
    (h : ∀ r ∈ fgets_records fuel fp, iface_at_start r iface = true → few_fields r = true) :
    read_bytes_loop iface fuel fp = some ⟨-1, 0, 0⟩ := by
  induction fuel generalizing fp with
  | zero => rfl
  | succ n ih =>
    cases hf : fgets LINE_SIZE fp with
    | none => simp [read_bytes_loop, hf]
    | some p =>
      obtain ⟨line, rest⟩ := p
      have hrec : fgets_records (n + 1) fp = line :: fgets_records n rest := by
        simp [fgets_records, hf]
      have hrest := ih rest (fun r hr => h r (by rw [hrec]; simp [hr]))
      have hline := h line (by rw [hrec]; simp)
      simp only [read_bytes_loop, hf]
      by_cases hi : iface_at_start line iface = true
      · have hfew := hline hi
        simp only [hi, if_true]
        cases hs : sscanf_line line with
        | none => simp [few_fields, hs] at hfew
        | some q =>
          obtain ⟨m, vals⟩ := q
          have hm : ¬ (10 : Int) ≤ m := by
            simp only [few_fields, hs, decide_eq_true_eq] at hfew
            omega
          simp only [hm, if_false]
          exact hrest
      · simp only [hi, Bool.false_eq_true, if_false]
        exact hrest

/-- C10 (amended): `read_bytes` reports an absent interface (no record passes
the test on the name) with the same return value, -1, as a table that cannot be
opened or whose records passing the test all have too few numeric fields; when
both tables can be opened the two results are the same in full (`rx = tx = 0`).
The caller can tell failure from success, not the two failures apart. -/
theorem read_bytes_one_failure_value (p1 p2 : Option (List Char)) (iface : List Char)
    (rx0 tx0 : Nat) (h1 : not_found p1 iface) (h2 : read_error p2 iface) :
    ∃ r1 r2, read_bytes p1 iface rx0 tx0 = some r1 ∧ read_bytes p2 iface rx0 tx0 = some r2 ∧
      r1.ret = -1 ∧ r2.ret = -1 ∧ (p2 ≠ none → r2 = r1) := by
  obtain ⟨t1, rfl, ht1⟩ := h1
  have e1 : read_bytes (some t1) iface rx0 tx0 = some ⟨-1, 0, 0⟩ :=
    read_bytes_loop_none_accepted iface _ _ (fun r hr hi => by
      rw [ht1 r hr] at hi; exact absurd hi (by decide))
  rcases h2 with rfl | ⟨t2, rfl, _, ht2⟩
  · exact ⟨_, _, e1, rfl, rfl, rfl, fun hne => absurd rfl hne⟩
  · have e2 : read_bytes (some t2) iface rx0 tx0 = some ⟨-1, 0, 0⟩ :=
      read_bytes_loop_none_accepted iface _ _ ht2
    exact ⟨_, _, e1, e2, rfl, rfl, fun _ => rfl⟩

/-- C10, witness: a table that lists only `lo` (interface `wlan0` absent) and a
table that cannot be opened both make `read_bytes("wlan0")` return -1. -/
theorem read_bytes_one_failure_value_witness :
    ∃ r1 r2,
      read_bytes (some "lo: 1 0 0 0 0 0 0 0 2 0 0 0 0 0 0 0\n".toList) "wlan0".toList 7 9 =
        some r1 ∧
      read_bytes none "wlan0".toList 7 9 = some r2 ∧
      r1.ret = -1 ∧ r2.ret = -1 ∧ ((none : Option (List Char)) ≠ none → r2 = r1) :=
  read_bytes_one_failure_value (some "lo: 1 0 0 0 0 0 0 0 2 0 0 0 0 0 0 0\n".toList)
    none "wlan0".toList 7 9 ⟨_, rfl, by decide⟩ (Or.inl rfl)

/-- C10 (as stated) fails: there are inputs of the two kinds with the same
result. The interface `wlan0` is absent from a table that lists only `lo`; in
the table `wlan0: 100 200` the line of `wlan0` has too few numeric fields; both
calls return -1 and leave `rx = tx = 0`. -/
theorem read_bytes_failures_coincide :
    ¬ ∀ (p1 p2 : Option (List Char)) (iface : List Char) (rx0 tx0 : Nat),
        not_found p1 iface → read_error p2 iface →
        read_bytes p1 iface rx0 tx0 ≠ read_bytes p2 iface rx0 tx0 := by
  intro h
  exact h (some "lo: 1 0 0 0 0 0 0 0 2 0 0 0 0 0 0 0\n".toList)
    (some "wlan0: 100 200\n".toList) "wlan0".toList 0 0
    ⟨_, rfl, by decide⟩ (Or.inr ⟨_, rfl, by decide, by decide⟩) (by decide)

/-! ## Rates of one tick -/

theorem counter_diff_of_le (cur prev : Nat) (hc : cur < ULL) (h : prev ≤ cur) :
    counter_diff cur prev = cur - prev := by
  have : cur - prev < ULL := by omega
  simp [counter_diff, h, Nat.mod_eq_of_lt this]

theorem counter_diff_of_lt (cur prev : Nat) (h : cur < prev) : counter_diff cur prev = 0 := by
  have : ¬ prev ≤ cur := by omega
  simp [counter_diff, this]

theorem to_mbps_of_le (interval cur prev : Nat) (hc : cur < ULL) (h : prev ≤ cur) :
    to_mbps interval (counter_diff cur prev) =
      ((cur : ℚ) - (prev : ℚ)) * 8 / ((interval : ℚ) * 1000000) := by
  rw [counter_diff_of_le cur prev hc h, to_mbps, Nat.cast_sub h]

/-- C4: in `Network_Test.c`, when `cur_rx < prev_rx` the delta `rxdiff` is 0 (not
negative, not wrapped modulo `2 ^ 64`) and the download rate of the tick is
exactly 0, while the upload rate is still the one of its own delta; likewise
with the two directions exchanged. All counters are `unsigned long long`. -/
theorem tick_rates_counter_decrease (sample_interval prev_rx prev_tx cur_rx cur_tx : Nat)
    (_hsi : 0 < sample_interval) (hrx : cur_rx < ULL) (htx : cur_tx < ULL) :
    (cur_rx < prev_rx →
      counter_diff cur_rx prev_rx = 0 ∧
      (Network_Test.tick_rates sample_interval prev_rx prev_tx cur_rx cur_tx).1 = 0 ∧
      (prev_tx ≤ cur_tx →
        (Network_Test.tick_rates sample_interval prev_rx prev_tx cur_rx cur_tx).2 =
          ((cur_tx : ℚ) - (prev_tx : ℚ)) * 8 / ((sample_interval : ℚ) * 1000000))) ∧
    (cur_tx < prev_tx →
      counter_diff cur_tx prev_tx = 0 ∧
      (Network_Test.tick_rates sample_interval prev_rx prev_tx cur_rx cur_tx).2 = 0 ∧
      (prev_rx ≤ cur_rx →
        (Network_Test.tick_rates sample_interval prev_rx prev_tx cur_rx cur_tx).1 =
          ((cur_rx : ℚ) - (prev_rx : ℚ)) * 8 / ((sample_interval : ℚ) * 1000000))) := by
  refine ⟨fun h => ⟨counter_diff_of_lt _ _ h, ?_, fun h2 => ?_⟩,
    fun h => ⟨counter_diff_of_lt _ _ h, ?_, fun h2 => ?_⟩⟩
  · simp [Network_Test.tick_rates, counter_diff_of_lt _ _ h, to_mbps]
  · simp only [Network_Test.tick_rates]
    exact to_mbps_of_le _ _ _ htx h2
  · simp [Network_Test.tick_rates, counter_diff_of_lt _ _ h, to_mbps]
  · simp only [Network_Test.tick_rates]
    exact to_mbps_of_le _ _ _ hrx h2

/-- C4, witness: from `rx = 5000, tx = 100` to `rx = 10, tx = 300` in one second
the download rate is 0 and the upload rate is `200 * 8 / 1000000`; from
`rx = 10, tx = 300` to `rx = 20, tx = 7` the upload rate is 0 and the download
rate is `10 * 8 / 1000000`. -/
theorem tick_rates_counter_decrease_witness :
    Network_Test.tick_rates 1 5000 100 10 300 = (0, 1 / 625) ∧
      Network_Test.tick_rates 1 10 300 20 7 = (1 / 12500, 0) := by
  have h1 := (tick_rates_counter_decrease 1 5000 100 10 300 (by decide) (by decide)
    (by decide)).1 (by decide)
  have h2 := (tick_rates_counter_decrease 1 10 300 20 7 (by decide) (by decide)
    (by decide)).2 (by decide)
  refine ⟨Prod.ext h1.2.1 ?_, Prod.ext ?_ h2.2.1⟩
  · rw [h1.2.2 (by decide)]; norm_num
  · rw [h2.2.2 (by decide)]; norm_num

/-- In exact arithmetic (`tick_rates`), for snapshots of `unsigned long long`
counters with `cur_rx >= prev_rx` and `cur_tx >= prev_tx`, the download and upload
rates of the tick are `(cur - prev) * 8 / (interval * 1000000)` for their
direction. -/
theorem tick_rates_exact (sample_interval prev_rx prev_tx cur_rx cur_tx : Nat)
    (_hsi : 0 < sample_interval) (hrx : cur_rx < ULL) (htx : cur_tx < ULL)
    (h1 : prev_rx ≤ cur_rx) (h2 : prev_tx ≤ cur_tx) :
    Network_Test.tick_rates sample_interval prev_rx prev_tx cur_rx cur_tx =
      (((cur_rx : ℚ) - (prev_rx : ℚ)) * 8 / ((sample_interval : ℚ) * 1000000),
        ((cur_tx : ℚ) - (prev_tx : ℚ)) * 8 / ((sample_interval : ℚ) * 1000000)) := by
  simp only [Network_Test.tick_rates]
  rw [to_mbps_of_le _ _ _ hrx h1, to_mbps_of_le _ _ _ htx h2]

/-! ## Lemmas on binary64 rounding -/

theorem bit_length_zero (fuel : Nat) : bit_length fuel 0 = 0 := by
  cases fuel with
  | zero => rfl
  | succ f => simp [bit_length]

theorem bit_length_bounds (fuel : Nat) :
    ∀ n, 0 < n → n ≤ fuel →
      2 ^ bit_length fuel n ≤ 2 * n ∧ n < 2 ^ bit_length fuel n := by
  induction fuel with
  | zero => intro n h0 h; omega
  | succ f ih =>
    intro n h0 h
    have hne : n ≠ 0 := by omega
    simp only [bit_length, hne, if_false]
    rw [pow_succ]
    by_cases h2 : n / 2 = 0
    · have h1 : n = 1 := by omega
      subst h1
      simp [bit_length_zero]
    · have := ih (n / 2) (by omega) (by omega)
      omega

theorem zpow_two_split (z : Int) :
    (2 : ℚ) ^ z = (2 : ℚ) ^ z.toNat / (2 : ℚ) ^ (-z).toNat := by
  rcases le_total 0 z with h | h
  · have h1 : (-z).toNat = 0 := by omega
    rw [h1, pow_zero, div_one, ← zpow_natCast, Int.toNat_of_nonneg h]
  · have h1 : z.toNat = 0 := by omega
    have h2 : z = -(((-z).toNat : Nat) : Int) := by
      rw [Int.toNat_of_nonneg (by omega)]; omega
    rw [h1, pow_zero, one_div]
    conv_lhs => rw [h2]
    rw [zpow_neg, zpow_natCast]

theorem floor_log2_bounds (n d : Nat) (hn : 0 < n) (hd : 0 < d) :
    (2 : ℚ) ^ floor_log2 n d ≤ (n : ℚ) / d ∧ (n : ℚ) / d < (2 : ℚ) ^ (floor_log2 n d + 1) := by
  obtain ⟨hn1, hn2⟩ := bit_length_bounds n n hn le_rfl
  obtain ⟨hd1, hd2⟩ := bit_length_bounds d d hd le_rfl
  have hdq : (0 : ℚ) < d := by exact_mod_cast hd
  have hnq : (0 : ℚ) < n := by exact_mod_cast hn
  have hn1q : (2 : ℚ) ^ (bit_length n n : Int) ≤ 2 * n := by
    rw [zpow_natCast]; exact_mod_cast hn1
  have hn2q : (n : ℚ) < (2 : ℚ) ^ (bit_length n n : Int) := by
    rw [zpow_natCast]; exact_mod_cast hn2
  have hd1q : (2 : ℚ) ^ (bit_length d d : Int) ≤ 2 * d := by
    rw [zpow_natCast]; exact_mod_cast hd1
  have hd2q : (d : ℚ) < (2 : ℚ) ^ (bit_length d d : Int) := by
    rw [zpow_natCast]; exact_mod_cast hd2
  have h2 : (0 : ℚ) < 2 := by norm_num
  have h2ne : (2 : ℚ) ≠ 0 := by norm_num
  have hpa : (0 : ℚ) < (2 : ℚ) ^ (bit_length n n : Int) := zpow_pos h2 _
  have hpb : (0 : ℚ) < (2 : ℚ) ^ (bit_length d d : Int) := zpow_pos h2 _
  -- the first estimate of the exponent is off by at most one
  have hlow : (2 : ℚ) ^ ((bit_length n n : Int) - (bit_length d d : Int) - 1) ≤ (n : ℚ) / d := by
    rw [zpow_sub₀ h2ne, zpow_sub₀ h2ne, zpow_one, le_div_iff₀ hdq, div_div,
      div_mul_eq_mul_div, div_le_iff₀ (by positivity)]
    nlinarith
  have hhigh : (n : ℚ) / d <
      (2 : ℚ) ^ ((bit_length n n : Int) - (bit_length d d : Int) + 1) := by
    rw [zpow_add₀ h2ne, zpow_sub₀ h2ne, zpow_one, div_lt_iff₀ hdq, div_mul_eq_mul_div,
      div_mul_eq_mul_div, lt_div_iff₀ hpb]
    nlinarith
  have htest : ∀ z : Int, (d * 2 ^ z.toNat ≤ n * 2 ^ (-z).toNat) ↔ (2 : ℚ) ^ z ≤ (n : ℚ) / d := by
    intro z
    rw [zpow_two_split z, le_div_iff₀ hdq, div_mul_eq_mul_div, div_le_iff₀ (by positivity)]
    constructor
    · intro h
      have : ((d * 2 ^ z.toNat : Nat) : ℚ) ≤ ((n * 2 ^ (-z).toNat : Nat) : ℚ) := by
        exact_mod_cast h
      push_cast at this
      linarith
    · intro h
      have : ((d * 2 ^ z.toNat : Nat) : ℚ) ≤ ((n * 2 ^ (-z).toNat : Nat) : ℚ) := by
        push_cast
        linarith
      exact_mod_cast this
  unfold floor_log2
  by_cases ht : d * 2 ^ ((bit_length n n : Int) - (bit_length d d : Int)).toNat ≤
      n * 2 ^ (-((bit_length n n : Int) - (bit_length d d : Int))).toNat
  · simp only [ht, if_true]
    exact ⟨(htest _).mp ht, hhigh⟩
  · simp only [ht, if_false]
    refine ⟨hlow, ?_⟩
    rw [sub_add_cancel]
    exact not_le.mp (fun h => ht ((htest _).mpr h))

theorem round_half_even_near (n d : Nat) (hd : 0 < d) :
    2 * (round_half_even n d * d) ≤ 2 * n + d ∧ 2 * n ≤ 2 * (round_half_even n d * d) + d := by
  have hs : d * (n / d) + n % d = n := Nat.div_add_mod n d
  have hr : n % d < d := Nat.mod_lt n hd
  have e1 : (n / d + 1) * d = d * (n / d) + d := by ring
  have e2 : n / d * d = d * (n / d) := by ring
  unfold round_half_even
  split
  · rw [e2]; omega
  · split
    · rw [e1]; omega
    · split
      · rw [e2]; omega
      · rw [e1]; omega

theorem round_half_even_exact (z d : Nat) (hd : 0 < d) : round_half_even (z * d) d = z := by
  have h1 : z * d % d = 0 := Nat.mul_mod_left z d
  have h2 : z * d / d = z := Nat.mul_div_cancel z hd
  unfold round_half_even
  rw [h1, h2]
  simp [hd]

theorem round_half_even_abs (n d : Nat) (hd : 0 < d) :
    |(round_half_even n d : ℚ) - (n : ℚ) / d| ≤ 1 / 2 := by
  obtain ⟨h1, h2⟩ := round_half_even_near n d hd
  have hdq : (0 : ℚ) < d := by exact_mod_cast hd
  have h1q : 2 * ((round_half_even n d : ℚ) * d) ≤ 2 * n + d := by exact_mod_cast h1
  have h2q : 2 * (n : ℚ) ≤ 2 * ((round_half_even n d : ℚ) * d) + d := by exact_mod_cast h2
  have e : (n : ℚ) = (n : ℚ) / d * d := by field_simp
  rw [abs_le]
  constructor
  · by_contra hc
    push_neg at hc
    have : ((round_half_even n d : ℚ) - (n : ℚ) / d) * d < -(1 / 2) * d :=
      mul_lt_mul_of_pos_right hc hdq
    nlinarith
  · by_contra hc
    push_neg at hc
    have : 1 / 2 * d < ((round_half_even n d : ℚ) - (n : ℚ) / d) * d :=
      mul_lt_mul_of_pos_right hc hdq
    nlinarith

theorem scaled_fraction (n d : Nat) (e : Int) (hd : 0 < d) :
    ((n * 2 ^ (-e).toNat : Nat) : ℚ) / ((d * 2 ^ e.toNat : Nat) : ℚ) =
      (n : ℚ) / d / (2 : ℚ) ^ e := by
  have hdq : (d : ℚ) ≠ 0 := by exact_mod_cast hd.ne'
  rw [zpow_two_split e]
  push_cast
  field_simp

theorem binary64_of_fraction_value (n d : Nat) (hn : 0 < n) :
    binary64_of_fraction n d =
      (round_half_even (n * 2 ^ (-binary64_exponent n d).toNat)
        (d * 2 ^ (binary64_exponent n d).toNat) : ℚ) * (2 : ℚ) ^ binary64_exponent n d := by
  unfold binary64_of_fraction
  rw [if_neg hn.ne', Rat.mkRat_eq_div, zpow_two_split (binary64_exponent n d)]
  push_cast
  ring

theorem binary64_zero : binary64 0 = 0 := by decide

theorem binary64_of_pos (x : ℚ) (hx : 0 < x) :
    0 < x.num.natAbs ∧ 0 < x.den ∧ x = (x.num.natAbs : ℚ) / x.den ∧
      binary64 x = binary64_of_fraction x.num.natAbs x.den := by
  have hnum : 0 < x.num := Rat.num_pos.mpr hx
  refine ⟨Int.natAbs_pos.mpr hnum.ne', x.den_pos, ?_, ?_⟩
  · have h1 : ((x.num.natAbs : Int) : ℚ) = (x.num : ℚ) := by
      rw [Int.natAbs_of_nonneg hnum.le]
    have h2 : ((x.num.natAbs : Nat) : ℚ) = ((x.num.natAbs : Int) : ℚ) := (Int.cast_natCast _).symm
    rw [h2, h1]
    exact (Rat.num_div_den x).symm
  · unfold binary64
    rw [if_neg (not_lt.mpr hnum.le)]

theorem binary64_spec (x : ℚ) (hx : 0 < x) :
    ∃ (k e : Int) (m : Nat), (2 : ℚ) ^ k ≤ x ∧ x < (2 : ℚ) ^ (k + 1) ∧
      e = max (k - 52) (-1074) ∧ binary64 x = (m : ℚ) * (2 : ℚ) ^ e ∧
      |(m : ℚ) - x / (2 : ℚ) ^ e| ≤ 1 / 2 ∧ ∀ z : Nat, x / (2 : ℚ) ^ e = z → m = z := by
  obtain ⟨hn, hd, hxe, hb⟩ := binary64_of_pos x hx
  obtain ⟨hk1, hk2⟩ := floor_log2_bounds _ _ hn hd
  rw [← hxe] at hk1 hk2
  have ht : 0 < x.den * 2 ^ (binary64_exponent x.num.natAbs x.den).toNat :=
    Nat.mul_pos hd (pow_pos (by decide) _)
  have hsc := scaled_fraction x.num.natAbs x.den (binary64_exponent x.num.natAbs x.den) hd
  rw [← hxe] at hsc
  refine ⟨floor_log2 x.num.natAbs x.den, binary64_exponent x.num.natAbs x.den,
    round_half_even (x.num.natAbs * 2 ^ (-binary64_exponent x.num.natAbs x.den).toNat)
      (x.den * 2 ^ (binary64_exponent x.num.natAbs x.den).toNat), hk1, hk2, rfl, ?_, ?_, ?_⟩
  · rw [hb]
    exact binary64_of_fraction_value _ _ hn
  · rw [← hsc]
    exact round_half_even_abs _ _ ht
  · intro z hz
    rw [← hsc] at hz
    have htq : ((x.den * 2 ^ (binary64_exponent x.num.natAbs x.den).toNat : Nat) : ℚ) ≠ 0 := by
      exact_mod_cast ht.ne'
    rw [div_eq_iff htq] at hz
    have hz2 : x.num.natAbs * 2 ^ (-binary64_exponent x.num.natAbs x.den).toNat =
        z * (x.den * 2 ^ (binary64_exponent x.num.natAbs x.den).toNat) := by
      exact_mod_cast hz
    rw [hz2]
    exact round_half_even_exact z _ ht

/-- Rounding to binary64 changes a number of the normal range by at most the
fraction `2 ^ (-53)` of it. -/
theorem binary64_error (x : ℚ) (hx : (2 : ℚ) ^ (-1022 : Int) ≤ x) :
    |binary64 x - x| ≤ x / 2 ^ 53 := by
  have h2 : (1 : ℚ) < 2 := by norm_num
  have h2ne : (2 : ℚ) ≠ 0 := by norm_num
  have hx0 : 0 < x := lt_of_lt_of_le (zpow_pos (by norm_num) _) hx
  obtain ⟨k, e, m, hk1, hk2, he, hv, hm, _⟩ := binary64_spec x hx0
  have hk : -1022 ≤ k := by
    have := lt_of_le_of_lt hx hk2
    rw [zpow_lt_zpow_iff_right₀ h2] at this
    omega
  have he2 : e = k - 52 := by rw [he]; omega
  have hpe : (0 : ℚ) < (2 : ℚ) ^ e := zpow_pos (by norm_num) _
  have hxe : x = x / (2 : ℚ) ^ e * (2 : ℚ) ^ e := by field_simp
  have h1 : binary64 x - x = ((m : ℚ) - x / (2 : ℚ) ^ e) * (2 : ℚ) ^ e := by
    rw [hv, sub_mul, ← hxe]
  rw [h1, abs_mul, abs_of_pos hpe]
  have h3 : (2 : ℚ) ^ e = (2 : ℚ) ^ k / 2 ^ 52 := by
    rw [he2, zpow_sub₀ h2ne]
    norm_num
  calc |(m : ℚ) - x / (2 : ℚ) ^ e| * (2 : ℚ) ^ e ≤ 1 / 2 * (2 : ℚ) ^ e :=
        mul_le_mul_of_nonneg_right hm hpe.le
    _ = (2 : ℚ) ^ k / 2 ^ 53 := by rw [h3]; ring
    _ ≤ x / 2 ^ 53 := div_le_div_of_nonneg_right hk1 (by positivity)

/-- Numbers `m * 2 ^ j` with `m < 2 ^ 53` are binary64 numbers: rounding leaves
them as they are. -/
theorem binary64_fixed_lt (m : Nat) (j : Int) (hm : m < 2 ^ 53) (hj : -1074 ≤ j) :
    binary64 ((m : ℚ) * (2 : ℚ) ^ j) = (m : ℚ) * (2 : ℚ) ^ j := by
  have h2 : (1 : ℚ) < 2 := by norm_num
  have h2ne : (2 : ℚ) ≠ 0 := by norm_num
  rcases Nat.eq_zero_or_pos m with h0 | hpos
  · subst h0
    simp [binary64_zero]
  · have hpj : (0 : ℚ) < (2 : ℚ) ^ j := zpow_pos (by norm_num) _
    have hmq : (0 : ℚ) < m := by exact_mod_cast hpos
    have hx0 : (0 : ℚ) < (m : ℚ) * (2 : ℚ) ^ j := mul_pos hmq hpj
    obtain ⟨k, e, r, hk1, _, he, hv, _, hz⟩ := binary64_spec _ hx0
    have hlt : (m : ℚ) * (2 : ℚ) ^ j < (2 : ℚ) ^ (53 + j) := by
      rw [zpow_add₀ h2ne]
      have : (m : ℚ) < (2 : ℚ) ^ (53 : Int) := by
        have h53 : (2 : ℚ) ^ (53 : Int) = ((2 ^ 53 : Nat) : ℚ) := by norm_num
        rw [h53]
        exact_mod_cast hm
      exact mul_lt_mul_of_pos_right this hpj
    have hk : k < 53 + j := by
      have := lt_of_le_of_lt hk1 hlt
      rwa [zpow_lt_zpow_iff_right₀ h2] at this
    have hej : e ≤ j := by rw [he]; omega
    have hdiv : (m : ℚ) * (2 : ℚ) ^ j / (2 : ℚ) ^ e = ((m * 2 ^ (j - e).toNat : Nat) : ℚ) := by
      rw [mul_div_assoc, ← zpow_sub₀ h2ne]
      push_cast
      rw [← zpow_natCast, Int.toNat_of_nonneg (by omega)]
    rw [hv, hz _ hdiv]
    push_cast
    rw [← zpow_natCast, Int.toNat_of_nonneg (by omega), mul_assoc, ← zpow_add₀ h2ne]
    congr 2
    omega

/-- Every number of the set `is_binary64` is left as it is by rounding. -/
theorem binary64_fixed (x : ℚ) (h : is_binary64 x) : binary64 x = x := by
  obtain ⟨m, j, hm, hj, hx⟩ := h
  rcases Nat.lt_or_ge m (2 ^ 53) with hlt | hge
  · rw [hx]
    exact binary64_fixed_lt m j hlt hj
  · have hme : m = 2 ^ 53 := le_antisymm hm hge
    have hx2 : x = ((2 ^ 52 : Nat) : ℚ) * (2 : ℚ) ^ (j + 1) := by
      rw [hx, hme, zpow_add₀ (by norm_num : (2 : ℚ) ≠ 0)]
      push_cast
      ring
    rw [hx2]
    exact binary64_fixed_lt _ _ (by decide) (by omega)

/-- The result of rounding a non-negative number is a binary64 number. -/
theorem binary64_is_binary64 (x : ℚ) (hx : 0 ≤ x) : is_binary64 (binary64 x) := by
  have h2 : (1 : ℚ) < 2 := by norm_num
  have h2ne : (2 : ℚ) ≠ 0 := by norm_num
  rcases hx.eq_or_lt with h0 | hpos
  · rw [← h0, binary64_zero]
    exact ⟨0, 0, by decide, by decide, by simp⟩
  · obtain ⟨k, e, m, _, hk2, he, hv, hm, _⟩ := binary64_spec x hpos
    have hpe : (0 : ℚ) < (2 : ℚ) ^ e := zpow_pos (by norm_num) _
    have hy : x / (2 : ℚ) ^ e < 2 ^ 53 := by
      rw [div_lt_iff₀ hpe]
      have h53 : ((2 : ℚ) ^ 53) * (2 : ℚ) ^ e = (2 : ℚ) ^ (53 + e) := by
        rw [zpow_add₀ h2ne]
        norm_num
      rw [h53]
      exact lt_of_lt_of_le hk2 (zpow_le_zpow_right₀ h2.le (by rw [he]; omega))
    have hm2 : (m : ℚ) < 2 ^ 53 + 1 := by
      have := (abs_le.mp hm).2
      linarith
    have hm3 : m < 2 ^ 53 + 1 := by exact_mod_cast hm2
    exact ⟨m, e, by omega, by rw [he]; omega, hv⟩

theorem binary64_natCast (n : Nat) (h : n ≤ 2 ^ 53) : binary64 (n : ℚ) = n :=
  binary64_fixed _ ⟨n, 0, h, by decide, by simp⟩

/-- For an `int` interval the conversions of the counter difference times `8.0`
and of the divisor are exact: only the conversion of the difference and the
quotient are rounded. -/
theorem to_mbps_binary64_two_roundings (interval diff : Nat) (hint : interval < 2 ^ 31) :
    to_mbps_binary64 interval diff =
      binary64 (binary64 (diff : ℚ) * 8 / ((interval : ℚ) * 1000000)) := by
  have h1 : binary64 (interval : ℚ) = interval := binary64_natCast _ (by omega)
  have h2 : binary64 ((interval : ℚ) * 1000000) = (interval : ℚ) * 1000000 := by
    have h := binary64_natCast (interval * 1000000) (by omega)
    push_cast at h
    exact h
  have h3 : binary64 (binary64 (diff : ℚ) * 8) = binary64 (diff : ℚ) * 8 := by
    obtain ⟨m, j, hm, hj, hx⟩ := binary64_is_binary64 (diff : ℚ) (Nat.cast_nonneg _)
    apply binary64_fixed
    refine ⟨m, j + 3, hm, by omega, ?_⟩
    rw [hx, zpow_add₀ (by norm_num : (2 : ℚ) ≠ 0)]
    norm_num
    ring
  unfold to_mbps_binary64
  rw [h1, h2, h3]

/-- A counter difference of at most `2 ^ 53` is converted exactly, and the rate
is the binary64 number nearest to the exact quotient. -/
theorem to_mbps_binary64_nearest (interval diff : Nat) (hint : interval < 2 ^ 31)
    (hdiff : diff ≤ 2 ^ 53) :
    to_mbps_binary64 interval diff = binary64 (to_mbps interval diff) := by
  rw [to_mbps_binary64_two_roundings interval diff hint, binary64_natCast diff hdiff]
  rfl

/-- The rate computed in binary64 differs from the exact quotient by at most the
fraction `2 ^ (-52) + 2 ^ (-106)` of it. -/
theorem to_mbps_binary64_error (interval diff : Nat) (hsi : 0 < interval)
    (hint : interval < 2 ^ 31) :
    |to_mbps_binary64 interval diff - to_mbps interval diff| ≤
      to_mbps interval diff * (1 / 2 ^ 52 + 1 / 2 ^ 106) := by
  rw [to_mbps_binary64_two_roundings interval diff hint]
  unfold to_mbps
  rcases Nat.eq_zero_or_pos diff with h0 | hpos
  · subst h0
    simp [binary64_zero]
  · have hc : (0 : ℚ) < (interval : ℚ) * 1000000 := by
      have : (0 : ℚ) < interval := by exact_mod_cast hsi
      positivity
    have hcu : (interval : ℚ) * 1000000 ≤ 2 ^ 31 * 1000000 := by
      have : (interval : ℚ) ≤ 2 ^ 31 := by exact_mod_cast hint.le
      linarith
    have hd1 : (1 : ℚ) ≤ diff := by exact_mod_cast hpos
    have hsmall : (2 : ℚ) ^ (-1022 : Int) ≤ (2 : ℚ) ^ (-60 : Int) :=
      zpow_le_zpow_right₀ (by norm_num) (by decide)
    have hone : (2 : ℚ) ^ (-60 : Int) ≤ 1 := by
      rw [zpow_neg]
      exact inv_le_one_of_one_le₀ (one_le_zpow₀ (by norm_num) (by decide))
    have e1 := binary64_error (diff : ℚ) (le_trans hsmall (le_trans hone hd1))
    have e1l := (abs_le.mp e1).1
    have e1u := (abs_le.mp e1).2
    have hD : (diff : ℚ) / 2 ≤ binary64 (diff : ℚ) := by
      have : (diff : ℚ) / 2 ^ 53 ≤ (diff : ℚ) / 2 := by
        apply div_le_div_of_nonneg_left (by linarith) (by norm_num) (by norm_num)
      linarith
    have hq : (2 : ℚ) ^ (-1022 : Int) ≤ binary64 (diff : ℚ) * 8 / ((interval : ℚ) * 1000000) := by
      refine le_trans hsmall ?_
      rw [le_div_iff₀ hc]
      have h60 : (2 : ℚ) ^ (-60 : Int) * (2 ^ 31 * 1000000) ≤ 4 := by
        rw [zpow_neg]
        norm_num
      have hp60 : (0 : ℚ) ≤ (2 : ℚ) ^ (-60 : Int) := (zpow_pos (by norm_num) _).le
      calc (2 : ℚ) ^ (-60 : Int) * ((interval : ℚ) * 1000000)
          ≤ (2 : ℚ) ^ (-60 : Int) * (2 ^ 31 * 1000000) := mul_le_mul_of_nonneg_left hcu hp60
        _ ≤ 4 := h60
        _ ≤ binary64 (diff : ℚ) * 8 := by linarith
    have e2 := binary64_error _ hq
    have e2l := (abs_le.mp e2).1
    have e2u := (abs_le.mp e2).2
    -- the two quotients, the rounded and the exact difference over the divisor
    have hqd : binary64 (diff : ℚ) * 8 / ((interval : ℚ) * 1000000) -
        (diff : ℚ) * 8 / ((interval : ℚ) * 1000000) =
        (binary64 (diff : ℚ) - diff) * (8 / ((interval : ℚ) * 1000000)) := by ring
    have h8 : (0 : ℚ) < 8 / ((interval : ℚ) * 1000000) := by positivity
    have hql : -((diff : ℚ) * 8 / ((interval : ℚ) * 1000000) / 2 ^ 53) ≤
        binary64 (diff : ℚ) * 8 / ((interval : ℚ) * 1000000) -
          (diff : ℚ) * 8 / ((interval : ℚ) * 1000000) := by
      rw [hqd]
      have := mul_le_mul_of_nonneg_right e1l h8.le
      calc -((diff : ℚ) * 8 / ((interval : ℚ) * 1000000) / 2 ^ 53)
          = -((diff : ℚ) / 2 ^ 53) * (8 / ((interval : ℚ) * 1000000)) := by ring
        _ ≤ _ := this
    have hqu : binary64 (diff : ℚ) * 8 / ((interval : ℚ) * 1000000) -
          (diff : ℚ) * 8 / ((interval : ℚ) * 1000000) ≤
        (diff : ℚ) * 8 / ((interval : ℚ) * 1000000) / 2 ^ 53 := by
      rw [hqd]
      have := mul_le_mul_of_nonneg_right e1u h8.le
      calc _ ≤ (diff : ℚ) / 2 ^ 53 * (8 / ((interval : ℚ) * 1000000)) := this
        _ = (diff : ℚ) * 8 / ((interval : ℚ) * 1000000) / 2 ^ 53 := by ring
    generalize binary64 (binary64 (diff : ℚ) * 8 / ((interval : ℚ) * 1000000)) = r at *
    generalize binary64 (diff : ℚ) * 8 / ((interval : ℚ) * 1000000) = q1 at *
    generalize (diff : ℚ) * 8 / ((interval : ℚ) * 1000000) = q at *
    rw [abs_le]
    have hdiv1 : q1 / 2 ^ 53 ≤ (q + q / 2 ^ 53) / 2 ^ 53 :=
      div_le_div_of_nonneg_right (by linarith) (by positivity)
    constructor
    · have : q * (1 / 2 ^ 52 + 1 / 2 ^ 106) = q / 2 ^ 53 + (q + q / 2 ^ 53) / 2 ^ 53 := by
        field_simp
        ring
      rw [this]
      linarith
    · have : q * (1 / 2 ^ 52 + 1 / 2 ^ 106) = q / 2 ^ 53 + (q + q / 2 ^ 53) / 2 ^ 53 := by
        field_simp
        ring
      rw [this]
      linarith

theorem to_mbps_binary64_example :
    to_mbps_binary64 1 2124000 = mkRat 4782822804267467 (2 ^ 48) := by
  have h1 : binary64 ((2124000 : Nat) : ℚ) = 2124000 := by decide
  have h2 : binary64 ((2124000 : ℚ) * 8) = 16992000 := by
    have e : (2124000 : ℚ) * 8 = 16992000 := by norm_num
    rw [e]; decide
  have h3 : binary64 ((1 : Nat) : ℚ) = 1 := by decide
  have h4 : binary64 ((1 : ℚ) * 1000000) = 1000000 := by
    rw [one_mul]; decide
  have h5 : (16992000 : ℚ) / 1000000 = mkRat 2124 125 := by
    norm_num [Rat.mkRat_eq_div]
  unfold to_mbps_binary64
  rw [h1, h2, h3, h4, h5]
  decide

theorem to_mbps_binary64_large_example :
    to_mbps_binary64 1 (2 ^ 53 + 1) = mkRat 4722366482869645 (2 ^ 16) := by
  have h1 : binary64 ((2 ^ 53 + 1 : Nat) : ℚ) = 9007199254740992 := by decide
  have h2 : binary64 ((9007199254740992 : ℚ) * 8) = 72057594037927936 := by
    have e : (9007199254740992 : ℚ) * 8 = 72057594037927936 := by norm_num
    rw [e]; decide
  have h3 : binary64 ((1 : Nat) : ℚ) = 1 := by decide
  have h4 : binary64 ((1 : ℚ) * 1000000) = 1000000 := by
    rw [one_mul]; decide
  have h5 : (72057594037927936 : ℚ) / 1000000 = mkRat 1125899906842624 15625 := by
    norm_num [Rat.mkRat_eq_div]
  unfold to_mbps_binary64
  rw [h1, h2, h3, h4, h5]
  decide

theorem binary64_large_example :
    binary64 (to_mbps 1 (2 ^ 53 + 1)) = mkRat 2361183241434823 (2 ^ 15) := by
  have h : to_mbps 1 (2 ^ 53 + 1) = mkRat 9007199254740993 125000 := by
    unfold to_mbps
    norm_num [Rat.mkRat_eq_div]
  rw [h]
  decide

theorem binary64_exact_iff (x : ℚ) (hx : 0 ≤ x) : binary64 x = x ↔ is_binary64 x := by
  constructor
  · intro h
    rw [← h]
    exact binary64_is_binary64 x hx
  · exact binary64_fixed x

/-- C5 (amended): in `Network_Test.c`, for snapshots of `unsigned long long`
counters with `cur_rx >= prev_rx` and `cur_tx >= prev_tx` and a positive `int`
interval, the download and upload rates of the tick are computed in binary64
with two roundings, that of `(double)(cur - prev)` and that of the quotient.
When `cur - prev` is at most `2 ^ 53` the rate is the binary64 number nearest to
`(cur - prev) * 8 / (interval * 1000000)`, and it is that quotient exactly if and
only if the quotient is a binary64 number. In every case the rate differs from
the quotient by at most the fraction `2 ^ (-52) + 2 ^ (-106)` of it. -/
theorem tick_rates_binary64_nearest (sample_interval prev_rx prev_tx cur_rx cur_tx : Nat)
    (hsi : 0 < sample_interval) (hint : sample_interval < 2 ^ 31)
    (hrx : cur_rx < ULL) (htx : cur_tx < ULL)
    (h1 : prev_rx ≤ cur_rx) (h2 : prev_tx ≤ cur_tx) :
    Network_Test.tick_rates_binary64 sample_interval prev_rx prev_tx cur_rx cur_tx =
      (binary64 (binary64 ((cur_rx - prev_rx : Nat) : ℚ) * 8 /
          ((sample_interval : ℚ) * 1000000)),
        binary64 (binary64 ((cur_tx - prev_tx : Nat) : ℚ) * 8 /
          ((sample_interval : ℚ) * 1000000))) ∧
    (cur_rx - prev_rx ≤ 2 ^ 53 →
      (Network_Test.tick_rates_binary64 sample_interval prev_rx prev_tx cur_rx cur_tx).1 =
          binary64 (((cur_rx : ℚ) - (prev_rx : ℚ)) * 8 / ((sample_interval : ℚ) * 1000000)) ∧
        ((Network_Test.tick_rates_binary64 sample_interval prev_rx prev_tx cur_rx cur_tx).1 =
            ((cur_rx : ℚ) - (prev_rx : ℚ)) * 8 / ((sample_interval : ℚ) * 1000000) ↔
          is_binary64
            (((cur_rx : ℚ) - (prev_rx : ℚ)) * 8 / ((sample_interval : ℚ) * 1000000)))) ∧
    (cur_tx - prev_tx ≤ 2 ^ 53 →
      (Network_Test.tick_rates_binary64 sample_interval prev_rx prev_tx cur_rx cur_tx).2 =
          binary64 (((cur_tx : ℚ) - (prev_tx : ℚ)) * 8 / ((sample_interval : ℚ) * 1000000)) ∧
        ((Network_Test.tick_rates_binary64 sample_interval prev_rx prev_tx cur_rx cur_tx).2 =
            ((cur_tx : ℚ) - (prev_tx : ℚ)) * 8 / ((sample_interval : ℚ) * 1000000) ↔
          is_binary64
            (((cur_tx : ℚ) - (prev_tx : ℚ)) * 8 / ((sample_interval : ℚ) * 1000000)))) ∧
    |(Network_Test.tick_rates_binary64 sample_interval prev_rx prev_tx cur_rx cur_tx).1 -
        ((cur_rx : ℚ) - (prev_rx : ℚ)) * 8 / ((sample_interval : ℚ) * 1000000)| ≤
      ((cur_rx : ℚ) - (prev_rx : ℚ)) * 8 / ((sample_interval : ℚ) * 1000000) *
        (1 / 2 ^ 52 + 1 / 2 ^ 106) ∧
    |(Network_Test.tick_rates_binary64 sample_interval prev_rx prev_tx cur_rx cur_tx).2 -
        ((cur_tx : ℚ) - (prev_tx : ℚ)) * 8 / ((sample_interval : ℚ) * 1000000)| ≤
      ((cur_tx : ℚ) - (prev_tx : ℚ)) * 8 / ((sample_interval : ℚ) * 1000000) *
        (1 / 2 ^ 52 + 1 / 2 ^ 106) := by
  have er := to_mbps_of_le sample_interval cur_rx prev_rx hrx h1
  have et := to_mbps_of_le sample_interval cur_tx prev_tx htx h2
  have cr := counter_diff_of_le cur_rx prev_rx hrx h1
  have ct := counter_diff_of_le cur_tx prev_tx htx h2
  have hnn : ∀ d : Nat, 0 ≤ to_mbps sample_interval d := by
    intro d
    unfold to_mbps
    positivity
  have key : ∀ d : Nat, d ≤ 2 ^ 53 →
      to_mbps_binary64 sample_interval d = binary64 (to_mbps sample_interval d) ∧
      (to_mbps_binary64 sample_interval d = to_mbps sample_interval d ↔
        is_binary64 (to_mbps sample_interval d)) := by
    intro d hd
    have hn := to_mbps_binary64_nearest sample_interval d hint hd
    refine ⟨hn, ?_⟩
    rw [hn]
    exact binary64_exact_iff _ (hnn d)
  have e1 : (Network_Test.tick_rates_binary64 sample_interval prev_rx prev_tx cur_rx cur_tx).1 =
      to_mbps_binary64 sample_interval (counter_diff cur_rx prev_rx) := rfl
  have e2 : (Network_Test.tick_rates_binary64 sample_interval prev_rx prev_tx cur_rx cur_tx).2 =
      to_mbps_binary64 sample_interval (counter_diff cur_tx prev_tx) := rfl
  refine ⟨?_, ?_, ?_, ?_, ?_⟩
  · apply Prod.ext
    · rw [e1, cr]
      exact to_mbps_binary64_two_roundings _ _ hint
    · rw [e2, ct]
      exact to_mbps_binary64_two_roundings _ _ hint
  · intro hd
    rw [e1, ← er]
    rw [cr] at *
    exact key _ hd
  · intro hd
    rw [e2, ← et]
    rw [ct] at *
    exact key _ hd
  · rw [e1, ← er]
    exact to_mbps_binary64_error _ _ hsi hint
  · rw [e2, ← et]
    exact to_mbps_binary64_error _ _ hsi hint

/-- C5, witness: `prev = {rx = 1000, tx = 2000}`, `cur = {rx = 2125000, tx = 2000}`
and an interval of one second give the download rate
`4782822804267467 / 2 ^ 48`, the binary64 number nearest to 16.992, and the
upload rate 0. -/
theorem tick_rates_binary64_nearest_witness :
    (Network_Test.tick_rates_binary64 1 1000 2000 2125000 2000).1 =
        mkRat 4782822804267467 (2 ^ 48) ∧
      (Network_Test.tick_rates_binary64 1 1000 2000 2125000 2000).2 = 0 ∧
      |(Network_Test.tick_rates_binary64 1 1000 2000 2125000 2000).1 - 16.992| ≤
        16.992 * (1 / 2 ^ 52 + 1 / 2 ^ 106) := by
  have h := tick_rates_binary64_nearest 1 1000 2000 2125000 2000 (by decide) (by decide)
    (by decide) (by decide) (by decide) (by decide)
  have a1 : (((2125000 : Nat) : ℚ) - ((1000 : Nat) : ℚ)) * 8 / (((1 : Nat) : ℚ) * 1000000) =
      mkRat 2124 125 := by
    norm_num [Rat.mkRat_eq_div]
  have a2 : (((2000 : Nat) : ℚ) - ((2000 : Nat) : ℚ)) * 8 / (((1 : Nat) : ℚ) * 1000000) = 0 := by
    norm_num
  have a3 : (((2125000 : Nat) : ℚ) - ((1000 : Nat) : ℚ)) * 8 / (((1 : Nat) : ℚ) * 1000000) =
      16.992 := by
    norm_num
  have b1 : binary64 (mkRat 2124 125) = mkRat 4782822804267467 (2 ^ 48) := by decide
  refine ⟨?_, ?_, ?_⟩
  · rw [(h.2.1 (by decide)).1, a1, b1]
  · rw [(h.2.2.1 (by decide)).1, a2, binary64_zero]
  · have h4 := h.2.2.2.1
    rw [a3] at h4
    exact h4

/-- C5 (as stated) fails: the rates are values of type `double`. For the claim's
own example, `prev = {rx = 1000, tx = 2000}`, `cur = {rx = 2125000, tx = 2000}`
and an interval of one second, the download rate is
`4782822804267467 / 2 ^ 48`, not `(2125000 - 1000) * 8 / 1000000 = 16.992`,
which is not a binary64 number. For a difference above `2 ^ 53` the rate is not
even the binary64 number nearest to the quotient: with `cur_rx - prev_rx = 2 ^ 53 + 1`
the conversion to `double` drops the last bit, the rate is
`4722366482869645 / 2 ^ 16`, and the nearest number is `2361183241434823 / 2 ^ 15`. -/
theorem tick_rates_binary64_not_exact :
    (¬ ∀ (sample_interval prev_rx prev_tx cur_rx cur_tx : Nat),
        0 < sample_interval → cur_rx < ULL → cur_tx < ULL →
        prev_rx ≤ cur_rx → prev_tx ≤ cur_tx →
        Network_Test.tick_rates_binary64 sample_interval prev_rx prev_tx cur_rx cur_tx =
          (((cur_rx : ℚ) - (prev_rx : ℚ)) * 8 / ((sample_interval : ℚ) * 1000000),
            ((cur_tx : ℚ) - (prev_tx : ℚ)) * 8 / ((sample_interval : ℚ) * 1000000))) ∧
    (Network_Test.tick_rates_binary64 1 1000 2000 2125000 2000).1 =
      mkRat 4782822804267467 (2 ^ 48) ∧
    (Network_Test.tick_rates_binary64 1 0 0 (2 ^ 53 + 1) 0).1 =
      mkRat 4722366482869645 (2 ^ 16) ∧
    binary64 ((((2 ^ 53 + 1 : Nat) : ℚ) - ((0 : Nat) : ℚ)) * 8 / (((1 : Nat) : ℚ) * 1000000)) =
      mkRat 2361183241434823 (2 ^ 15) := by
  have c1 : counter_diff 2125000 1000 = 2124000 := by decide
  have c2 : counter_diff (2 ^ 53 + 1) 0 = 2 ^ 53 + 1 := by decide
  have r1 : (Network_Test.tick_rates_binary64 1 1000 2000 2125000 2000).1 =
      mkRat 4782822804267467 (2 ^ 48) := by
    show to_mbps_binary64 1 (counter_diff 2125000 1000) = _
    rw [c1]
    exact to_mbps_binary64_example
  have r2 : (Network_Test.tick_rates_binary64 1 0 0 (2 ^ 53 + 1) 0).1 =
      mkRat 4722366482869645 (2 ^ 16) := by
    show to_mbps_binary64 1 (counter_diff (2 ^ 53 + 1) 0) = _
    rw [c2]
    exact to_mbps_binary64_large_example
  refine ⟨?_, r1, r2, ?_⟩
  · intro h
    have h1 := congrArg Prod.fst
      (h 1 1000 2000 2125000 2000 (by decide) (by decide) (by decide) (by decide) (by decide))
    rw [r1] at h1
    have h2 : mkRat 4782822804267467 (2 ^ 48) ≠
        (((2125000 : Nat) : ℚ) - ((1000 : Nat) : ℚ)) * 8 / (((1 : Nat) : ℚ) * 1000000) := by
      norm_num [Rat.mkRat_eq_div]
    exact h2 h1
  · have e : (((2 ^ 53 + 1 : Nat) : ℚ) - ((0 : Nat) : ℚ)) * 8 / (((1 : Nat) : ℚ) * 1000000) =
        to_mbps 1 (2 ^ 53 + 1) := by
      unfold to_mbps
      push_cast
      ring
    rw [e]
    exact binary64_large_example

/-! ## The sampling loop of `Network_Test.c` -/

theorem nt_loop_succ_ok (si samples : Nat) (w : World) (iface : List Char) (n i : Nat)
    (st : Network_Test.State) (h : read_ok w iface st.reads) :
    ∃ r, read_bytes (w.proc_net_dev st.reads) iface 0 0 = some r ∧
      Network_Test.loop si samples w iface (n + 1) i st =
        Network_Test.loop si samples w iface n (i + 1) (Network_Test.tick si w i st r) := by
  obtain ⟨r, hr, hret⟩ := h
  exact ⟨r, hr, by simp [Network_Test.loop, hr, hret]⟩

theorem nt_loop_succ_fail (si samples : Nat) (w : World) (iface : List Char) (n i : Nat)
    (st : Network_Test.State) (h : read_fails w iface st.reads) :
    Network_Test.loop si samples w iface (n + 1) i st =
      (Status.exit 1,
        { st with reads := st.reads + 1, out := st.out ++ [Network_Test.Out.read_error] }) := by
  obtain ⟨r, hr, hret⟩ := h
  simp [Network_Test.loop, hr, hret]

theorem nt_tick_records_tick (si : Nat) (w : World) (i : Nat) (st : Network_Test.State)
    (r : ReadResult) :
    Network_Test.tick_records (Network_Test.tick si w i st r).out =
      Network_Test.tick_records st.out ++
        [Network_Test.Out.second (i + 1)
          (Network_Test.tick_rates si st.prev_rx st.prev_tx r.rx r.tx).1
          (Network_Test.tick_rates si st.prev_rx st.prev_tx r.rx r.tx).2
          (if 0 ≤ w.ping st.probes then some (w.ping st.probes) else none)] := by
  simp [Network_Test.tick, Network_Test.tick_records]

theorem nt_summary_records_tick (si : Nat) (w : World) (i : Nat) (st : Network_Test.State)
    (r : ReadResult) :
    Network_Test.summary_records (Network_Test.tick si w i st r).out =
      Network_Test.summary_records st.out := by
  simp [Network_Test.tick, Network_Test.summary_records]

theorem successful_cons (p : ℚ) (ps : List ℚ) :
    successful (p :: ps) = if 0 ≤ p then p :: successful ps else successful ps := by
  by_cases h : 0 ≤ p <;> simp [successful, List.filter_cons, h]

/-- What a run of the loop does when all its calls of `read_bytes` succeed. -/
theorem nt_loop_all_ok (si samples : Nat) (w : World) (iface : List Char) (n i : Nat)
    (st : Network_Test.State) (h : ∀ j, j < n → read_ok w iface (st.reads + j)) :
    (Network_Test.loop si samples w iface n i st).1 = Status.exit 0 ∧
    (Network_Test.tick_records (Network_Test.loop si samples w iface n i st).2.out).map
        Network_Test.tick_index =
      (Network_Test.tick_records st.out).map Network_Test.tick_index ++ List.range' (i + 1) n ∧
    (Network_Test.tick_records (Network_Test.loop si samples w iface n i st).2.out).map
        Network_Test.tick_ping =
      (Network_Test.tick_records st.out).map Network_Test.tick_ping ++
        ((List.range' st.probes n).map w.ping).map (fun p => if 0 ≤ p then some p else none) ∧
    (Network_Test.loop si samples w iface n i st).2.ping_count =
      st.ping_count + (successful ((List.range' st.probes n).map w.ping)).length ∧
    (Network_Test.loop si samples w iface n i st).2.total_ping_ms =
      st.total_ping_ms + (successful ((List.range' st.probes n).map w.ping)).sum ∧
    (Network_Test.loop si samples w iface n i st).2.probes = st.probes + n ∧
    (Network_Test.loop si samples w iface n i st).2.reads = st.reads + n ∧
    Network_Test.summary_records (Network_Test.loop si samples w iface n i st).2.out =
      Network_Test.summary_records st.out ++
        [Network_Test.Out.average_download
          ((Network_Test.loop si samples w iface n i st).2.total_rx_mbps / samples),
         Network_Test.Out.average_upload
          ((Network_Test.loop si samples w iface n i st).2.total_tx_mbps / samples),
         Network_Test.Out.average_ping
          (if 0 < (Network_Test.loop si samples w iface n i st).2.ping_count then
            some ((Network_Test.loop si samples w iface n i st).2.total_ping_ms /
              (Network_Test.loop si samples w iface n i st).2.ping_count)
           else none)] := by
  induction n generalizing i st with
  | zero =>
    simp [Network_Test.loop, Network_Test.summary, Network_Test.tick_records,
      Network_Test.summary_records, successful]
  | succ n ih =>
    obtain ⟨r, _, hstep⟩ := nt_loop_succ_ok si samples w iface n i st (by simpa using h 0 (by omega))
    have hst : (Network_Test.tick si w i st r).reads = st.reads + 1 := rfl
    have hpr : (Network_Test.tick si w i st r).probes = st.probes + 1 := rfl
    have ih2 := ih (i + 1) (Network_Test.tick si w i st r) (fun j hj => by
      rw [hst, Nat.add_assoc, Nat.add_comm 1 j]; exact h (j + 1) (by omega))
    rw [hstep]
    obtain ⟨h1, h2, h3, h4, h5, h6, h7, h8⟩ := ih2
    refine ⟨h1, ?_, ?_, ?_, ?_, ?_, ?_, ?_⟩
    · rw [h2, nt_tick_records_tick]
      simp [Network_Test.tick_index, List.range'_succ]
    · rw [h3, nt_tick_records_tick, hpr]
      simp [Network_Test.tick_ping, List.range'_succ]
    · rw [h4, hpr]
      simp only [List.range'_succ, List.map_cons, successful_cons, Network_Test.tick]
      by_cases hp : 0 ≤ w.ping st.probes
      · simp [hp]; omega
      · simp [hp]
    · rw [h5, hpr]
      simp only [List.range'_succ, List.map_cons, successful_cons, Network_Test.tick]
      by_cases hp : 0 ≤ w.ping st.probes <;> simp [hp, add_assoc]
    · rw [h6, hpr]; omega
    · rw [h7, hst]; omega
    · rw [h8, nt_summary_records_tick]



theorem nt_tick_records_loop (si samples : Nat) (w : World) (iface : List Char) (n i : Nat)
    (st : Network_Test.State) :
    ∃ more, Network_Test.tick_records (Network_Test.loop si samples w iface n i st).2.out =
      Network_Test.tick_records st.out ++ more := by
  induction n generalizing i st with
  | zero =>
    exact ⟨[], by simp [Network_Test.loop, Network_Test.summary, Network_Test.tick_records]⟩
  | succ n ih =>
    cases hr : read_bytes (w.proc_net_dev st.reads) iface 0 0 with
    | none => exact ⟨[], by simp [Network_Test.loop, hr]⟩
    | some r =>
      by_cases hret : r.ret = 0
      · obtain ⟨more, hm⟩ := ih (i + 1) (Network_Test.tick si w i st r)
        rw [nt_tick_records_tick, List.append_assoc] at hm
        have e : Network_Test.loop si samples w iface (n + 1) i st =
            Network_Test.loop si samples w iface n (i + 1) (Network_Test.tick si w i st r) := by
          simp [Network_Test.loop, hr, hret]
        rw [e]
        exact ⟨_, hm⟩
      · exact ⟨[], by simp [Network_Test.loop, hr, hret, Network_Test.tick_records]⟩

/-- What a run of the loop does when its first `m` calls of `read_bytes` succeed
and the next one fails, compared with the run in a world `w2` that agrees with
`w` on those `m` calls and on the probe. -/
theorem nt_loop_fail_at (si samples : Nat) (w w2 : World) (iface : List Char) (m n i : Nat)
    (st : Network_Test.State) (hm : m < n)
    (hok : ∀ j, j < m → read_ok w iface (st.reads + j))
    (hfail : read_fails w iface (st.reads + m))
    (hagree : ∀ j, j < m → w2.proc_net_dev (st.reads + j) = w.proc_net_dev (st.reads + j))
    (hping : ∀ j, j < m → w2.ping (st.probes + j) = w.ping (st.probes + j)) :
    (Network_Test.loop si samples w iface n i st).1 = Status.exit 1 ∧
    (Network_Test.loop si samples w iface n i st).2.probes = st.probes + m ∧
    (Network_Test.loop si samples w iface n i st).2.reads = st.reads + m + 1 ∧
    (Network_Test.tick_records (Network_Test.loop si samples w iface n i st).2.out).length =
      (Network_Test.tick_records st.out).length + m ∧
    Network_Test.tick_records (Network_Test.loop si samples w iface n i st).2.out =
      (Network_Test.tick_records (Network_Test.loop si samples w2 iface n i st).2.out).take
        ((Network_Test.tick_records st.out).length + m) ∧
    Network_Test.summary_records (Network_Test.loop si samples w iface n i st).2.out =
      Network_Test.summary_records st.out := by
  induction m generalizing n i st with
  | zero =>
    obtain ⟨n, rfl⟩ : ∃ k, n = k + 1 := ⟨n - 1, by omega⟩
    obtain ⟨more, hmore⟩ := nt_tick_records_loop si samples w2 iface (n + 1) i st
    rw [nt_loop_succ_fail si samples w iface n i st (by simpa using hfail), hmore]
    simp [Network_Test.tick_records, Network_Test.summary_records]
  | succ m ih =>
    obtain ⟨n, rfl⟩ : ∃ k, n = k + 1 := ⟨n - 1, by omega⟩
    have hok0 : read_ok w iface st.reads := by simpa using hok 0 (by omega)
    have hok2 : read_ok w2 iface st.reads := by
      have := hagree 0 (by omega)
      simp only [Nat.add_zero] at this
      simpa [read_ok, this] using hok0
    obtain ⟨r, hr, hstep⟩ := nt_loop_succ_ok si samples w iface n i st hok0
    obtain ⟨r2, hr2, hstep2⟩ := nt_loop_succ_ok si samples w2 iface n i st hok2
    have hrr : r2 = r := by
      have := hagree 0 (by omega)
      simp only [Nat.add_zero] at this
      rw [this, hr] at hr2
      exact (Option.some.inj hr2).symm
    have hp0 : w2.ping st.probes = w.ping st.probes := by simpa using hping 0 (by omega)
    have htick : Network_Test.tick si w2 i st r2 = Network_Test.tick si w i st r := by
      simp [Network_Test.tick, hrr, hp0]
    have hst : (Network_Test.tick si w i st r).reads = st.reads + 1 := rfl
    have hpr : (Network_Test.tick si w i st r).probes = st.probes + 1 := rfl
    have ih2 := ih n (i + 1) (Network_Test.tick si w i st r) (by omega)
      (fun j hj => by rw [hst, Nat.add_assoc, Nat.add_comm 1 j]; exact hok (j + 1) (by omega))
      (by rw [hst, Nat.add_assoc, Nat.add_comm 1 m]; exact hfail)
      (fun j hj => by rw [hst, Nat.add_assoc, Nat.add_comm 1 j]; exact hagree (j + 1) (by omega))
      (fun j hj => by rw [hpr, Nat.add_assoc, Nat.add_comm 1 j]; exact hping (j + 1) (by omega))
    rw [hstep, hstep2, htick]
    obtain ⟨h1, h2, h3, h4, h5, h6⟩ := ih2
    have hlen : (Network_Test.tick_records (Network_Test.tick si w i st r).out).length =
        (Network_Test.tick_records st.out).length + 1 := by
      rw [nt_tick_records_tick]; simp
    refine ⟨h1, ?_, ?_, ?_, ?_, ?_⟩
    · rw [h2, hpr]; omega
    · rw [h3, hst]; omega
    · rw [h4, hlen]; omega
    · rw [h5, hlen, Nat.add_assoc, Nat.add_comm 1 m]
    · rw [h6, nt_summary_records_tick]

/-! ## The sampling loop of `Project.c` -/

theorem pj_loop_succ_ok (tt si samples : Nat) (w : World) (iface : List Char) (n i : Nat)
    (st : Project.State) (h : read_ok w iface st.reads) :
    ∃ r, read_bytes (w.proc_net_dev st.reads) iface 0 0 = some r ∧
      Project.loop tt si samples w iface (n + 1) i st =
        Project.loop tt si samples w iface n (i + 1) (Project.tick si i st r) := by
  obtain ⟨r, hr, hret⟩ := h
  exact ⟨r, hr, by simp [Project.loop, hr, hret]⟩

theorem pj_loop_succ_fail (tt si samples : Nat) (w : World) (iface : List Char) (n i : Nat)
    (st : Project.State) (h : read_fails w iface st.reads) :
    Project.loop tt si samples w iface (n + 1) i st =
      (Status.exit 1,
        { st with reads := st.reads + 1, out := st.out ++ [Project.Out.sampling_error] }) := by
  obtain ⟨r, hr, hret⟩ := h
  simp [Project.loop, hr, hret]

theorem pj_tick_records_tick (si i : Nat) (st : Project.State) (r : ReadResult) :
    Project.tick_records (Project.tick si i st r).out =
      Project.tick_records st.out ++
        [Project.Out.sample ((i + 1) * si)
          (Project.tick_mbps si st.prev_rx st.prev_tx r.rx r.tx)
          (Project.draw_bar (Project.tick_mbps si st.prev_rx st.prev_tx r.rx r.tx))] := by
  simp [Project.tick, Project.tick_records]

theorem pj_summary_records_tick (si i : Nat) (st : Project.State) (r : ReadResult) :
    Project.summary_records (Project.tick si i st r).out = Project.summary_records st.out := by
  simp [Project.tick, Project.summary_records]

/-- What a run of the loop does when all its calls of `read_bytes` succeed. -/
theorem pj_loop_all_ok (tt si samples : Nat) (w : World) (iface : List Char) (n i : Nat)
    (st : Project.State) (h : ∀ j, j < n → read_ok w iface (st.reads + j)) :
    (Project.loop tt si samples w iface n i st).1 = Status.exit 0 ∧
    (Project.tick_records (Project.loop tt si samples w iface n i st).2.out).map
        Project.tick_time =
      (Project.tick_records st.out).map Project.tick_time ++
        (List.range' (i + 1) n).map (fun t => t * si) ∧
    (Project.loop tt si samples w iface n i st).2.reads = st.reads + n ∧
    Project.summary_records (Project.loop tt si samples w iface n i st).2.out =
      Project.summary_records st.out ++
        [Project.Out.average tt
          ((Project.loop tt si samples w iface n i st).2.sum_mbps / samples)] := by
  induction n generalizing i st with
  | zero =>
    simp [Project.loop, Project.summary, Project.tick_records, Project.summary_records]
  | succ n ih =>
    obtain ⟨r, _, hstep⟩ :=
      pj_loop_succ_ok tt si samples w iface n i st (by simpa using h 0 (by omega))
    have hst : (Project.tick si i st r).reads = st.reads + 1 := rfl
    have ih2 := ih (i + 1) (Project.tick si i st r) (fun j hj => by
      rw [hst, Nat.add_assoc, Nat.add_comm 1 j]; exact h (j + 1) (by omega))
    rw [hstep]
    obtain ⟨h1, h2, h3, h4⟩ := ih2
    refine ⟨h1, ?_, ?_, ?_⟩
    · rw [h2, pj_tick_records_tick]
      simp [Project.tick_time, List.range'_succ]
    · rw [h3, hst]; omega
    · rw [h4, pj_summary_records_tick]

theorem pj_tick_records_loop (tt si samples : Nat) (w : World) (iface : List Char) (n i : Nat)
    (st : Project.State) :
    ∃ more, Project.tick_records (Project.loop tt si samples w iface n i st).2.out =
      Project.tick_records st.out ++ more := by
  induction n generalizing i st with
  | zero =>
    exact ⟨[], by simp [Project.loop, Project.summary, Project.tick_records]⟩
  | succ n ih =>
    cases hr : read_bytes (w.proc_net_dev st.reads) iface 0 0 with
    | none => exact ⟨[], by simp [Project.loop, hr]⟩
    | some r =>
      by_cases hret : r.ret = 0
      · obtain ⟨more, hm⟩ := ih (i + 1) (Project.tick si i st r)
        rw [pj_tick_records_tick, List.append_assoc] at hm
        have e : Project.loop tt si samples w iface (n + 1) i st =
            Project.loop tt si samples w iface n (i + 1) (Project.tick si i st r) := by
          simp [Project.loop, hr, hret]
        rw [e]
        exact ⟨_, hm⟩
      · exact ⟨[], by simp [Project.loop, hr, hret, Project.tick_records]⟩

/-- What a run of the loop does when its first `m` calls of `read_bytes` succeed
and the next one fails, compared with the run in a world `w2` that agrees with
`w` on those `m` calls. -/
theorem pj_loop_fail_at (tt si samples : Nat) (w w2 : World) (iface : List Char) (m n i : Nat)
    (st : Project.State) (hm : m < n)
    (hok : ∀ j, j < m → read_ok w iface (st.reads + j))
    (hfail : read_fails w iface (st.reads + m))
    (hagree : ∀ j, j < m → w2.proc_net_dev (st.reads + j) = w.proc_net_dev (st.reads + j)) :
    (Project.loop tt si samples w iface n i st).1 = Status.exit 1 ∧
    (Project.loop tt si samples w iface n i st).2.reads = st.reads + m + 1 ∧
    (Project.tick_records (Project.loop tt si samples w iface n i st).2.out).length =
      (Project.tick_records st.out).length + m ∧
    Project.tick_records (Project.loop tt si samples w iface n i st).2.out =
      (Project.tick_records (Project.loop tt si samples w2 iface n i st).2.out).take
        ((Project.tick_records st.out).length + m) ∧
    Project.summary_records (Project.loop tt si samples w iface n i st).2.out =
      Project.summary_records st.out := by
  induction m generalizing n i st with
  | zero =>
    obtain ⟨n, rfl⟩ : ∃ k, n = k + 1 := ⟨n - 1, by omega⟩
    obtain ⟨more, hmore⟩ := pj_tick_records_loop tt si samples w2 iface (n + 1) i st
    rw [pj_loop_succ_fail tt si samples w iface n i st (by simpa using hfail), hmore]
    simp [Project.tick_records, Project.summary_records]
  | succ m ih =>
    obtain ⟨n, rfl⟩ : ∃ k, n = k + 1 := ⟨n - 1, by omega⟩
    have hok0 : read_ok w iface st.reads := by simpa using hok 0 (by omega)
    have hok2 : read_ok w2 iface st.reads := by
      have := hagree 0 (by omega)
      simp only [Nat.add_zero] at this
      simpa [read_ok, this] using hok0
    obtain ⟨r, hr, hstep⟩ := pj_loop_succ_ok tt si samples w iface n i st hok0
    obtain ⟨r2, hr2, hstep2⟩ := pj_loop_succ_ok tt si samples w2 iface n i st hok2
    have hrr : r2 = r := by
      have := hagree 0 (by omega)
      simp only [Nat.add_zero] at this
      rw [this, hr] at hr2
      exact (Option.some.inj hr2).symm
    have hst : (Project.tick si i st r).reads = st.reads + 1 := rfl
    have ih2 := ih n (i + 1) (Project.tick si i st r) (by omega)
      (fun j hj => by rw [hst, Nat.add_assoc, Nat.add_comm 1 j]; exact hok (j + 1) (by omega))
      (by rw [hst, Nat.add_assoc, Nat.add_comm 1 m]; exact hfail)
      (fun j hj => by rw [hst, Nat.add_assoc, Nat.add_comm 1 j]; exact hagree (j + 1) (by omega))
    rw [hstep, hstep2, hrr]
    obtain ⟨h1, h2, h3, h4, h5⟩ := ih2
    have hlen : (Project.tick_records (Project.tick si i st r).out).length =
        (Project.tick_records st.out).length + 1 := by
      rw [pj_tick_records_tick]; simp
    refine ⟨h1, ?_, ?_, ?_, ?_⟩
    · rw [h2, hst]; omega
    · rw [h3, hlen]; omega
    · rw [h4, hlen, Nat.add_assoc, Nat.add_comm 1 m]
    · rw [h5, pj_summary_records_tick]

/-! ## The start of a run -/

theorem nt_main_with_start (tt si : Nat) (w : World) (iface : List Char) (hsi : 0 < si)
    (h : read_ok w iface 0) :
    ∃ r : ReadResult, read_bytes (w.proc_net_dev 0) iface 0 0 = some r ∧
      Network_Test.main_with tt si w (some iface) =
        Network_Test.loop si (tt / si) w iface (tt / si) 0
          ⟨r.rx, r.tx, 0, 0, 0, 0, 1, 0,
            [Network_Test.Out.ask_iface, Network_Test.Out.measuring tt,
              Network_Test.Out.showing]⟩ := by
  obtain ⟨r, hr, hret⟩ := h
  have hsi2 : si ≠ 0 := by omega
  exact ⟨r, hr, by simp [Network_Test.main_with, hr, hret, hsi2]⟩

theorem pj_main_with_start (tt si : Nat) (w : World) (iface : List Char) (hsi : 0 < si)
    (h : read_ok w iface 0) :
    ∃ r : ReadResult, read_bytes (w.proc_net_dev 0) iface 0 0 = some r ∧
      Project.main_with tt si w (some iface) =
        Project.loop tt si (tt / si) w iface (tt / si) 0
          ⟨r.rx, r.tx, [], 0, 1,
            [Project.Out.ask_iface, Project.Out.measuring tt,
              Project.Out.legend MAX_BAR_WIDTH]⟩ := by
  obtain ⟨r, hr, hret⟩ := h
  have hsi2 : si ≠ 0 := by omega
  exact ⟨r, hr, by simp [Project.main_with, hr, hret, hsi2]⟩

/-! ## Runs of `main` -/

theorem sample_table_wlan0 :
    read_bytes (some sample_table) "wlan0".toList 0 0 = some ⟨0, 123456, 654321⟩ := by
  decide

theorem sample_table_eth0 :
    read_bytes (some sample_table) "eth0".toList 0 0 = some ⟨-1, 0, 0⟩ := by
  decide

/-- C6: in a run of `Network_Test.c` whose calls of `read_bytes` all succeed, with
`N = TOTAL_TIME / SAMPLE_INTERVAL` ticks and any results of the probe, a failed
probe (negative result) never ends the run: the run returns 0, all `N` ticks are
printed, a tick prints its latency when its probe result is at least 0 and `N/A`
otherwise, `ping_count` is the number of probe results that are at least 0,
`total_ping_ms` is their sum, and the average latency printed is
`total_ping_ms / ping_count` (`N/A` when `ping_count` is 0). -/
theorem probe_failure_keeps_run (tt si : Nat) (w : World) (iface : List Char) (hsi : 0 < si)
    (hreads : ∀ j, j ≤ tt / si → read_ok w iface j) :
    (Network_Test.main_with tt si w (some iface)).1 = Status.exit 0 ∧
    (Network_Test.tick_records (Network_Test.main_with tt si w (some iface)).2.out).length =
      tt / si ∧
    (Network_Test.tick_records (Network_Test.main_with tt si w (some iface)).2.out).map
        Network_Test.tick_ping =
      (probe_script w (tt / si)).map (fun p => if 0 ≤ p then some p else none) ∧
    (Network_Test.main_with tt si w (some iface)).2.ping_count =
      (successful (probe_script w (tt / si))).length ∧
    (Network_Test.main_with tt si w (some iface)).2.total_ping_ms =
      (successful (probe_script w (tt / si))).sum ∧
    Network_Test.summary_records (Network_Test.main_with tt si w (some iface)).2.out =
      [Network_Test.Out.average_download
        ((Network_Test.main_with tt si w (some iface)).2.total_rx_mbps / (tt / si : Nat)),
       Network_Test.Out.average_upload
        ((Network_Test.main_with tt si w (some iface)).2.total_tx_mbps / (tt / si : Nat)),
       Network_Test.Out.average_ping
        (if 0 < (Network_Test.main_with tt si w (some iface)).2.ping_count then
          some ((Network_Test.main_with tt si w (some iface)).2.total_ping_ms /
            (Network_Test.main_with tt si w (some iface)).2.ping_count)
         else none)] := by
  obtain ⟨r, _, hstart⟩ := nt_main_with_start tt si w iface hsi (hreads 0 (Nat.zero_le _))
  have h := nt_loop_all_ok si (tt / si) w iface (tt / si) 0
    ⟨r.rx, r.tx, 0, 0, 0, 0, 1, 0,
      [Network_Test.Out.ask_iface, Network_Test.Out.measuring tt, Network_Test.Out.showing]⟩
    (fun j hj => hreads (1 + j) (by rw [Nat.add_comm]; exact hj))
  rw [← hstart] at h
  obtain ⟨h1, h2, h3, h4, h5, _, _, h8⟩ := h
  refine ⟨h1, ?_, ?_, ?_, ?_, ?_⟩
  · have := congrArg List.length h2
    simpa [Network_Test.tick_records] using this
  · rw [h3, probe_script, List.range_eq_range']
    simp [Network_Test.tick_records]
  · rw [h4, probe_script, List.range_eq_range']
    simp
  · rw [h5, probe_script, List.range_eq_range']
    simp
  · rw [h8]
    simp [Network_Test.summary_records]

/-- C6, witness: four ticks with the probe failing at ticks 2 and 3 give four
lines, `ping_count = 2`, `total_ping_ms = 50` and the average of the latencies of
ticks 1 and 4. -/
theorem probe_failure_keeps_run_witness :
    (Network_Test.main_with 4 1 flaky_probe_world (some "wlan0".toList)).1 = Status.exit 0 ∧
    (Network_Test.tick_records
      (Network_Test.main_with 4 1 flaky_probe_world (some "wlan0".toList)).2.out).length = 4 ∧
    (Network_Test.tick_records
      (Network_Test.main_with 4 1 flaky_probe_world (some "wlan0".toList)).2.out).map
        Network_Test.tick_ping = [some 20, none, none, some 30] ∧
    (Network_Test.main_with 4 1 flaky_probe_world (some "wlan0".toList)).2.ping_count = 2 ∧
    (Network_Test.main_with 4 1 flaky_probe_world (some "wlan0".toList)).2.total_ping_ms = 50 ∧
    Network_Test.Out.average_ping (some 25) ∈
      Network_Test.summary_records
        (Network_Test.main_with 4 1 flaky_probe_world (some "wlan0".toList)).2.out := by
  have h := probe_failure_keeps_run 4 1 flaky_probe_world "wlan0".toList (by decide)
    (fun _ _ => ⟨_, sample_table_wlan0, rfl⟩)
  have hs : probe_script flaky_probe_world (4 / 1) = [20, -1, -1, 30] := by
    simp [probe_script, flaky_probe_world, List.range, List.range.loop]
  obtain ⟨h1, h2, h3, h4, h5, h6⟩ := h
  rw [hs] at h3 h4 h5
  have e4 : (Network_Test.main_with 4 1 flaky_probe_world (some "wlan0".toList)).2.ping_count
      = 2 := by
    rw [h4]; simp [successful]
  have e5 : (Network_Test.main_with 4 1 flaky_probe_world (some "wlan0".toList)).2.total_ping_ms
      = 50 := by
    rw [h5]; norm_num [successful]
  refine ⟨h1, h2, ?_, e4, e5, ?_⟩
  · rw [h3]; norm_num
  · rw [h6, e4, e5]; norm_num

/-- C7: when the priming call of `read_bytes` fails, `main` (of `Network_Test.c`
and of `Project.c`) returns 1 after printing only the prompt and the error
message: no tick line, no summary line, no call of the probe, no further call of
`read_bytes`. -/
theorem priming_failure_ends_run (tt si : Nat) (w : World) (iface : List Char)
    (h : read_fails w iface 0) :
    ((Network_Test.main_with tt si w (some iface)).1 = Status.exit 1 ∧
      (Network_Test.main_with tt si w (some iface)).2.out =
        [Network_Test.Out.ask_iface, Network_Test.Out.iface_error iface] ∧
      Network_Test.tick_records (Network_Test.main_with tt si w (some iface)).2.out = [] ∧
      Network_Test.summary_records (Network_Test.main_with tt si w (some iface)).2.out = [] ∧
      (Network_Test.main_with tt si w (some iface)).2.probes = 0 ∧
      (Network_Test.main_with tt si w (some iface)).2.reads = 1) ∧
    ((Project.main_with tt si w (some iface)).1 = Status.exit 1 ∧
      (Project.main_with tt si w (some iface)).2.out =
        [Project.Out.ask_iface, Project.Out.iface_error iface] ∧
      Project.tick_records (Project.main_with tt si w (some iface)).2.out = [] ∧
      Project.summary_records (Project.main_with tt si w (some iface)).2.out = [] ∧
      (Project.main_with tt si w (some iface)).2.reads = 1) := by
  obtain ⟨r, hr, hret⟩ := h
  constructor
  · simp [Network_Test.main_with, hr, hret, Network_Test.tick_records,
      Network_Test.summary_records]
  · simp [Project.main_with, hr, hret, Project.tick_records, Project.summary_records]

/-- C7, witness: the interface `eth0` is absent from the table that lists `lo`
and `wlan0`, so both programs return 1 without a tick. -/
theorem priming_failure_ends_run_witness :
    ((Network_Test.main steady_world (some "eth0".toList)).1 = Status.exit 1 ∧
      (Network_Test.main steady_world (some "eth0".toList)).2.out =
        [Network_Test.Out.ask_iface, Network_Test.Out.iface_error "eth0".toList] ∧
      Network_Test.tick_records (Network_Test.main steady_world (some "eth0".toList)).2.out =
        [] ∧
      Network_Test.summary_records
        (Network_Test.main steady_world (some "eth0".toList)).2.out = [] ∧
      (Network_Test.main steady_world (some "eth0".toList)).2.probes = 0 ∧
      (Network_Test.main steady_world (some "eth0".toList)).2.reads = 1) ∧
    ((Project.main steady_world (some "eth0".toList)).1 = Status.exit 1 ∧
      (Project.main steady_world (some "eth0".toList)).2.out =
        [Project.Out.ask_iface, Project.Out.iface_error "eth0".toList] ∧
      Project.tick_records (Project.main steady_world (some "eth0".toList)).2.out = [] ∧
      Project.summary_records (Project.main steady_world (some "eth0".toList)).2.out = [] ∧
      (Project.main steady_world (some "eth0".toList)).2.reads = 1) :=
  priming_failure_ends_run TOTAL_TIME SAMPLE_INTERVAL steady_world "eth0".toList
    ⟨_, sample_table_eth0, by decide⟩

/-- C8: let the priming call of `read_bytes` and the calls of ticks `1 .. k-1`
succeed and the call of tick `k` fail, `1 ≤ k ≤ N = TOTAL_TIME / SAMPLE_INTERVAL`.
Then `main` (of `Network_Test.c` and of `Project.c`) returns 1 at once: exactly
`k - 1` tick lines are printed, they are the first `k - 1` tick lines of the run
in the world `w2` in which every call succeeds and which agrees with `w` on the
calls before the failure and on the probe (a run that prints `N` tick lines), the
probe has been called `k - 1` times, no call of `read_bytes` follows the failed
one, and no summary line is printed. -/
theorem read_failure_ends_run (tt si : Nat) (w w2 : World) (iface : List Char) (k : Nat)
    (hsi : 0 < si) (hk1 : 1 ≤ k) (hk2 : k ≤ tt / si)
    (hok : ∀ j, j < k → read_ok w iface j) (hfail : read_fails w iface k)
    (hok2 : ∀ j, j ≤ tt / si → read_ok w2 iface j)
    (hagree : ∀ j, j < k → w2.proc_net_dev j = w.proc_net_dev j)
    (hping : ∀ j, w2.ping j = w.ping j) :
    ((Network_Test.main_with tt si w (some iface)).1 = Status.exit 1 ∧
      (Network_Test.tick_records (Network_Test.main_with tt si w (some iface)).2.out).length =
        k - 1 ∧
      Network_Test.tick_records (Network_Test.main_with tt si w (some iface)).2.out =
        (Network_Test.tick_records
          (Network_Test.main_with tt si w2 (some iface)).2.out).take (k - 1) ∧
      (Network_Test.tick_records (Network_Test.main_with tt si w2 (some iface)).2.out).length =
        tt / si ∧
      (Network_Test.main_with tt si w (some iface)).2.probes = k - 1 ∧
      (Network_Test.main_with tt si w (some iface)).2.reads = k + 1 ∧
      Network_Test.summary_records (Network_Test.main_with tt si w (some iface)).2.out = []) ∧
    ((Project.main_with tt si w (some iface)).1 = Status.exit 1 ∧
      (Project.tick_records (Project.main_with tt si w (some iface)).2.out).length = k - 1 ∧
      Project.tick_records (Project.main_with tt si w (some iface)).2.out =
        (Project.tick_records (Project.main_with tt si w2 (some iface)).2.out).take (k - 1) ∧
      (Project.tick_records (Project.main_with tt si w2 (some iface)).2.out).length =
        tt / si ∧
      (Project.main_with tt si w (some iface)).2.reads = k + 1 ∧
      Project.summary_records (Project.main_with tt si w (some iface)).2.out = []) := by
  obtain ⟨m, rfl⟩ : ∃ m, k = m + 1 := ⟨k - 1, by omega⟩
  have hlt : m < tt / si := hk2
  have hw0 : read_ok w iface 0 := hok 0 (by omega)
  have hw20 : read_ok w2 iface 0 := hok2 0 (Nat.zero_le _)
  have hr0 : w2.proc_net_dev 0 = w.proc_net_dev 0 := hagree 0 (by omega)
  constructor
  · obtain ⟨r, hr, hstart⟩ := nt_main_with_start tt si w iface hsi hw0
    obtain ⟨r2, hr2, hstart2⟩ := nt_main_with_start tt si w2 iface hsi hw20
    rw [hr0, hr] at hr2
    cases hr2
    have h := nt_loop_fail_at si (tt / si) w w2 iface m (tt / si) 0
      ⟨r.rx, r.tx, 0, 0, 0, 0, 1, 0,
        [Network_Test.Out.ask_iface, Network_Test.Out.measuring tt, Network_Test.Out.showing]⟩
      hlt (fun j hj => hok (1 + j) (by omega)) (by rw [Nat.add_comm]; exact hfail)
      (fun j hj => hagree (1 + j) (by omega)) (fun j _ => hping _)
    have h2 := nt_loop_all_ok si (tt / si) w2 iface (tt / si) 0
      ⟨r.rx, r.tx, 0, 0, 0, 0, 1, 0,
        [Network_Test.Out.ask_iface, Network_Test.Out.measuring tt, Network_Test.Out.showing]⟩
      (fun j hj => hok2 (1 + j) (by rw [Nat.add_comm]; exact hj))
    rw [← hstart, ← hstart2] at h
    rw [← hstart2] at h2
    obtain ⟨a1, a2, a3, a4, a5, a6⟩ := h
    have hlen2 := congrArg List.length h2.2.1
    refine ⟨a1, ?_, ?_, ?_, ?_, ?_, ?_⟩
    · simpa [Network_Test.tick_records] using a4
    · simpa [Network_Test.tick_records] using a5
    · simpa [Network_Test.tick_records] using hlen2
    · simpa using a2
    · have a3b : (Network_Test.main_with tt si w (some iface)).2.reads = 1 + m + 1 := a3
      omega
    · simpa [Network_Test.summary_records] using a6
  · obtain ⟨r, hr, hstart⟩ := pj_main_with_start tt si w iface hsi hw0
    obtain ⟨r2, hr2, hstart2⟩ := pj_main_with_start tt si w2 iface hsi hw20
    rw [hr0, hr] at hr2
    cases hr2
    have h := pj_loop_fail_at tt si (tt / si) w w2 iface m (tt / si) 0
      ⟨r.rx, r.tx, [], 0, 1,
        [Project.Out.ask_iface, Project.Out.measuring tt, Project.Out.legend MAX_BAR_WIDTH]⟩
      hlt (fun j hj => hok (1 + j) (by omega)) (by rw [Nat.add_comm]; exact hfail)
      (fun j hj => hagree (1 + j) (by omega))
    have h2 := pj_loop_all_ok tt si (tt / si) w2 iface (tt / si) 0
      ⟨r.rx, r.tx, [], 0, 1,
        [Project.Out.ask_iface, Project.Out.measuring tt, Project.Out.legend MAX_BAR_WIDTH]⟩
      (fun j hj => hok2 (1 + j) (by rw [Nat.add_comm]; exact hj))
    rw [← hstart, ← hstart2] at h
    rw [← hstart2] at h2
    obtain ⟨a1, a3, a4, a5, a6⟩ := h
    have hlen2 := congrArg List.length h2.2.1
    refine ⟨a1, ?_, ?_, ?_, ?_, ?_⟩
    · simpa [Project.tick_records] using a4
    · simpa [Project.tick_records] using a5
    · simpa [Project.tick_records] using hlen2
    · have a3b : (Project.main_with tt si w (some iface)).2.reads = 1 + m + 1 := a3
      omega
    · simpa [Project.summary_records] using a6

/-- C8, witness: with the compiled-in constants (ten ticks), when
`/proc/net/dev` cannot be opened at tick 3 both programs return 1 after the two
tick lines that the undisturbed run prints first. -/
theorem read_failure_ends_run_witness :
    ((Network_Test.main failing_world (some "wlan0".toList)).1 = Status.exit 1 ∧
      (Network_Test.tick_records
        (Network_Test.main failing_world (some "wlan0".toList)).2.out).length = 2 ∧
      Network_Test.tick_records (Network_Test.main failing_world (some "wlan0".toList)).2.out =
        (Network_Test.tick_records
          (Network_Test.main steady_world (some "wlan0".toList)).2.out).take 2 ∧
      (Network_Test.tick_records
        (Network_Test.main steady_world (some "wlan0".toList)).2.out).length = 10 ∧
      (Network_Test.main failing_world (some "wlan0".toList)).2.probes = 2 ∧
      (Network_Test.main failing_world (some "wlan0".toList)).2.reads = 4 ∧
      Network_Test.summary_records
        (Network_Test.main failing_world (some "wlan0".toList)).2.out = []) ∧
    ((Project.main failing_world (some "wlan0".toList)).1 = Status.exit 1 ∧
      (Project.tick_records (Project.main failing_world (some "wlan0".toList)).2.out).length =
        2 ∧
      Project.tick_records (Project.main failing_world (some "wlan0".toList)).2.out =
        (Project.tick_records (Project.main steady_world (some "wlan0".toList)).2.out).take 2 ∧
      (Project.tick_records (Project.main steady_world (some "wlan0".toList)).2.out).length =
        10 ∧
      (Project.main failing_world (some "wlan0".toList)).2.reads = 4 ∧
      Project.summary_records (Project.main failing_world (some "wlan0".toList)).2.out = []) :=
  read_failure_ends_run TOTAL_TIME SAMPLE_INTERVAL failing_world steady_world "wlan0".toList 3
    (by decide) (by decide) (by decide)
    (fun j hj => ⟨_, by
      show read_bytes (if j = 3 then none else some sample_table) _ 0 0 = _
      rw [if_neg (by omega)]
      exact sample_table_wlan0, rfl⟩)
    ⟨⟨-1, 0, 0⟩, rfl, by decide⟩
    (fun _ _ => ⟨_, sample_table_wlan0, rfl⟩)
    (fun j hj => by
      show some sample_table = if j = 3 then none else some sample_table
      rw [if_neg (by omega)])
    (fun _ => rfl)

/-- C9: when every call of `read_bytes` succeeds, a run prints exactly
`tickCount = TOTAL_TIME / SAMPLE_INTERVAL` tick lines, whatever the probe
returns. `Network_Test.c` numbers them `1, 2, ..., tickCount`; `Project.c`
labels them with the times `1 * SAMPLE_INTERVAL, ..., tickCount * SAMPLE_INTERVAL`;
both sequences are strictly increasing. -/
theorem run_prints_every_tick (tt si : Nat) (w : World) (iface : List Char) (hsi : 0 < si)
    (hreads : ∀ j, j ≤ tt / si → read_ok w iface j) :
    ((Network_Test.tick_records (Network_Test.main_with tt si w (some iface)).2.out).length =
        tt / si ∧
      (Network_Test.tick_records (Network_Test.main_with tt si w (some iface)).2.out).map
          Network_Test.tick_index = List.range' 1 (tt / si) ∧
      List.Pairwise (fun a b => a < b)
        ((Network_Test.tick_records (Network_Test.main_with tt si w (some iface)).2.out).map
          Network_Test.tick_index)) ∧
    ((Project.tick_records (Project.main_with tt si w (some iface)).2.out).length = tt / si ∧
      (Project.tick_records (Project.main_with tt si w (some iface)).2.out).map
          Project.tick_time = (List.range' 1 (tt / si)).map (fun t => t * si) ∧
      List.Pairwise (fun a b => a < b)
        ((Project.tick_records (Project.main_with tt si w (some iface)).2.out).map
          Project.tick_time)) := by
  have hinc : List.Pairwise (fun a b => a < b) (List.range' 1 (tt / si)) :=
    List.pairwise_lt_range' 1 (tt / si)
  constructor
  · obtain ⟨r, _, hstart⟩ := nt_main_with_start tt si w iface hsi (hreads 0 (Nat.zero_le _))
    have h := (nt_loop_all_ok si (tt / si) w iface (tt / si) 0
      ⟨r.rx, r.tx, 0, 0, 0, 0, 1, 0,
        [Network_Test.Out.ask_iface, Network_Test.Out.measuring tt, Network_Test.Out.showing]⟩
      (fun j hj => hreads (1 + j) (by rw [Nat.add_comm]; exact hj))).2.1
    rw [← hstart] at h
    have h2 : (Network_Test.tick_records
        (Network_Test.main_with tt si w (some iface)).2.out).map Network_Test.tick_index =
        List.range' 1 (tt / si) := by
      simpa [Network_Test.tick_records] using h
    refine ⟨?_, h2, ?_⟩
    · simpa using congrArg List.length h2
    · rw [h2]; exact hinc
  · obtain ⟨r, _, hstart⟩ := pj_main_with_start tt si w iface hsi (hreads 0 (Nat.zero_le _))
    have h := (pj_loop_all_ok tt si (tt / si) w iface (tt / si) 0
      ⟨r.rx, r.tx, [], 0, 1,
        [Project.Out.ask_iface, Project.Out.measuring tt, Project.Out.legend MAX_BAR_WIDTH]⟩
      (fun j hj => hreads (1 + j) (by rw [Nat.add_comm]; exact hj))).2.1
    rw [← hstart] at h
    have h2 : (Project.tick_records (Project.main_with tt si w (some iface)).2.out).map
        Project.tick_time = (List.range' 1 (tt / si)).map (fun t => t * si) := by
      simpa [Project.tick_records] using h
    refine ⟨?_, h2, ?_⟩
    · simpa using congrArg List.length h2
    · rw [h2]
      exact hinc.map _ (fun a b hab => Nat.mul_lt_mul_of_pos_right hab hsi)

/-- C9, witness: with the compiled-in constants both programs print ten tick
lines, numbered 1 to 10. -/
theorem run_prints_every_tick_witness :
    ((Network_Test.tick_records (Network_Test.main steady_world (some "wlan0".toList)).2.out).map
        Network_Test.tick_index = [1, 2, 3, 4, 5, 6, 7, 8, 9, 10]) ∧
    ((Project.tick_records (Project.main steady_world (some "wlan0".toList)).2.out).map
        Project.tick_time = [1, 2, 3, 4, 5, 6, 7, 8, 9, 10]) := by
  have h := run_prints_every_tick TOTAL_TIME SAMPLE_INTERVAL steady_world "wlan0".toList
    (by decide) (fun _ _ => ⟨_, sample_table_wlan0, rfl⟩)
  exact ⟨h.1.2.1, h.2.2.1⟩

/-! ## The combined rate of `Project.c` and the bar -/

theorem tdiv_num_den (q : ℚ) : Int.tdiv q.num q.den = truncate q := by
  unfold truncate
  by_cases h : 0 ≤ q
  · rw [if_pos h, Rat.floor_def]
    exact Int.tdiv_eq_ediv (Rat.num_nonneg.mpr h) (Int.ofNat_nonneg _)
  · rw [if_neg h]
    have hneg : 0 ≤ -q := by linarith
    have hfl : ⌊-q⌋ = (-q).num / ((-q).den : Int) := Rat.floor_def
    have hc : ⌈q⌉ = -⌊-q⌋ := by rw [Int.floor_neg, neg_neg]
    rw [hc, hfl, Rat.num_neg_eq_neg_num, Rat.den_neg_eq_den,
      ← Int.tdiv_eq_ediv (by
        have := Rat.num_nonneg.mpr hneg
        rwa [Rat.num_neg_eq_neg_num] at this) (Int.ofNat_nonneg _), Int.neg_tdiv, neg_neg]

/-- C18: for a rate whose integer part (rounded towards zero) fits in an `int`,
`draw_bar` prints `min(max(trunc(mbps), 0), MAX_BAR_WIDTH)` characters `#`
followed by one newline; that number is at least 0 and at most 50. -/
theorem draw_bar_width (mbps : ℚ) (hmin : Project.INT_MIN ≤ truncate mbps)
    (hmax : truncate mbps ≤ Project.INT_MAX) :
    Project.draw_bar mbps =
        some (List.replicate (min (max (truncate mbps) 0) MAX_BAR_WIDTH).toNat '#' ++ ['\n']) ∧
      (min (max (truncate mbps) 0) MAX_BAR_WIDTH).toNat ≤ 50 ∧
      0 ≤ min (max (truncate mbps) 0) (MAX_BAR_WIDTH : Int) := by
  have hw : (MAX_BAR_WIDTH : Int) = 50 := rfl
  refine ⟨?_, ?_, ?_⟩
  · have hcond : ¬ (truncate mbps < Project.INT_MIN ∨ Project.INT_MAX < truncate mbps) := by
      omega
    simp only [Project.draw_bar, tdiv_num_den, hcond, if_false]
    congr 3
    rw [hw]
    by_cases h50 : truncate mbps > 50
    · have : ¬ ((50 : Int) < 0) := by decide
      simp only [h50, if_true, this, if_false]
      omega
    · simp only [h50, if_false]
      by_cases h0 : truncate mbps < 0
      · simp only [h0, if_true]; omega
      · simp only [h0, if_false]; omega
  · rw [hw]; omega
  · rw [hw]; omega

/-- C18, witness: a rate of 16.992 Mbps gives 16 characters `#`, a rate of 75.5
Mbps gives 50 and a rate of `-2.5` gives none, each followed by a newline. -/
theorem draw_bar_width_witness :
    Project.draw_bar (16.992 : ℚ) = some (List.replicate 16 '#' ++ ['\n']) ∧
      Project.draw_bar (75.5 : ℚ) = some (List.replicate 50 '#' ++ ['\n']) ∧
      Project.draw_bar (-2.5 : ℚ) = some ['\n'] := by
  have t1 : truncate (16.992 : ℚ) = 16 := by
    rw [truncate, if_pos (by norm_num), Int.floor_eq_iff]; norm_num
  have t2 : truncate (75.5 : ℚ) = 75 := by
    rw [truncate, if_pos (by norm_num), Int.floor_eq_iff]; norm_num
  have t3 : truncate (-2.5 : ℚ) = -2 := by
    rw [truncate, if_neg (by norm_num), Int.ceil_eq_iff]; norm_num
  have h1 := (draw_bar_width (16.992 : ℚ) (by rw [t1]; decide) (by rw [t1]; decide)).1
  have h2 := (draw_bar_width (75.5 : ℚ) (by rw [t2]; decide) (by rw [t2]; decide)).1
  have h3 := (draw_bar_width (-2.5 : ℚ) (by rw [t3]; decide) (by rw [t3]; decide)).1
  rw [t1] at h1
  rw [t2] at h2
  rw [t3] at h3
  exact ⟨h1, h2, h3⟩

/-! ## The running aggregate of `Network_Test.c` -/

theorem to_mbps_nonneg (interval diff : Nat) : 0 ≤ to_mbps interval diff := by
  unfold to_mbps
  positivity

theorem nt_loop_after_ticks (si samples : Nat) (w : World) (iface : List Char) (n i : Nat)
    (st st2 : Network_Test.State) (h : nt_after_ticks si w iface n i st = some st2) :
    Network_Test.loop si samples w iface n i st = Network_Test.summary samples st2 := by
  induction n generalizing i st with
  | zero =>
    simp only [nt_after_ticks, Option.some.injEq] at h
    rw [← h]; rfl
  | succ n ih =>
    cases hr : read_bytes (w.proc_net_dev st.reads) iface 0 0 with
    | none => simp [nt_after_ticks, hr] at h
    | some r =>
      by_cases hret : r.ret = 0
      · simp only [nt_after_ticks, hr, hret, ne_eq, not_true_eq_false, if_false] at h
        simp only [Network_Test.loop, hr, hret, ne_eq, not_true_eq_false, if_false]
        exact ih _ _ h
      · simp [nt_after_ticks, hr, hret] at h

theorem nt_after_ticks_of_ok (si : Nat) (w : World) (iface : List Char) (n i : Nat)
    (st : Network_Test.State) (h : ∀ j, j < n → read_ok w iface (st.reads + j)) :
    ∃ st2, nt_after_ticks si w iface n i st = some st2 := by
  induction n generalizing i st with
  | zero => exact ⟨st, rfl⟩
  | succ n ih =>
    obtain ⟨r, hr, hret⟩ := h 0 (by omega)
    simp only [Nat.add_zero] at hr
    have hst : (Network_Test.tick si w i st r).reads = st.reads + 1 := rfl
    obtain ⟨st2, h2⟩ := ih (i + 1) (Network_Test.tick si w i st r) (fun j hj => by
      rw [hst, Nat.add_assoc, Nat.add_comm 1 j]; exact h (j + 1) (by omega))
    exact ⟨st2, by simp [nt_after_ticks, hr, hret, h2]⟩

/-- The invariant of the loop: it holds after `k` more iterations when it holds
before them. -/
theorem nt_after_ticks_invariant (si : Nat) (w : World) (iface : List Char) (k i : Nat)
    (st st2 : Network_Test.State) (h : nt_after_ticks si w iface k i st = some st2)
    (h1 : st.ping_count ≤ i) (h2 : 0 ≤ st.total_ping_ms) (h3 : 0 ≤ st.total_rx_mbps)
    (h4 : 0 ≤ st.total_tx_mbps) :
    st2.ping_count ≤ i + k ∧ 0 ≤ st2.total_ping_ms ∧ 0 ≤ st2.total_rx_mbps ∧
      0 ≤ st2.total_tx_mbps := by
  induction k generalizing i st with
  | zero =>
    simp only [nt_after_ticks, Option.some.injEq] at h
    subst h
    exact ⟨h1, h2, h3, h4⟩
  | succ k ih =>
    cases hr : read_bytes (w.proc_net_dev st.reads) iface 0 0 with
    | none => simp [nt_after_ticks, hr] at h
    | some r =>
      by_cases hret : r.ret = 0
      · simp only [nt_after_ticks, hr, hret, ne_eq, not_true_eq_false, if_false] at h
        have := ih (i + 1) (Network_Test.tick si w i st r) h
          (by
            simp only [Network_Test.tick]
            split <;> omega)
          (by
            simp only [Network_Test.tick]
            split
            · linarith
            · exact h2)
          (by
            simp only [Network_Test.tick, Network_Test.tick_rates]
            have := to_mbps_nonneg si (counter_diff r.rx st.prev_rx)
            linarith)
          (by
            simp only [Network_Test.tick, Network_Test.tick_rates]
            have := to_mbps_nonneg si (counter_diff r.tx st.prev_tx)
            linarith)
        obtain ⟨a, b, c, d⟩ := this
        exact ⟨by omega, b, c, d⟩
      · simp [nt_after_ticks, hr, hret] at h

theorem nt_loop_exit_zero (si samples : Nat) (w : World) (iface : List Char) (n i : Nat)
    (st : Network_Test.State)
    (h : (Network_Test.loop si samples w iface n i st).1 = Status.exit 0) :
    ∃ st2, nt_after_ticks si w iface n i st = some st2 := by
  induction n generalizing i st with
  | zero => exact ⟨st, rfl⟩
  | succ n ih =>
    cases hr : read_bytes (w.proc_net_dev st.reads) iface 0 0 with
    | none => simp [Network_Test.loop, hr] at h
    | some r =>
      by_cases hret : r.ret = 0
      · simp only [Network_Test.loop, hr, hret, ne_eq, not_true_eq_false, if_false] at h
        obtain ⟨st2, h2⟩ := ih _ _ h
        exact ⟨st2, by simp [nt_after_ticks, hr, hret, h2]⟩
      · simp [Network_Test.loop, hr, hret] at h

/-- C14: in `Network_Test.c`, for every world (every sequence of counter tables and
of probe results, negative ones included) and every `k`, the state `st` at the
end of tick `k` of the loop satisfies `0 ≤ ping_count ≤ k`, `total_ping_ms ≥ 0`,
`total_rx_mbps ≥ 0` and `total_tx_mbps ≥ 0`; the state in which a run that
returns 0 prints its summary is the state at the end of the last tick, so it
satisfies the same with `k = TOTAL_TIME / SAMPLE_INTERVAL`. -/
theorem running_aggregate_bounds (tt si : Nat) (w : World) (iface : List Char) :
    (∀ (k rx tx : Nat) (st : Network_Test.State),
      nt_after_ticks si w iface k 0 (nt_start tt rx tx) = some st →
      0 ≤ st.ping_count ∧ st.ping_count ≤ k ∧ 0 ≤ st.total_ping_ms ∧
        0 ≤ st.total_rx_mbps ∧ 0 ≤ st.total_tx_mbps) ∧
    ((Network_Test.main_with tt si w (some iface)).1 = Status.exit 0 →
      ∃ (r : ReadResult) (st : Network_Test.State),
        read_bytes (w.proc_net_dev 0) iface 0 0 = some r ∧
        nt_after_ticks si w iface (tt / si) 0 (nt_start tt r.rx r.tx) = some st ∧
        Network_Test.main_with tt si w (some iface) = Network_Test.summary (tt / si) st ∧
        (Network_Test.main_with tt si w (some iface)).2.ping_count ≤ tt / si ∧
        0 ≤ (Network_Test.main_with tt si w (some iface)).2.total_ping_ms ∧
        0 ≤ (Network_Test.main_with tt si w (some iface)).2.total_rx_mbps ∧
        0 ≤ (Network_Test.main_with tt si w (some iface)).2.total_tx_mbps) := by
  constructor
  · intro k rx tx st h
    have := nt_after_ticks_invariant si w iface k 0 (nt_start tt rx tx) st h
      (Nat.le_refl 0) (le_refl 0) (le_refl 0) (le_refl 0)
    exact ⟨Nat.zero_le _, by simpa using this.1, this.2.1, this.2.2.1, this.2.2.2⟩
  · intro h
    cases hr : read_bytes (w.proc_net_dev 0) iface 0 0 with
    | none => simp [Network_Test.main_with, hr] at h
    | some r =>
      by_cases hret : r.ret = 0
      · by_cases hsi : si = 0
        · simp [Network_Test.main_with, hr, hret, hsi] at h
        · have hmain : Network_Test.main_with tt si w (some iface) =
              Network_Test.loop si (tt / si) w iface (tt / si) 0 (nt_start tt r.rx r.tx) := by
            simp [Network_Test.main_with, hr, hret, hsi, nt_start]
          rw [hmain] at h
          obtain ⟨st, hst⟩ := nt_loop_exit_zero si (tt / si) w iface (tt / si) 0 _ h
          have hsum := nt_loop_after_ticks si (tt / si) w iface (tt / si) 0 _ st hst
          have hinv := nt_after_ticks_invariant si w iface (tt / si) 0 (nt_start tt r.rx r.tx)
            st hst (Nat.le_refl 0) (le_refl 0) (le_refl 0) (le_refl 0)
          refine ⟨r, st, rfl, hst, by rw [hmain, hsum], ?_, ?_, ?_, ?_⟩
          · rw [hmain, hsum]; simpa [Network_Test.summary] using hinv.1
          · rw [hmain, hsum]; exact hinv.2.1
          · rw [hmain, hsum]; exact hinv.2.2.1
          · rw [hmain, hsum]; exact hinv.2.2.2
      · simp [Network_Test.main_with, hr, hret] at h

/-! ## The summary of `Network_Test.c` -/

theorem successful_length_eq_zero (script : List ℚ) :
    (successful script).length = 0 ↔ ∀ p ∈ script, p < 0 := by
  induction script with
  | nil => simp [successful]
  | cons p ps ih =>
    rw [successful_cons]
    by_cases hp : 0 ≤ p
    · simp only [hp, if_true, List.length_cons, List.mem_cons, forall_eq_or_imp]
      constructor
      · intro h; omega
      · intro h; exact absurd h.1 (by linarith)
    · simp only [hp, if_false, List.mem_cons, forall_eq_or_imp]
      rw [ih]
      constructor
      · intro h; exact ⟨by linarith, h⟩
      · intro h; exact h.2

/-- C13: in a run of `Network_Test.c` that reaches the summary (every call of
`read_bytes` succeeds; `0 < SAMPLE_INTERVAL ≤ TOTAL_TIME`), the tick count
`TOTAL_TIME / SAMPLE_INTERVAL` is positive, the download and upload averages
printed are the sums divided by the tick count, `ping_count` is 0 exactly when
no probe result is at least 0, and the average latency printed is `N/A` when
`ping_count = 0` and `total_ping_ms / ping_count`, with `ping_count > 0`,
otherwise. -/
theorem summary_averages (tt si : Nat) (w : World) (iface : List Char) (hsi : 0 < si)
    (htt : si ≤ tt) (hreads : ∀ j, j ≤ tt / si → read_ok w iface j) :
    0 < tt / si ∧
    ((Network_Test.main_with tt si w (some iface)).2.ping_count = 0 ↔
      ∀ j, j < tt / si → w.ping j < 0) ∧
    ((Network_Test.main_with tt si w (some iface)).2.ping_count = 0 →
      Network_Test.summary_records (Network_Test.main_with tt si w (some iface)).2.out =
        [Network_Test.Out.average_download
          ((Network_Test.main_with tt si w (some iface)).2.total_rx_mbps / (tt / si : Nat)),
         Network_Test.Out.average_upload
          ((Network_Test.main_with tt si w (some iface)).2.total_tx_mbps / (tt / si : Nat)),
         Network_Test.Out.average_ping none]) ∧
    ((Network_Test.main_with tt si w (some iface)).2.ping_count ≠ 0 →
      0 < (Network_Test.main_with tt si w (some iface)).2.ping_count ∧
      Network_Test.summary_records (Network_Test.main_with tt si w (some iface)).2.out =
        [Network_Test.Out.average_download
          ((Network_Test.main_with tt si w (some iface)).2.total_rx_mbps / (tt / si : Nat)),
         Network_Test.Out.average_upload
          ((Network_Test.main_with tt si w (some iface)).2.total_tx_mbps / (tt / si : Nat)),
         Network_Test.Out.average_ping
          (some ((Network_Test.main_with tt si w (some iface)).2.total_ping_ms /
            (Network_Test.main_with tt si w (some iface)).2.ping_count))]) := by
  obtain ⟨r, _, hstart⟩ := nt_main_with_start tt si w iface hsi (hreads 0 (Nat.zero_le _))
  have h := nt_loop_all_ok si (tt / si) w iface (tt / si) 0
    ⟨r.rx, r.tx, 0, 0, 0, 0, 1, 0,
      [Network_Test.Out.ask_iface, Network_Test.Out.measuring tt, Network_Test.Out.showing]⟩
    (fun j hj => hreads (1 + j) (by rw [Nat.add_comm]; exact hj))
  rw [← hstart] at h
  obtain ⟨_, _, _, h4, _, _, _, h8⟩ := h
  have hsum : Network_Test.summary_records (Network_Test.main_with tt si w (some iface)).2.out =
      [Network_Test.Out.average_download
        ((Network_Test.main_with tt si w (some iface)).2.total_rx_mbps / (tt / si : Nat)),
       Network_Test.Out.average_upload
        ((Network_Test.main_with tt si w (some iface)).2.total_tx_mbps / (tt / si : Nat)),
       Network_Test.Out.average_ping
        (if 0 < (Network_Test.main_with tt si w (some iface)).2.ping_count then
          some ((Network_Test.main_with tt si w (some iface)).2.total_ping_ms /
            (Network_Test.main_with tt si w (some iface)).2.ping_count)
         else none)] := by
    rw [h8]; simp [Network_Test.summary_records]
  have hcount : (Network_Test.main_with tt si w (some iface)).2.ping_count =
      (successful ((List.range' 0 (tt / si)).map w.ping)).length := by
    rw [h4]; simp
  refine ⟨Nat.div_pos htt hsi, ?_, ?_, ?_⟩
  · rw [hcount, successful_length_eq_zero]
    simp [List.mem_range'_1]
  · intro h0
    rw [hsum, h0]; simp
  · intro hne
    have hpos : 0 < (Network_Test.main_with tt si w (some iface)).2.ping_count := by omega
    refine ⟨hpos, ?_⟩
    rw [hsum, if_pos hpos]

/-- C13, witness: with the compiled-in constants and a probe that always takes
12 ms the average latency printed is `total_ping_ms / ping_count`; the tick count
is 10. -/
theorem summary_averages_witness :
    0 < TOTAL_TIME / SAMPLE_INTERVAL ∧
    (Network_Test.main steady_world (some "wlan0".toList)).2.ping_count ≠ 0 ∧
    Network_Test.Out.average_ping
        (some ((Network_Test.main steady_world (some "wlan0".toList)).2.total_ping_ms /
          (Network_Test.main steady_world (some "wlan0".toList)).2.ping_count)) ∈
      Network_Test.summary_records
        (Network_Test.main steady_world (some "wlan0".toList)).2.out := by
  have h := summary_averages TOTAL_TIME SAMPLE_INTERVAL steady_world "wlan0".toList
    (by decide) (by decide) (fun _ _ => ⟨_, sample_table_wlan0, rfl⟩)
  have hne : (Network_Test.main steady_world (some "wlan0".toList)).2.ping_count ≠ 0 := by
    intro h0
    have := (h.2.1.mp h0) 0 (by decide)
    simp [steady_world] at this
    exact absurd this (by norm_num)
  refine ⟨h.1, hne, ?_⟩
  have hs := (h.2.2.2 hne).2
  show _ ∈ Network_Test.summary_records
    (Network_Test.main_with TOTAL_TIME SAMPLE_INTERVAL steady_world (some "wlan0".toList)).2.out
  rw [hs]
  simp [Network_Test.main]

/-! ## Counters stored by `read_bytes` -/

theorem scan_llu_lt (s : List Char) (v : Nat) (rest : List Char)
    (h : scan_llu s = some (v, rest)) : v < ULL := by
  unfold scan_llu at h
  simp only at h
  generalize (if ((skip_space s).head? == some '-' || (skip_space s).head? == some '+') = true
    then (skip_space s).tail else skip_space s) = s2 at h
  generalize ((skip_space s).head? == some '-') = neg at h
  by_cases hds : List.takeWhile isdigit s2 = []
  · simp [hds] at h
  · simp only [hds, if_false, Option.some.injEq, Prod.mk.injEq] at h
    rw [← h.1]
    by_cases h1 : ULL ≤ digits_value (List.takeWhile isdigit s2)
    · simp only [h1, if_true]; decide
    · simp only [h1, if_false]
      cases neg with
      | true =>
        simp only [if_true]
        exact Nat.mod_lt _ (by decide)
      | false =>
        simp only [Bool.false_eq_true, if_false]
        omega

theorem scan_llus_lt (k : Nat) (s : List Char) : ∀ v ∈ scan_llus k s, v < ULL := by
  induction k generalizing s with
  | zero => simp [scan_llus]
  | succ k ih =>
    intro v hv
    unfold scan_llus at hv
    cases hs : scan_llu s with
    | none => simp [hs] at hv
    | some p =>
      obtain ⟨a, rest⟩ := p
      simp only [hs, List.mem_cons] at hv
      rcases hv with rfl | hv
      · exact scan_llu_lt s _ rest hs
      · exact ih rest v hv

theorem getD_lt (vals : List Nat) (j : Nat) (h : ∀ v ∈ vals, v < ULL) : vals.getD j 0 < ULL := by
  by_cases hj : j < vals.length
  · rw [List.getD_eq_getElem _ _ hj]
    exact h _ (List.getElem_mem _)
  · rw [List.getD_eq_default _ _ (by omega)]
    decide

theorem sscanf_line_lt (line : List Char) (n : Int) (vals : List Nat)
    (h : sscanf_line line = some (n, vals)) : ∀ v ∈ vals, v < ULL := by
  unfold sscanf_line at h
  simp only at h
  split at h
  · simp only [Option.some.injEq, Prod.mk.injEq] at h
    rw [← h.2]; simp
  · split at h
    · simp only [Option.some.injEq, Prod.mk.injEq] at h
      rw [← h.2]; simp
    · split at h
      · exact absurd h (by simp)
      · split at h
        · simp only [Option.some.injEq, Prod.mk.injEq] at h
          rw [← h.2]; simp
        · simp only [Option.some.injEq, Prod.mk.injEq] at h
          rw [← h.2]
          exact scan_llus_lt 16 _

theorem read_bytes_loop_lt (iface : List Char) (fuel : Nat) (fp : List Char) (r : ReadResult)
    (h : read_bytes_loop iface fuel fp = some r) : r.rx < ULL ∧ r.tx < ULL := by
  induction fuel generalizing fp with
  | zero =>
    simp only [read_bytes_loop, Option.some.injEq] at h
    rw [← h]; decide
  | succ n ih =>
    unfold read_bytes_loop at h
    cases hf : fgets LINE_SIZE fp with
    | none =>
      simp only [hf, Option.some.injEq] at h
      rw [← h]; decide
    | some p =>
      obtain ⟨line, rest⟩ := p
      simp only [hf] at h
      by_cases hi : iface_at_start line iface = true
      · simp only [hi, if_true] at h
        cases hs : sscanf_line line with
        | none => simp [hs] at h
        | some q =>
          obtain ⟨m, vals⟩ := q
          simp only [hs] at h
          by_cases hm : (10 : Int) ≤ m
          · simp only [hm, if_true, Option.some.injEq] at h
            rw [← h]
            have hv := sscanf_line_lt line m vals hs
            exact ⟨getD_lt vals 0 hv, getD_lt vals 8 hv⟩
          · simp only [hm, if_false] at h
            exact ih rest h
      · simp only [hi, Bool.false_eq_true, if_false] at h
        exact ih rest h

/-- The counters stored by a successful call of `read_bytes` are below `2 ^ 64`. -/
theorem read_bytes_lt (p : Option (List Char)) (iface : List Char) (r : ReadResult)
    (h : read_bytes p iface 0 0 = some r) : r.rx < ULL ∧ r.tx < ULL := by
  cases p with
  | none =>
    simp only [read_bytes, Option.some.injEq] at h
    rw [← h]; decide
  | some text => exact read_bytes_loop_lt iface _ _ r h

/-! ## The sums of the rates -/

theorem to_mbps_add (si a b : Nat) : to_mbps si (a + b) = to_mbps si a + to_mbps si b := by
  simp only [to_mbps]
  push_cast
  ring

theorem sum_range_succ_shift (f : Nat → Nat) (n : Nat) :
    ((List.range (n + 1)).map f).sum = f 0 + ((List.range n).map (fun j => f (j + 1))).sum := by
  rw [List.range_succ_eq_map, List.map_cons, List.sum_cons, List.map_map]
  rfl

theorem sum_of_steps_monotone (c : Nat → Nat) (n : Nat) (h : ∀ j, j < n → c j ≤ c (j + 1)) :
    c 0 ≤ c n ∧ sum_of_steps c n = c n - c 0 := by
  induction n with
  | zero => simp [sum_of_steps]
  | succ n ih =>
    obtain ⟨h1, h2⟩ := ih (fun j hj => h j (by omega))
    have h3 := h n (by omega)
    refine ⟨by omega, ?_⟩
    unfold sum_of_steps at h2 ⊢
    rw [List.range_succ, List.map_append, List.sum_append, h2]
    simp only [List.map_cons, List.map_nil, List.sum_cons, List.sum_nil]
    omega

theorem nt_after_ticks_totals (si : Nat) (w : World) (iface : List Char) (n i : Nat)
    (st : Network_Test.State) (a : Nat) (rx tx : Nat → Nat)
    (hrx : st.prev_rx = rx a) (htx : st.prev_tx = tx a) (hreads : st.reads = a + 1)
    (h : ∀ j, j < n → read_bytes (w.proc_net_dev (a + 1 + j)) iface 0 0 =
      some ⟨0, rx (a + 1 + j), tx (a + 1 + j)⟩) :
    ∃ st2, nt_after_ticks si w iface n i st = some st2 ∧
      st2.total_rx_mbps = st.total_rx_mbps +
        to_mbps si ((List.range n).map (fun j => rx (a + j + 1) - rx (a + j))).sum ∧
      st2.total_tx_mbps = st.total_tx_mbps +
        to_mbps si ((List.range n).map (fun j => tx (a + j + 1) - tx (a + j))).sum := by
  induction n generalizing i st a with
  | zero => exact ⟨st, rfl, by simp [to_mbps], by simp [to_mbps]⟩
  | succ n ih =>
    have h0 := h 0 (by omega)
    simp only [Nat.add_zero] at h0
    have hlt := read_bytes_lt _ _ _ h0
    simp only at hlt
    have hr : read_bytes (w.proc_net_dev st.reads) iface 0 0 =
        some ⟨0, rx (a + 1), tx (a + 1)⟩ := by rw [hreads]; exact h0
    obtain ⟨st2, e1, e2, e3⟩ := ih (i + 1)
      (Network_Test.tick si w i st ⟨0, rx (a + 1), tx (a + 1)⟩) (a + 1) rfl rfl
      (by simp [Network_Test.tick, hreads])
      (fun j hj => by
        have := h (j + 1) (by omega)
        rw [show a + 1 + (j + 1) = a + 1 + 1 + j by omega] at this
        exact this)
    refine ⟨st2, ?_, ?_, ?_⟩
    · simp [nt_after_ticks, hr, e1]
    · rw [e2, sum_range_succ_shift, to_mbps_add]
      have hd : counter_diff (rx (a + 1)) st.prev_rx = rx (a + 0 + 1) - rx (a + 0) := by
        rw [hrx]
        by_cases hle : rx a ≤ rx (a + 1)
        · rw [counter_diff_of_le _ _ hlt.1 hle]; rfl
        · rw [counter_diff_of_lt _ _ (by omega)]
          simp only [Nat.add_zero]
          omega
      simp only [Network_Test.tick, Network_Test.tick_rates, hd]
      have : (fun j => rx (a + 1 + j + 1) - rx (a + 1 + j)) =
          (fun j => rx (a + (j + 1) + 1) - rx (a + (j + 1))) := by
        funext j
        rw [show a + 1 + j = a + (j + 1) by omega]
      rw [this]
      ring
    · rw [e3, sum_range_succ_shift, to_mbps_add]
      have hd : counter_diff (tx (a + 1)) st.prev_tx = tx (a + 0 + 1) - tx (a + 0) := by
        rw [htx]
        by_cases hle : tx a ≤ tx (a + 1)
        · rw [counter_diff_of_le _ _ hlt.2 hle]; rfl
        · rw [counter_diff_of_lt _ _ (by omega)]
          simp only [Nat.add_zero]
          omega
      simp only [Network_Test.tick, Network_Test.tick_rates, hd]
      have : (fun j => tx (a + 1 + j + 1) - tx (a + 1 + j)) =
          (fun j => tx (a + (j + 1) + 1) - tx (a + (j + 1))) := by
        funext j
        rw [show a + 1 + j = a + (j + 1) by omega]
      rw [this]
      ring

theorem pj_loop_after_ticks (tt si samples : Nat) (w : World) (iface : List Char) (n i : Nat)
    (st st2 : Project.State) (h : pj_after_ticks si w iface n i st = some st2) :
    Project.loop tt si samples w iface n i st = Project.summary tt samples st2 := by
  induction n generalizing i st with
  | zero =>
    simp only [pj_after_ticks, Option.some.injEq] at h
    rw [← h]; rfl
  | succ n ih =>
    cases hr : read_bytes (w.proc_net_dev st.reads) iface 0 0 with
    | none => simp [pj_after_ticks, hr] at h
    | some r =>
      by_cases hret : r.ret = 0
      · simp only [pj_after_ticks, hr, hret, ne_eq, not_true_eq_false, if_false] at h
        simp only [Project.loop, hr, hret, ne_eq, not_true_eq_false, if_false]
        exact ih _ _ h
      · simp [pj_after_ticks, hr, hret] at h

theorem pj_after_ticks_totals (si : Nat) (w : World) (iface : List Char) (n i : Nat)
    (st : Project.State) (a : Nat) (rx tx : Nat → Nat)
    (hrx : st.prev_rx = rx a) (htx : st.prev_tx = tx a) (hreads : st.reads = a + 1)
    (h : ∀ j, j < n → read_bytes (w.proc_net_dev (a + 1 + j)) iface 0 0 =
      some ⟨0, rx (a + 1 + j), tx (a + 1 + j)⟩)
    (hsum : ∀ j, j < n → rx (a + j + 1) - rx (a + j) + (tx (a + j + 1) - tx (a + j)) < ULL) :
    ∃ st2, pj_after_ticks si w iface n i st = some st2 ∧
      st2.sum_mbps = st.sum_mbps +
        to_mbps si (((List.range n).map (fun j => rx (a + j + 1) - rx (a + j))).sum +
          ((List.range n).map (fun j => tx (a + j + 1) - tx (a + j))).sum) := by
  induction n generalizing i st a with
  | zero => exact ⟨st, rfl, by simp [to_mbps]⟩
  | succ n ih =>
    have h0 := h 0 (by omega)
    simp only [Nat.add_zero] at h0
    have hlt := read_bytes_lt _ _ _ h0
    simp only at hlt
    have hs0 := hsum 0 (by omega)
    have hr : read_bytes (w.proc_net_dev st.reads) iface 0 0 =
        some ⟨0, rx (a + 1), tx (a + 1)⟩ := by rw [hreads]; exact h0
    obtain ⟨st2, e1, e2⟩ := ih (i + 1)
      (Project.tick si i st ⟨0, rx (a + 1), tx (a + 1)⟩) (a + 1) rfl rfl
      (by simp [Project.tick, hreads])
      (fun j hj => by
        have := h (j + 1) (by omega)
        rw [show a + 1 + (j + 1) = a + 1 + 1 + j by omega] at this
        exact this)
      (fun j hj => by
        have := hsum (j + 1) (by omega)
        rw [show a + (j + 1) = a + 1 + j by omega] at this
        exact this)
    refine ⟨st2, ?_, ?_⟩
    · simp [pj_after_ticks, hr, e1]
    · rw [e2, sum_range_succ_shift, sum_range_succ_shift]
      have hdr : counter_diff (rx (a + 1)) st.prev_rx = rx (a + 0 + 1) - rx (a + 0) := by
        rw [hrx]
        by_cases hle : rx a ≤ rx (a + 1)
        · rw [counter_diff_of_le _ _ hlt.1 hle]; rfl
        · rw [counter_diff_of_lt _ _ (by omega)]
          simp only [Nat.add_zero]
          omega
      have hdt : counter_diff (tx (a + 1)) st.prev_tx = tx (a + 0 + 1) - tx (a + 0) := by
        rw [htx]
        by_cases hle : tx a ≤ tx (a + 1)
        · rw [counter_diff_of_le _ _ hlt.2 hle]; rfl
        · rw [counter_diff_of_lt _ _ (by omega)]
          simp only [Nat.add_zero]
          omega
      simp only [Project.tick, Project.tick_mbps, hdr, hdt, Nat.mod_eq_of_lt hs0]
      have e4 : (fun j => rx (a + 1 + j + 1) - rx (a + 1 + j)) =
          (fun j => rx (a + (j + 1) + 1) - rx (a + (j + 1))) := by
        funext j
        rw [show a + 1 + j = a + (j + 1) by omega]
      have e5 : (fun j => tx (a + 1 + j + 1) - tx (a + 1 + j)) =
          (fun j => tx (a + (j + 1) + 1) - tx (a + (j + 1))) := by
        funext j
        rw [show a + 1 + j = a + (j + 1) by omega]
      rw [e4, e5]
      simp only [to_mbps]
      push_cast
      ring

/-- C16: let the calls of `read_bytes` of a run of `N = TOTAL_TIME / SAMPLE_INTERVAL`
ticks store the snapshots `(rx 0, tx 0), ..., (rx N, tx N)`. In `Network_Test.c`
the sum of the download rates is the rate of the sum of the per-tick deltas of
`rx`, a tick with a decrease contributing 0; when `rx` never decreases that sum
is `rx N - rx 0` and the average download rate printed is
`(rx N - rx 0) * 8 / (N * SAMPLE_INTERVAL * 1000000)`; the same holds for `tx`
and the upload rate. In `Project.c`, when no per-tick sum `rxdiff + txdiff`
wraps, the sum of the rates is the rate of the two sums of deltas together. -/
theorem average_rate_telescopes (tt si : Nat) (w : World) (iface : List Char)
    (rx tx : Nat → Nat) (hsi : 0 < si) (_htt : si ≤ tt)
    (hreads : ∀ j, j ≤ tt / si →
      read_bytes (w.proc_net_dev j) iface 0 0 = some ⟨0, rx j, tx j⟩) :
    ((Network_Test.main_with tt si w (some iface)).2.total_rx_mbps =
        to_mbps si (sum_of_steps rx (tt / si)) ∧
      (Network_Test.main_with tt si w (some iface)).2.total_tx_mbps =
        to_mbps si (sum_of_steps tx (tt / si))) ∧
    ((∀ j, j < tt / si → rx j ≤ rx (j + 1)) →
      sum_of_steps rx (tt / si) = rx (tt / si) - rx 0 ∧
      Network_Test.Out.average_download
          (((rx (tt / si) : ℚ) - (rx 0 : ℚ)) * 8 /
            (((tt / si : Nat) : ℚ) * (si : ℚ) * 1000000)) ∈
        Network_Test.summary_records (Network_Test.main_with tt si w (some iface)).2.out) ∧
    ((∀ j, j < tt / si → tx j ≤ tx (j + 1)) →
      sum_of_steps tx (tt / si) = tx (tt / si) - tx 0 ∧
      Network_Test.Out.average_upload
          (((tx (tt / si) : ℚ) - (tx 0 : ℚ)) * 8 /
            (((tt / si : Nat) : ℚ) * (si : ℚ) * 1000000)) ∈
        Network_Test.summary_records (Network_Test.main_with tt si w (some iface)).2.out) ∧
    ((∀ j, j < tt / si → rx (j + 1) - rx j + (tx (j + 1) - tx j) < ULL) →
      (Project.main_with tt si w (some iface)).2.sum_mbps =
        to_mbps si (sum_of_steps rx (tt / si) + sum_of_steps tx (tt / si))) := by
  have hok : ∀ j, j ≤ tt / si → read_ok w iface j := fun j hj => ⟨_, hreads j hj, rfl⟩
  have h0 := hreads 0 (Nat.zero_le _)
  obtain ⟨r, hr, hstart⟩ := nt_main_with_start tt si w iface hsi (hok 0 (Nat.zero_le _))
  rw [h0] at hr
  cases hr
  obtain ⟨st2, e1, e2, e3⟩ := nt_after_ticks_totals si w iface (tt / si) 0
    ⟨rx 0, tx 0, 0, 0, 0, 0, 1, 0,
      [Network_Test.Out.ask_iface, Network_Test.Out.measuring tt, Network_Test.Out.showing]⟩
    0 rx tx rfl rfl rfl
    (fun j hj => by
      have := hreads (j + 1) hj
      rw [show j + 1 = 0 + 1 + j by omega] at this
      exact this)
  have hfin := nt_loop_after_ticks si (tt / si) w iface (tt / si) 0 _ st2 e1
  have hmain : Network_Test.main_with tt si w (some iface) =
      Network_Test.summary (tt / si) st2 := hstart.trans hfin
  have hrxsum : (Network_Test.main_with tt si w (some iface)).2.total_rx_mbps =
      to_mbps si (sum_of_steps rx (tt / si)) := by
    rw [hmain]
    simp only [Network_Test.summary, e2, sum_of_steps, Nat.zero_add, zero_add]
  have htxsum : (Network_Test.main_with tt si w (some iface)).2.total_tx_mbps =
      to_mbps si (sum_of_steps tx (tt / si)) := by
    rw [hmain]
    simp only [Network_Test.summary, e3, sum_of_steps, Nat.zero_add, zero_add]
  have hall := (nt_loop_all_ok si (tt / si) w iface (tt / si) 0
    ⟨rx 0, tx 0, 0, 0, 0, 0, 1, 0,
      [Network_Test.Out.ask_iface, Network_Test.Out.measuring tt, Network_Test.Out.showing]⟩
    (fun j hj => hok (1 + j) (by rw [Nat.add_comm]; exact hj))).2.2.2.2.2.2.2
  rw [← hstart] at hall
  refine ⟨⟨hrxsum, htxsum⟩, ?_, ?_, ?_⟩
  · intro hmono
    obtain ⟨hle, hs⟩ := sum_of_steps_monotone rx (tt / si) hmono
    refine ⟨hs, ?_⟩
    have hv : to_mbps si (rx (tt / si) - rx 0) / ((tt / si : Nat) : ℚ) =
        ((rx (tt / si) : ℚ) - (rx 0 : ℚ)) * 8 /
          (((tt / si : Nat) : ℚ) * (si : ℚ) * 1000000) := by
      simp only [to_mbps, Nat.cast_sub hle]
      rw [div_div]
      congr 1
      ring
    rw [hall, hrxsum, hs, hv]
    simp [Network_Test.summary_records]
  · intro hmono
    obtain ⟨hle, hs⟩ := sum_of_steps_monotone tx (tt / si) hmono
    refine ⟨hs, ?_⟩
    have hv : to_mbps si (tx (tt / si) - tx 0) / ((tt / si : Nat) : ℚ) =
        ((tx (tt / si) : ℚ) - (tx 0 : ℚ)) * 8 /
          (((tt / si : Nat) : ℚ) * (si : ℚ) * 1000000) := by
      simp only [to_mbps, Nat.cast_sub hle]
      rw [div_div]
      congr 1
      ring
    rw [hall, htxsum, hs, hv]
    simp [Network_Test.summary_records]
  · intro hnowrap
    obtain ⟨r, hr, hstartp⟩ := pj_main_with_start tt si w iface hsi (hok 0 (Nat.zero_le _))
    rw [h0] at hr
    cases hr
    obtain ⟨st3, f1, f2⟩ := pj_after_ticks_totals si w iface (tt / si) 0
      ⟨rx 0, tx 0, [], 0, 1,
        [Project.Out.ask_iface, Project.Out.measuring tt, Project.Out.legend MAX_BAR_WIDTH]⟩
      0 rx tx rfl rfl rfl
      (fun j hj => by
        have := hreads (j + 1) hj
        rw [show j + 1 = 0 + 1 + j by omega] at this
        exact this)
      (fun j hj => by
        have := hnowrap j hj
        simpa using this)
    have hfinp := pj_loop_after_ticks tt si (tt / si) w iface (tt / si) 0 _ st3 f1
    rw [hstartp, hfinp]
    simp only [Project.summary, f2, sum_of_steps, Nat.zero_add, zero_add]

/-- C16, witness: two ticks in which `rx` goes 1000, 3000, 2000 and `tx` goes 500,
700, 900: the download rates sum to the rate of 2000 bytes (the positive step
only), and the average upload rate printed is `(900 - 500) * 8 / (2 * 1 * 1000000)`. -/
theorem average_rate_telescopes_witness :
    (Network_Test.main_with 2 1 step_world (some "eth0".toList)).2.total_rx_mbps =
        to_mbps 1 2000 ∧
      Network_Test.Out.average_upload (((900 : ℚ) - 500) * 8 / (2 * 1 * 1000000)) ∈
        Network_Test.summary_records
          (Network_Test.main_with 2 1 step_world (some "eth0".toList)).2.out ∧
      (Project.main_with 2 1 step_world (some "eth0".toList)).2.sum_mbps =
        to_mbps 1 (2000 + 400) := by
  have h := average_rate_telescopes 2 1 step_world "eth0".toList
    (fun j => [1000, 3000, 2000].getD j 0) (fun j => [500, 700, 900].getD j 0)
    (by decide) (by decide)
    (fun j hj => by
      have hj2 : j ≤ 2 := hj
      interval_cases j <;> decide)
  obtain ⟨⟨h1, _⟩, _, h3, h4⟩ := h
  have e3 := (h3 (fun j hj => by
    have hj2 : j < 2 := hj
    interval_cases j <;> decide)).2
  have e4 := h4 (fun j hj => by
    have hj2 : j < 2 := hj
    interval_cases j <;> decide)
  refine ⟨h1, ?_, e4⟩
  have hcast : (((2 / 1 : Nat) : ℚ)) = 2 := by norm_num
  simp only [List.getD_cons_zero, List.getD_cons_succ, hcast, Nat.cast_ofNat, Nat.cast_one,
    show (2 / 1 : Nat) = 2 from rfl] at e3
  exact e3

/-! ## Lines with any number of numeric fields -/

theorem scan_llu_blank (tail : List Char) (h : ∀ c ∈ tail, isspace c = true) :
    scan_llu tail = none := by
  have e : skip_space tail = [] := by
    rw [skip_space, List.dropWhile_eq_nil_iff]
    exact h
  simp [scan_llu, e]

theorem stops_of_blank (tail : List Char) (h : ∀ c ∈ tail, isspace c = true) : stops tail := by
  intro c hc
  cases tail with
  | nil => simp at hc
  | cons a t =>
    simp only [List.head?_cons, Option.some.injEq] at hc
    rw [← hc]
    exact isspace_not_isdigit a (h a (by simp))

theorem scan_llus_fields_take (k : Nat) (fs : List (List Char × List Char)) (tail : List Char)
    (hf : ∀ f ∈ fs, is_field f) (hsep : ∀ f ∈ fs.tail, f.1 ≠ [])
    (ht : ∀ c ∈ tail, isspace c = true) :
    scan_llus k (fields_text fs ++ tail) = (fs.take k).map (fun f => digits_value f.2) := by
  induction k generalizing fs with
  | zero => simp [scan_llus]
  | succ k ih =>
    cases fs with
    | nil => simp [scan_llus, fields_text, scan_llu_blank tail ht]
    | cons f fs =>
      obtain ⟨h1, h2, h3, h4⟩ := hf f (by simp)
      have hf2 : ∀ g ∈ fs, is_field g := fun g hg => hf g (by simp [hg])
      have hsep2 : ∀ g ∈ fs, g.1 ≠ [] := by simpa using hsep
      have hmore := stops_fields_text fs tail hf2 hsep2 (stops_of_blank tail ht)
      have hsp : ∀ c ∈ f.1, isspace c = true := by
        intro c hc
        have := h1 c hc
        simp only [is_blank, Bool.and_eq_true] at this
        exact this.1
      have e : fields_text (f :: fs) ++ tail = f.1 ++ f.2 ++ (fields_text fs ++ tail) := by
        simp [fields_text]
      rw [scan_llus, e, scan_llu_field f.1 f.2 _ hsp h2 h3 h4 hmore]
      simp only [List.take_succ_cons, List.map_cons]
      rw [ih fs hf2 (fun g hg => hsep2 g (List.mem_of_mem_tail hg))]

theorem blank_tail (trail nl : List Char) (ht : ∀ c ∈ trail, is_blank c = true)
    (hnl : nl = [] ∨ nl = ['\n']) : ∀ c ∈ trail ++ nl, isspace c = true := by
  intro c hc
  rcases List.mem_append.mp hc with h | h
  · have := ht c h
    simp only [is_blank, Bool.and_eq_true] at this
    exact this.1
  · rcases hnl with e | e
    · simp [e] at h
    · simp only [e, List.mem_singleton] at h
      rw [h]; decide

theorem sscanf_line_any_fields (k : Nat) (name : List Char)
    (fields : List (List Char × List Char)) (tail : List Char)
    (hname : is_iface_name name) (hlen : name.length < 32) (hcolon : ':' ∉ name)
    (hfields : are_fields fields) (ht : ∀ c ∈ tail, isspace c = true) :
    sscanf_line (List.replicate k ' ' ++ name ++ ':' :: (fields_text fields ++ tail)) =
      some (1 + (((fields.take 16).map (fun f => digits_value f.2)).length : Int),
        (fields.take 16).map (fun f => digits_value f.2)) := by
  obtain ⟨a, t, hn, _, _⟩ := iface_name_head name hname
  have ha : isspace a = false := hname.2 a (by simp [hn])
  have e1 : skip_space (List.replicate k ' ' ++ name ++ ':' :: (fields_text fields ++ tail)) =
      name ++ ':' :: (fields_text fields ++ tail) := by
    rw [skip_space, List.append_assoc]
    apply dropWhile_append_stop isspace
    · intro c hc
      rw [List.eq_of_mem_replicate hc]; decide
    · intro c hc
      simp only [hn, List.cons_append, List.head?_cons, Option.some.injEq] at hc
      rw [← hc]; exact ha
  have hp : ∀ c ∈ name, (fun c => c != ':') c = true := by
    intro c hc
    have : c ≠ ':' := fun e => hcolon (e ▸ hc)
    simp [this]
  have hq : ∀ c, (':' :: (fields_text fields ++ tail)).head? = some c →
      (fun c => c != ':') c = false := by
    intro c hc
    simp only [List.head?_cons, Option.some.injEq] at hc
    simp [← hc]
  have e2 := takeWhile_append_stop (fun c => c != ':') name _ hp hq
  have e3 := dropWhile_append_stop (fun c => c != ':') name _ hp hq
  have e4 := scan_llus_fields_take 16 fields tail hfields.1 hfields.2 ht
  have hne : name ++ ':' :: (fields_text fields ++ tail) ≠ [] := by simp [hn]
  have hlen2 : ¬ IFACE_NAME_SIZE ≤ name.length := by simp only [IFACE_NAME_SIZE]; omega
  simp only [sscanf_line, e1, e2, e3, e4, hne, hname.1, hlen2, if_false]

theorem getD_take_map (fields : List (List Char × List Char)) (j : Nat) (hj : j < 16) :
    ((fields.take 16).map (fun f => digits_value f.2)).getD j 0 =
      (fields.map (fun f => digits_value f.2)).getD j 0 := by
  rw [List.map_take, List.getD_eq_getElem?_getD, List.getD_eq_getElem?_getD,
    List.getElem?_take_of_lt hj]

/-- The record and the unread text at a line of at most 255 characters that is
followed by the end of the text or by a newline. -/
theorem fgets_take_at_line_rest (line after : List Char) (hnl : '\n' ∉ line)
    (hlen : line.length < 256) (hafter : after = [] ∨ ∃ t, after = '\n' :: t) :
    ∃ nl, (nl = [] ∨ nl = ['\n']) ∧ (fgets_take 255 (line ++ after)).1 = line ++ nl ∧
      nl ++ (fgets_take 255 (line ++ after)).2 = after := by
  obtain ⟨nl, h1, h2⟩ := fgets_take_at_line line after hnl hlen hafter
  refine ⟨nl, h1, h2, ?_⟩
  have h3 := fgets_take_append 255 (line ++ after)
  rw [h2, List.append_assoc] at h3
  exact List.append_cancel_left h3

theorem read_bytes_loop_newline_only (iface : List Char) (hname : is_iface_name iface)
    (rest : List Char) (h : rest = [] ∨ rest = ['\n']) :
    read_bytes_loop iface rest.length rest = some ⟨-1, 0, 0⟩ := by
  rcases h with rfl | rfl
  · rfl
  · have e : fgets_take 255 ['\n'] = (['\n'], []) := by simp [fgets_take]
    have s := read_bytes_loop_skip iface '\n' []
      (by rw [e]; exact iface_at_start_false _ _ (begins_with_newline iface hname))
    rw [e] at s
    rw [s]
    rfl

/-- C11 (amended): for a table line shorter than 256 characters made of leading
spaces, an interface name (not empty, under 32 characters, no colon, no white
space), a colon and decimal numbers below `2 ^ 64` separated by white space,
every earlier line being shorter than 256 characters and not beginning with the
name: when the line has at least nine numbers `read_bytes(name)` returns 0 with
`rx` the first number and `tx` the ninth, whatever the other numbers are; when
it has fewer than nine numbers and is the last line of the table, `read_bytes`
returns -1. -/
theorem read_bytes_first_and_ninth (earlier : List (List Char)) (k : Nat) (name : List Char)
    (fields : List (List Char × List Char)) (trail after : List Char) (rx0 tx0 : Nat)
    (hname : is_iface_name name) (hlen : name.length < 32) (hcolon : ':' ∉ name)
    (hfields : are_fields fields) (htrail : ∀ c ∈ trail, is_blank c = true)
    (hline : (counter_line k name fields trail).length < 256)
    (hearlier : ∀ l ∈ earlier, '\n' ∉ l ∧ l.length < 256 ∧ begins_with l name = false) :
    (9 ≤ fields.length → (after = [] ∨ ∃ t, after = '\n' :: t) →
      read_bytes (some (lines_text earlier ++ (counter_line k name fields trail ++ after)))
          name rx0 tx0 =
        some ⟨0, (fields.map (fun f => digits_value f.2)).getD 0 0,
          (fields.map (fun f => digits_value f.2)).getD 8 0⟩) ∧
    (fields.length < 9 → (after = [] ∨ after = ['\n']) →
      read_bytes (some (lines_text earlier ++ (counter_line k name fields trail ++ after)))
          name rx0 tx0 =
        some ⟨-1, 0, 0⟩) := by
  obtain ⟨a, t, hn, ha, _⟩ := iface_name_head name hname
  have hnl := counter_line_no_newline k name fields trail hname hfields htrail
  have key : ∀ after2 : List Char, (after2 = [] ∨ ∃ t, after2 = '\n' :: t) →
      ∃ c s nl, counter_line k name fields trail ++ after2 = c :: s ∧
        (nl = [] ∨ nl = ['\n']) ∧ nl ++ (fgets_take 255 (c :: s)).2 = after2 ∧
        iface_at_start (fgets_take 255 (c :: s)).1 name = true ∧
        sscanf_line (fgets_take 255 (c :: s)).1 =
          some (1 + (((fields.take 16).map (fun f => digits_value f.2)).length : Int),
            (fields.take 16).map (fun f => digits_value f.2)) := by
    intro after2 hafter
    obtain ⟨nl, hnl2, hrec, hrest⟩ := fgets_take_at_line_rest _ after2 hnl hline hafter
    cases hcs : counter_line k name fields trail ++ after2 with
    | nil => simp [counter_line, hn] at hcs
    | cons c s =>
      rw [hcs] at hrec hrest
      have hrec2 : (fgets_take 255 (c :: s)).1 =
          List.replicate k ' ' ++ name ++ ':' :: (fields_text fields ++ (trail ++ nl)) := by
        rw [hrec]; simp [counter_line]
      refine ⟨c, s, nl, rfl, hnl2, hrest, ?_, ?_⟩
      · rw [hrec2]
        apply begins_iface_at_start _ name a t hn ha
        rw [begins_with, List.append_assoc,
          dropWhile_append_stop (fun c => c == ' ') (List.replicate k ' ')]
        · exact starts_with_append_self name _
        · intro c hc
          rw [List.eq_of_mem_replicate hc]; decide
        · intro c hc
          simp only [hn, List.cons_append, List.head?_cons, Option.some.injEq] at hc
          simp [← hc, ha]
      · rw [hrec2]
        exact sscanf_line_any_fields k name fields _ hname hlen hcolon hfields
          (blank_tail trail nl htrail hnl2)
  constructor
  · intro h9 hafter
    obtain ⟨c, s, nl, hcs, _, _, hi, hs⟩ := key after hafter
    rw [read_bytes, read_bytes_loop_skip_lines name earlier _ hname hearlier, hcs]
    rw [read_bytes_loop_accept name c s _ _ hi hs (by
      simp only [List.length_map, List.length_take]
      omega)]
    rw [getD_take_map fields 0 (by decide), getD_take_map fields 8 (by decide)]
  · intro h9 hafter
    have hafter2 : after = [] ∨ ∃ t, after = '\n' :: t := by
      rcases hafter with h | h
      · exact Or.inl h
      · exact Or.inr ⟨[], h⟩
    obtain ⟨c, s, nl, hcs, hnl2, hrest, hi, hs⟩ := key after hafter2
    rw [read_bytes, read_bytes_loop_skip_lines name earlier _ hname hearlier, hcs]
    have hr : (fgets_take 255 (c :: s)).2.length ≤ s.length :=
      fgets_take_rest_length 254 c s
    have hcount : ¬ (10 : Int) ≤
        1 + (((fields.take 16).map (fun f => digits_value f.2)).length : Int) := by
      simp only [List.length_map, List.length_take]
      omega
    have hstep : read_bytes_loop name (c :: s).length (c :: s) =
        read_bytes_loop name (fgets_take 255 (c :: s)).2.length (fgets_take 255 (c :: s)).2 := by
      simp only [List.length_cons, read_bytes_loop, fgets, LINE_SIZE, hi, hs, hcount, if_true,
        if_false]
      exact read_bytes_loop_fuel name _ _ _ hr (le_refl _)
    rw [hstep]
    apply read_bytes_loop_newline_only name hname
    rcases hnl2 with e | e
    · rw [e, List.nil_append] at hrest
      rw [hrest]; exact hafter
    · rw [e] at hrest
      rcases hafter with h | h
      · rw [h] at hrest; simp at hrest
      · rw [h] at hrest
        simp only [List.singleton_append, List.cons.injEq, true_and] at hrest
        exact Or.inl hrest

/-- C11, witness: the line of `wlan0` with sixteen numbers gives `rx = 123456`
(first number) and `tx = 654321` (ninth number, not the second, which is 10); the
line `wlan0: 100 200` makes `read_bytes` fail. -/
theorem read_bytes_first_and_ninth_witness :
    read_bytes (some " wlan0: 123456 10 0 0 0 0 0 0 654321 5 0 0 0 0 0 0\n".toList)
        "wlan0".toList 0 0 = some ⟨0, 123456, 654321⟩ ∧
      read_bytes (some "wlan0: 100 200\n".toList) "wlan0".toList 0 0 = some ⟨-1, 0, 0⟩ :=
  ⟨(read_bytes_first_and_ninth [] 1 "wlan0".toList
      [([' '], "123456".toList), ([' '], "10".toList), ([' '], ['0']), ([' '], ['0']),
        ([' '], ['0']), ([' '], ['0']), ([' '], ['0']), ([' '], ['0']),
        ([' '], "654321".toList), ([' '], ['5']), ([' '], ['0']), ([' '], ['0']),
        ([' '], ['0']), ([' '], ['0']), ([' '], ['0']), ([' '], ['0'])]
      [] ['\n'] 0 0 (by decide) (by decide) (by decide) (by decide) (by decide) (by decide)
      (by decide)).1 (by decide) (Or.inr ⟨[], rfl⟩),
    (read_bytes_first_and_ninth [] 0 "wlan0".toList
      [([' '], "100".toList), ([' '], "200".toList)]
      [] ['\n'] 0 0 (by decide) (by decide) (by decide) (by decide) (by decide) (by decide)
      (by decide)).2 (by decide) (Or.inr rfl)⟩

/-- C11 (as stated) fails: the claim makes `tx` the second number of the line and
accepts a line with two numbers; on the table whose only line is
`wlan0: 100 200` the call `read_bytes("wlan0")` returns -1, not 0 with
`rx = 100`, `tx = 200`. -/
theorem read_bytes_two_fields_rejected :
    ¬ ∀ (k : Nat) (name : List Char) (fields : List (List Char × List Char))
        (trail after : List Char) (rx0 tx0 : Nat),
        is_iface_name name → name.length < 32 → ':' ∉ name →
        are_fields fields → 2 ≤ fields.length →
        (∀ c ∈ trail, is_blank c = true) →
        (counter_line k name fields trail).length < 256 →
        (after = [] ∨ ∃ t, after = '\n' :: t) →
        read_bytes (some (counter_line k name fields trail ++ after)) name rx0 tx0 =
          some ⟨0, (fields.map (fun f => digits_value f.2)).getD 0 0,
            (fields.map (fun f => digits_value f.2)).getD 1 0⟩ := by
  intro h
  have h1 := h 0 "wlan0".toList [([' '], "100".toList), ([' '], "200".toList)] [] ['\n'] 0 0
    (by decide) (by decide) (by decide) (by decide) (by decide) (by decide) (by decide)
    (Or.inr ⟨[], rfl⟩)
  revert h1
  decide

/-! ## The first accepted record -/

theorem iface_at_start_eq_begins_with (name r : List Char) (hname : is_iface_name name) :
    iface_at_start r name = begins_with r name := by
  obtain ⟨a, t, hn, ha, _⟩ := iface_name_head name hname
  cases hb : begins_with r name with
  | true => exact begins_iface_at_start r name a t hn ha hb
  | false => exact iface_at_start_false r name hb

theorem read_bytes_loop_first_accepted (name : List Char) (hname : is_iface_name name)
    (fuel : Nat) (fp : List Char) (pre : List (List Char)) (r : List Char)
    (post : List (List Char)) (n : Int) (vals : List Nat)
    (hrec : fgets_records fuel fp = pre ++ r :: post)
    (hpre : ∀ q ∈ pre, passed_over name q = true)
    (hr : begins_with r name = true) (hs : sscanf_line r = some (n, vals)) (hn : 10 ≤ n) :
    read_bytes_loop name fuel fp = some ⟨0, vals.getD 0 0, vals.getD 8 0⟩ := by
  induction fuel generalizing fp pre with
  | zero => simp [fgets_records] at hrec
  | succ k ih =>
    cases hf : fgets LINE_SIZE fp with
    | none => simp [fgets_records, hf] at hrec
    | some p =>
      obtain ⟨line, rest⟩ := p
      simp only [fgets_records, hf] at hrec
      cases pre with
      | nil =>
        simp only [List.nil_append, List.cons.injEq] at hrec
        obtain ⟨rfl, _⟩ := hrec
        simp only [read_bytes_loop, hf, iface_at_start_eq_begins_with name line hname, hr, hs,
          hn, if_true]
      | cons q pre =>
        simp only [List.cons_append, List.cons.injEq] at hrec
        obtain ⟨rfl, hrest⟩ := hrec
        have hq := hpre line (by simp)
        have hrest2 := ih rest pre hrest (fun x hx => hpre x (by simp [hx]))
        simp only [read_bytes_loop, hf, iface_at_start_eq_begins_with name line hname]
        cases hb : begins_with line name with
        | false => simpa using hrest2
        | true =>
          have hfew : few_fields line = true := by simpa [passed_over, hb] using hq
          cases hsl : sscanf_line line with
          | none => simp [few_fields, hsl] at hfew
          | some x =>
            obtain ⟨m, v⟩ := x
            have hm : ¬ (10 : Int) ≤ m := by
              simp only [few_fields, hsl, decide_eq_true_eq] at hfew
              omega
            simpa [hm] using hrest2

/-- C15 (amended): `read_bytes` returns the counters of the first record, in the
order in which `fgets` reads the table, that both begins (after leading spaces)
with the interface name and from which `sscanf` converts at least ten items
(the token and nine numbers): `rx` is the first number and `tx` the ninth; the
records before it that begin with the name but give fewer than ten items are
passed over, the records after it have no influence, and when every record is
passed over the result is -1. A record is a line of the table with its
newline, a line of more than 255 characters being read as several records. -/
theorem read_bytes_first_accepted (name : List Char) (text : List Char) (rx0 tx0 : Nat)
    (hname : is_iface_name name) :
    (∀ (pre : List (List Char)) (r : List Char) (post : List (List Char)) (n : Int)
        (vals : List Nat),
      table_records text = pre ++ r :: post →
      (∀ q ∈ pre, passed_over name q = true) →
      begins_with r name = true → sscanf_line r = some (n, vals) → 10 ≤ n →
      read_bytes (some text) name rx0 tx0 = some ⟨0, vals.getD 0 0, vals.getD 8 0⟩ ∧
      ∀ text2 post2, table_records text2 = pre ++ r :: post2 →
        read_bytes (some text2) name rx0 tx0 = read_bytes (some text) name rx0 tx0) ∧
    ((∀ q ∈ table_records text, passed_over name q = true) →
      read_bytes (some text) name rx0 tx0 = some ⟨-1, 0, 0⟩) := by
  constructor
  · intro pre r post n vals hrec hpre hr hs hn
    have h1 := read_bytes_loop_first_accepted name hname text.length text pre r post n vals
      hrec hpre hr hs hn
    refine ⟨h1, ?_⟩
    intro text2 post2 hrec2
    have h2 := read_bytes_loop_first_accepted name hname text2.length text2 pre r post2 n vals
      hrec2 hpre hr hs hn
    simp only [read_bytes, h1, h2]
  · intro hall
    apply read_bytes_loop_none_accepted
    intro r hr hi
    have := hall r hr
    rw [iface_at_start_eq_begins_with name r hname] at hi
    simpa [passed_over, hi] using this

/-- C15, witness: in the table `wlan0: 1 2`, ` wlan0: 123456 ... 654321 ...`,
`wlan0: 7 0 0 0 0 0 0 0 8 ...` the first line is passed over (two numbers), the
second is accepted, and the third has no influence. -/
theorem read_bytes_first_accepted_witness :
    read_bytes
        (some ("wlan0: 1 2\n" ++ " wlan0: 123456 10 0 0 0 0 0 0 654321 5 0 0 0 0 0 0\n" ++
          "wlan0: 7 0 0 0 0 0 0 0 8 0 0 0 0 0 0 0\n").toList)
        "wlan0".toList 0 0 = some ⟨0, 123456, 654321⟩ :=
  ((read_bytes_first_accepted "wlan0".toList
      ("wlan0: 1 2\n" ++ " wlan0: 123456 10 0 0 0 0 0 0 654321 5 0 0 0 0 0 0\n" ++
        "wlan0: 7 0 0 0 0 0 0 0 8 0 0 0 0 0 0 0\n").toList 0 0 (by decide)).1
    ["wlan0: 1 2\n".toList] " wlan0: 123456 10 0 0 0 0 0 0 654321 5 0 0 0 0 0 0\n".toList
    ["wlan0: 7 0 0 0 0 0 0 0 8 0 0 0 0 0 0 0\n".toList] 17
    [123456, 10, 0, 0, 0, 0, 0, 0, 654321, 5, 0, 0, 0, 0, 0, 0]
    (by decide) (by decide) (by decide) (by decide) (by decide)).1

/-- C15 (as stated, with the lines of the table) fails: the first line, 255
characters `z` followed by `eth0: 5 0 0 0 0 0 0 0 7 ...`, does not begin with
`eth0`; the second line `eth0: 1 0 0 0 0 0 0 0 2 ...` is the first line that
begins with `eth0` and has nine numbers; yet `read_bytes("eth0")` returns
`rx = 5`, `tx = 7`, the counters of the second record of the first line. -/
theorem read_bytes_first_line_not_first_record :
    ¬ ∀ (name : List Char) (pre : List (List Char)) (l : List Char) (post : List (List Char))
        (n : Int) (vals : List Nat) (rx0 tx0 : Nat),
        is_iface_name name → (∀ q ∈ pre ++ l :: post, '\n' ∉ q) →
        (∀ q ∈ pre, passed_over name q = true) →
        begins_with l name = true → sscanf_line l = some (n, vals) → 10 ≤ n →
        read_bytes (some (lines_text (pre ++ l :: post))) name rx0 tx0 =
          some ⟨0, vals.getD 0 0, vals.getD 8 0⟩ := by
  intro h
  have h1 := h "eth0".toList
    [List.replicate 255 'z' ++ "eth0: 5 0 0 0 0 0 0 0 7 0 0 0 0 0 0 0".toList]
    "eth0: 1 0 0 0 0 0 0 0 2 0 0 0 0 0 0 0".toList [] 17
    [1, 0, 0, 0, 0, 0, 0, 0, 2, 0, 0, 0, 0, 0, 0, 0] 0 0
    (by decide) (by decide) (by decide) (by decide) (by decide) (by decide)
  revert h1
  decide

/-! ## Lemmas on the loop of `measure_ping_ms` -/

theorem starts_with_append (n a b : List Char) (h : starts_with n a = true) :
    starts_with n (a ++ b) = true := by
  induction n generalizing a with
  | nil => simp [starts_with]
  | cons x n ih =>
    cases a with
    | nil => simp [starts_with] at h
    | cons y a =>
      simp only [List.cons_append, starts_with, Bool.and_eq_true] at h ⊢
      exact ⟨h.1, ih a h.2⟩

theorem starts_with_before_newline (n l rest : List Char) (hn : '\n' ∉ n)
    (h : starts_with n (l ++ '\n' :: rest) = true) : starts_with n l = true := by
  induction n generalizing l with
  | nil => simp [starts_with]
  | cons a n ih =>
    have ha : a ≠ '\n' := fun e => hn (by simp [e])
    have hn2 : '\n' ∉ n := fun e => hn (by simp [e])
    cases l with
    | nil => simp [starts_with, ha] at h
    | cons b l =>
      simp only [List.cons_append, starts_with, Bool.and_eq_true] at h ⊢
      exact ⟨h.1, ih l hn2 h.2⟩

theorem strstr_append_none (a b n : List Char) (h : strstr (a ++ b) n = none) :
    strstr a n = none ∧ strstr b n = none := by
  induction a with
  | nil =>
    refine ⟨?_, by simpa using h⟩
    cases n with
    | nil =>
      cases b <;> simp [strstr, starts_with] at h
    | cons x n => simp [strstr]
  | cons c a ih =>
    rw [List.cons_append] at h
    unfold strstr at h
    split at h
    · exact absurd h (by simp)
    · rename_i hs
      obtain ⟨h1, h2⟩ := ih (Option.map_eq_none'.mp h)
      refine ⟨?_, h2⟩
      have hs2 : starts_with n (c :: a) = false := by
        cases hq : starts_with n (c :: a) with
        | false => rfl
        | true =>
          have := starts_with_append n (c :: a) b hq
          rw [List.cons_append] at this
          exact absurd this hs
      simp [strstr, hs2, h1]

theorem strstr_join_none (l rest n : List Char) (hn : '\n' ∉ n) (hne : n ≠ [])
    (h1 : strstr l n = none) (h2 : strstr rest n = none) :
    strstr (l ++ '\n' :: rest) n = none := by
  induction l with
  | nil =>
    have hs : starts_with n ('\n' :: rest) = false := by
      cases hq : starts_with n ('\n' :: rest) with
      | false => rfl
      | true =>
        have := starts_with_before_newline n [] rest hn hq
        cases n with
        | nil => exact absurd rfl hne
        | cons x n => simp [starts_with] at this
    simp [strstr, hs, h2]
  | cons c l ih =>
    unfold strstr at h1
    split at h1
    · exact absurd h1 (by simp)
    · rename_i hs
      have h3 := Option.map_eq_none'.mp h1
      have hs2 : starts_with n (c :: l ++ '\n' :: rest) = false := by
        cases hq : starts_with n (c :: l ++ '\n' :: rest) with
        | false => rfl
        | true => exact absurd (starts_with_before_newline n (c :: l) rest hn hq) hs
      simp only [List.cons_append] at hs2 ⊢
      simp [strstr, hs2, ih h3]

theorem strstr_lines_text_none (ls : List (List Char)) (last n : List Char) (hn : '\n' ∉ n)
    (hne : n ≠ []) (h : ∀ l ∈ ls ++ [last], strstr l n = none) :
    strstr (lines_text ls ++ last) n = none := by
  induction ls with
  | nil => simpa [lines_text] using h last (by simp)
  | cons l ls ih =>
    have e : lines_text (l :: ls) ++ last = l ++ '\n' :: (lines_text ls ++ last) := by
      simp [lines_text]
    rw [e]
    exact strstr_join_none l _ n hn hne (h l (by simp))
      (ih (fun x hx => h x (by
        rcases List.mem_append.mp hx with hx | hx
        · exact List.mem_append.mpr (Or.inl (List.mem_cons_of_mem _ hx))
        · exact List.mem_append.mpr (Or.inr hx))))

theorem measure_ping_loop_none (fuel : Nat) (fp : List Char)
    (h : strstr fp "time=".toList = none) : measure_ping_loop fuel fp = some (-1) := by
  induction fuel generalizing fp with
  | zero => rfl
  | succ k ih =>
    cases fp with
    | nil => simp [measure_ping_loop, fgets]
    | cons c s =>
      have happ := fgets_take_append 255 (c :: s)
      rw [← happ] at h
      obtain ⟨h1, h2⟩ := strstr_append_none _ _ _ h
      simp only [measure_ping_loop, fgets, LINE_SIZE, h1]
      exact ih _ h2

theorem measure_ping_loop_fuel (f1 f2 : Nat) (fp : List Char)
    (h1 : fp.length ≤ f1) (h2 : fp.length ≤ f2) :
    measure_ping_loop f1 fp = measure_ping_loop f2 fp := by
  induction f1 generalizing f2 fp with
  | zero =>
    have hfp : fp = [] := List.length_eq_zero.mp (by omega)
    subst hfp
    cases f2 <;> simp [measure_ping_loop, fgets]
  | succ n ih =>
    cases fp with
    | nil => cases f2 <;> simp [measure_ping_loop, fgets]
    | cons c s =>
      cases f2 with
      | zero => simp at h2
      | succ m =>
        have hr : (fgets_take 255 (c :: s)).2.length ≤ s.length :=
          fgets_take_rest_length 254 c s
        have hn : (fgets_take 255 (c :: s)).2.length ≤ n := by
          simp only [List.length_cons] at h1; omega
        have hm : (fgets_take 255 (c :: s)).2.length ≤ m := by
          simp only [List.length_cons] at h2; omega
        simp only [measure_ping_loop, fgets, LINE_SIZE]
        rw [ih m _ hn hm]

/-- One iteration of the loop on a record that gives no value. -/
theorem measure_ping_loop_skip (c : Char) (s : List Char)
    (h : time_reading (fgets_take 255 (c :: s)).1 = none ∨
      time_reading (fgets_take 255 (c :: s)).1 = some LfResult.fail) :
    measure_ping_loop (c :: s).length (c :: s) =
      measure_ping_loop (fgets_take 255 (c :: s)).2.length (fgets_take 255 (c :: s)).2 := by
  have hr : (fgets_take 255 (c :: s)).2.length ≤ s.length :=
    fgets_take_rest_length 254 c s
  have hf := measure_ping_loop_fuel s.length (fgets_take 255 (c :: s)).2.length
    (fgets_take 255 (c :: s)).2 hr (le_refl _)
  simp only [List.length_cons, measure_ping_loop, fgets, LINE_SIZE]
  cases hq : strstr (fgets_take 255 (c :: s)).1 "time=".toList with
  | none => exact hf
  | some k =>
    rw [time_reading, hq] at h
    simp only [Option.map_some', Option.some.injEq] at h
    rcases h with h | h
    · exact absurd h (by simp)
    · simp only [h]
      exact hf

/-- One iteration of the loop on a record that gives a value. -/
theorem measure_ping_loop_value (c : Char) (s : List Char) (v : ℚ)
    (h : time_reading (fgets_take 255 (c :: s)).1 = some (LfResult.value v)) :
    measure_ping_loop (c :: s).length (c :: s) = some v := by
  simp only [List.length_cons, measure_ping_loop, fgets, LINE_SIZE]
  cases hq : strstr (fgets_take 255 (c :: s)).1 "time=".toList with
  | none =>
    rw [time_reading, hq] at h
    exact absurd h (by simp)
  | some k =>
    rw [time_reading, hq] at h
    simp only [Option.map_some', Option.some.injEq] at h
    simp only [h]

/-! ## The newline at the end of a record does not change what is read from it -/

theorem head_append_newline (y : List Char) (c : Char) (hc : c ≠ '\n') :
    ((y ++ ['\n']).head? == some c) = (y.head? == some c) := by
  cases y with
  | nil =>
    have : ('\n' == c) = false := by
      simp only [beq_eq_false_iff_ne, ne_eq]
      exact fun e => hc e.symm
    simp [this]
  | cons a y => simp

theorem tail_append_newline (y : List Char) (h : y ≠ []) :
    (y ++ ['\n']).tail = y.tail ++ ['\n'] := by
  cases y with
  | nil => exact absurd rfl h
  | cons a y => simp

theorem takeWhile_append_newline (p : Char → Bool) (hp : p '\n' = false) (x : List Char) :
    (x ++ ['\n']).takeWhile p = x.takeWhile p := by
  induction x with
  | nil => simp [List.takeWhile_cons, hp]
  | cons a x ih =>
    by_cases ha : p a = true
    · simp [List.takeWhile_cons, ha, ih]
    · simp [List.takeWhile_cons, ha]

theorem dropWhile_append_newline (p : Char → Bool) (hp : p '\n' = false) (x : List Char) :
    (x ++ ['\n']).dropWhile p = x.dropWhile p ++ ['\n'] := by
  induction x with
  | nil => simp [List.dropWhile_cons, hp]
  | cons a x ih =>
    by_cases ha : p a = true
    · simp [List.dropWhile_cons, ha, ih]
    · simp [List.dropWhile_cons, ha]

theorem isdigit_newline : isdigit '\n' = false := by decide

theorem skip_space_append_newline (x : List Char) :
    skip_space (x ++ ['\n']) = if skip_space x = [] then [] else skip_space x ++ ['\n'] := by
  induction x with
  | nil => simp [skip_space, List.dropWhile_cons, isspace_newline]
  | cons a x ih =>
    by_cases ha : isspace a = true
    · simp only [skip_space, List.cons_append, List.dropWhile_cons, ha, if_true] at ih ⊢
      exact ih
    · simp [skip_space, List.dropWhile_cons, ha]

theorem starts_with_append_newline (n s : List Char) (hn : '\n' ∉ n) :
    starts_with n (s ++ ['\n']) = starts_with n s := by
  cases h : starts_with n s with
  | true => exact starts_with_append n s _ h
  | false =>
    cases h2 : starts_with n (s ++ ['\n']) with
    | false => rfl
    | true =>
      rw [starts_with_drop_newline n s hn h2] at h
      exact absurd h (by decide)

theorem starts_with_ci_append_newline (n s : List Char) (hn : '\n' ∉ n) :
    starts_with_ci n (s ++ ['\n']) = starts_with_ci n s := by
  induction n generalizing s with
  | nil => simp [starts_with_ci]
  | cons a n ih =>
    have ha : a ≠ '\n' := fun e => hn (by simp [e])
    have hn2 : '\n' ∉ n := fun e => hn (by simp [e])
    cases s with
    | nil =>
      have hlow : (a == Char.toLower '\n') = false := by
        have e : Char.toLower '\n' = '\n' := by decide
        rw [e]
        simpa using ha
      show (a == Char.toLower '\n' && starts_with_ci n []) = false
      rw [hlow]
      rfl
    | cons b s =>
      show (a == b.toLower && starts_with_ci n (s ++ ['\n'])) =
        (a == b.toLower && starts_with_ci n s)
      rw [ih s hn2]

theorem strstr_append_newline (l n : List Char) (hn : '\n' ∉ n) (hne : n ≠ []) :
    strstr (l ++ ['\n']) n = strstr l n := by
  induction l with
  | nil =>
    have hs : starts_with n ['\n'] = false := by
      have := starts_with_append_newline n [] hn
      rw [List.nil_append] at this
      rw [this]
      cases n with
      | nil => exact absurd rfl hne
      | cons x n => rfl
    simp [strstr, hs, hne]
  | cons c l ih =>
    have e := starts_with_append_newline n (c :: l) hn
    simp only [List.cons_append] at e ⊢
    simp only [strstr, e, ih]

theorem lf_exponent_append_newline (neg : Bool) (m f : Nat) (r : List Char) :
    lf_exponent neg m f (r ++ ['\n']) = lf_exponent neg m f r := by
  have he : ((r ++ ['\n']).head? == some 'e') = (r.head? == some 'e') :=
    head_append_newline r 'e' (by decide)
  have hE : ((r ++ ['\n']).head? == some 'E') = (r.head? == some 'E') :=
    head_append_newline r 'E' (by decide)
  unfold lf_exponent
  simp only [he, hE]
  cases hexp : (r.head? == some 'e' || r.head? == some 'E') with
  | false => rfl
  | true =>
    have hr : r ≠ [] := by
      intro e
      rw [e] at hexp
      simp at hexp
    have ht := tail_append_newline r hr
    have hm : ((r.tail ++ ['\n']).head? == some '-') = (r.tail.head? == some '-') :=
      head_append_newline r.tail '-' (by decide)
    have hp : ((r.tail ++ ['\n']).head? == some '+') = (r.tail.head? == some '+') :=
      head_append_newline r.tail '+' (by decide)
    simp only [if_true, ht, hm, hp]
    cases hsign : (r.tail.head? == some '-' || r.tail.head? == some '+') with
    | false =>
      simp only [Bool.false_eq_true, if_false,
        takeWhile_append_newline isdigit isdigit_newline]
    | true =>
      have hr2 : r.tail ≠ [] := by
        intro e
        rw [e] at hsign
        simp at hsign
      simp only [if_true, tail_append_newline r.tail hr2,
        takeWhile_append_newline isdigit isdigit_newline]

theorem lf_mantissa_append_newline (neg : Bool) (s : List Char) :
    lf_mantissa neg (s ++ ['\n']) = lf_mantissa neg s := by
  have hd : (((s.dropWhile isdigit) ++ ['\n']).head? == some '.') =
      ((s.dropWhile isdigit).head? == some '.') :=
    head_append_newline _ '.' (by decide)
  unfold lf_mantissa
  simp only [takeWhile_append_newline isdigit isdigit_newline,
    dropWhile_append_newline isdigit isdigit_newline, hd]
  cases hdot : ((s.dropWhile isdigit).head? == some '.') with
  | false =>
    simp only [Bool.false_eq_true, if_false, lf_exponent_append_newline]
  | true =>
    have hr : s.dropWhile isdigit ≠ [] := by
      intro e
      rw [e] at hdot
      simp at hdot
    simp only [if_true, tail_append_newline _ hr,
      takeWhile_append_newline isdigit isdigit_newline,
      dropWhile_append_newline isdigit isdigit_newline, lf_exponent_append_newline]

theorem scan_lf_append_newline (x : List Char) : scan_lf (x ++ ['\n']) = scan_lf x := by
  unfold scan_lf
  simp only [skip_space_append_newline]
  by_cases hx : skip_space x = []
  · simp only [hx, if_true]
  · have hm : ((skip_space x ++ ['\n']).head? == some '-') = ((skip_space x).head? == some '-') :=
      head_append_newline _ '-' (by decide)
    have hp : ((skip_space x ++ ['\n']).head? == some '+') = ((skip_space x).head? == some '+') :=
      head_append_newline _ '+' (by decide)
    simp only [hx, if_false, hm, hp]
    cases hsign : ((skip_space x).head? == some '-' || (skip_space x).head? == some '+') with
    | false =>
      simp only [Bool.false_eq_true, if_false,
        starts_with_ci_append_newline _ _ (by decide : '\n' ∉ "inf".toList),
        starts_with_ci_append_newline _ _ (by decide : '\n' ∉ "nan".toList),
        starts_with_ci_append_newline _ _ (by decide : '\n' ∉ "0x".toList),
        lf_mantissa_append_newline]
    | true =>
      simp only [if_true, tail_append_newline _ hx,
        starts_with_ci_append_newline _ _ (by decide : '\n' ∉ "inf".toList),
        starts_with_ci_append_newline _ _ (by decide : '\n' ∉ "nan".toList),
        starts_with_ci_append_newline _ _ (by decide : '\n' ∉ "0x".toList),
        lf_mantissa_append_newline]

theorem starts_with_length (n s : List Char) (h : starts_with n s = true) :
    n.length ≤ s.length := by
  induction n generalizing s with
  | nil => simp
  | cons a n ih =>
    cases s with
    | nil => simp [starts_with] at h
    | cons b s =>
      simp only [starts_with, Bool.and_eq_true] at h
      have := ih s h.2
      simp only [List.length_cons]
      omega

theorem strstr_le_length (s n : List Char) (k : Nat) (h : strstr s n = some k) :
    k ≤ s.length := by
  induction s generalizing k with
  | nil =>
    unfold strstr at h
    split at h
    · simp only [Option.some.injEq] at h; omega
    · exact absurd h (by simp)
  | cons c s ih =>
    unfold strstr at h
    split at h
    · simp only [Option.some.injEq] at h
      omega
    · cases hq : strstr s n with
      | none => simp [hq] at h
      | some j =>
        simp only [hq, Option.map_some', Option.some.injEq] at h
        have := ih j hq
        simp only [List.length_cons]
        omega

theorem strstr_starts_with (s n : List Char) (k : Nat) (h : strstr s n = some k) :
    starts_with n (s.drop k) = true := by
  induction s generalizing k with
  | nil =>
    unfold strstr at h
    split at h
    · rename_i hn
      simp [hn, starts_with]
    · exact absurd h (by simp)
  | cons c s ih =>
    unfold strstr at h
    split at h
    · rename_i hs
      simp only [Option.some.injEq] at h
      rw [← h]
      exact hs
    · cases hq : strstr s n with
      | none => simp [hq] at h
      | some j =>
        simp only [hq, Option.map_some', Option.some.injEq] at h
        rw [← h]
        exact ih j hq

theorem sscanf_time_append_newline (x : List Char) :
    sscanf_time (x ++ ['\n']) = sscanf_time x := by
  unfold sscanf_time
  rw [starts_with_append_newline _ x (by decide)]
  cases h : starts_with "time=".toList x with
  | false => rfl
  | true =>
    have hlen : 5 ≤ x.length := starts_with_length _ x h
    simp only [if_true, List.drop_append_of_le_length hlen, scan_lf_append_newline]

theorem time_reading_append_newline (l : List Char) :
    time_reading (l ++ ['\n']) = time_reading l := by
  unfold time_reading
  rw [strstr_append_newline l _ (by decide) (by decide)]
  cases h : strstr l "time=".toList with
  | none => rfl
  | some k =>
    have hk := strstr_le_length l _ k h
    simp only [Option.map_some', List.drop_append_of_le_length hk, sscanf_time_append_newline]

theorem time_reading_newline : time_reading ['\n'] = none := by decide

/-- The loop of `measure_ping_ms` passes over a line of at most 255 characters
that gives no value, and over the newline that ends it. -/
theorem measure_ping_loop_skip_line (l rest : List Char) (hnl : '\n' ∉ l)
    (hlen : l.length < 256)
    (hb : time_reading l = none ∨ time_reading l = some LfResult.fail) :
    measure_ping_loop (l ++ '\n' :: rest).length (l ++ '\n' :: rest) =
      measure_ping_loop rest.length rest := by
  by_cases hfull : l.length = 255
  · cases l with
    | nil => simp at hfull
    | cons c l =>
      have e1 : fgets_take 255 (c :: l ++ '\n' :: rest) = (c :: l, '\n' :: rest) :=
        fgets_take_line_full 255 (c :: l) ('\n' :: rest) hnl hfull
      have s1 := measure_ping_loop_skip c (l ++ '\n' :: rest)
        (by rw [← List.cons_append, e1]; exact hb)
      rw [← List.cons_append, e1] at s1
      have e2 : fgets_take 255 ('\n' :: rest) = (['\n'], rest) := by simp [fgets_take]
      have s2 := measure_ping_loop_skip '\n' rest
        (by rw [e2]; exact Or.inl time_reading_newline)
      rw [e2] at s2
      exact s1.trans s2
  · have hlt : l.length < 255 := by omega
    have e1 : fgets_take 255 (l ++ '\n' :: rest) = (l ++ ['\n'], rest) :=
      fgets_take_line_nl 255 l rest hnl hlt
    cases hl : l ++ '\n' :: rest with
    | nil => simp at hl
    | cons c s =>
      have s1 := measure_ping_loop_skip c s
        (by rw [← hl, e1, time_reading_append_newline]; exact hb)
      rw [← hl, e1] at s1
      rw [← hl]
      exact s1

theorem measure_ping_loop_skip_lines (ls : List (List Char)) (rest : List Char)
    (h : ∀ l ∈ ls, '\n' ∉ l ∧ l.length < 256 ∧
      (time_reading l = none ∨ time_reading l = some LfResult.fail)) :
    measure_ping_loop (lines_text ls ++ rest).length (lines_text ls ++ rest) =
      measure_ping_loop rest.length rest := by
  induction ls with
  | nil => simp [lines_text]
  | cons l ls ih =>
    obtain ⟨h1, h2, h3⟩ := h l (by simp)
    have e : lines_text (l :: ls) ++ rest = l ++ '\n' :: (lines_text ls ++ rest) := by
      simp [lines_text]
    rw [e, measure_ping_loop_skip_line l _ h1 h2 h3]
    exact ih (fun l hl => h l (by simp [hl]))

/-- The loop of `measure_ping_ms` stops at a line of at most 255 characters that
gives a value. -/
theorem measure_ping_loop_at_line (line after : List Char) (v : ℚ) (hnl : '\n' ∉ line)
    (hlen : line.length < 256) (hafter : after = [] ∨ ∃ t, after = '\n' :: t)
    (hv : time_reading line = some (LfResult.value v)) :
    measure_ping_loop (line ++ after).length (line ++ after) = some v := by
  obtain ⟨nl, hnl2, hrec⟩ := fgets_take_at_line line after hnl hlen hafter
  cases hcs : line ++ after with
  | nil =>
    have : line = [] := (List.append_eq_nil.mp hcs).1
    rw [this] at hv
    have hnone : time_reading [] = none := by decide
    rw [hnone] at hv
    exact absurd hv (by simp)
  | cons c s =>
    rw [hcs] at hrec
    apply measure_ping_loop_value c s v
    rw [hrec]
    rcases hnl2 with e | e
    · rw [e, List.append_nil]; exact hv
    · rw [e, time_reading_append_newline]; exact hv

/-! ## A decimal number after `time=` -/

theorem foldl_digits (acc : Nat) (l : List Char) :
    l.foldl (fun acc c => 10 * acc + (c.toNat - 48)) acc =
      acc * 10 ^ l.length + l.foldl (fun acc c => 10 * acc + (c.toNat - 48)) 0 := by
  induction l generalizing acc with
  | nil => simp
  | cons c l ih =>
    simp only [List.foldl_cons, List.length_cons]
    rw [ih (10 * acc + (c.toNat - 48)), ih (10 * 0 + (c.toNat - 48))]
    ring

theorem digits_value_append (a b : List Char) :
    digits_value (a ++ b) = digits_value a * 10 ^ b.length + digits_value b := by
  unfold digits_value
  rw [List.foldl_append, foldl_digits]

theorem mkRat_decimal (ip fp : List Char) :
    mkRat ((digits_value (ip ++ fp) : Nat) : Int) (10 ^ fp.length) = decimal_value ip fp := by
  rw [Rat.mkRat_eq_div, digits_value_append, decimal_value]
  have h10 : ((10 : ℚ) ^ fp.length) ≠ 0 := by positivity
  push_cast
  field_simp

theorem toLower_of_isdigit (d : Char) (h : isdigit d = true) : d.toLower = d := by
  simp only [isdigit, Bool.and_eq_true, decide_eq_true_eq] at h
  unfold Char.toLower
  have : ¬ (d.toNat ≥ 65 ∧ d.toNat ≤ 90) := by omega
  simp only [this, if_false]

theorem lf_exponent_ends (m f : Nat) (suf : List Char) (h : ends_decimal suf = true) :
    lf_exponent false m f suf = LfResult.value (mkRat (m : Int) (10 ^ f)) := by
  have he : (suf.head? == some 'e' || suf.head? == some 'E') = false := by
    cases suf with
    | nil => rfl
    | cons c t =>
      simp only [ends_decimal, Bool.and_eq_true, Bool.not_eq_true', bne_iff_ne, ne_eq] at h
      obtain ⟨⟨⟨_, _⟩, h3⟩, h4⟩ := h
      simp [h3, h4]
  unfold lf_exponent
  simp only [he, Bool.false_eq_true, if_false]

theorem lf_mantissa_decimal (ip fp suf : List Char) (dot : Bool) (hip : ip ≠ [])
    (hipd : ∀ c ∈ ip, isdigit c = true) (hfpd : ∀ c ∈ fp, isdigit c = true)
    (hdot : dot = false → fp = []) (hsuf : ends_decimal suf = true) :
    lf_mantissa false (decimal_text ip dot fp ++ suf) =
      LfResult.value (mkRat ((digits_value (ip ++ fp) : Nat) : Int) (10 ^ fp.length)) := by
  have hstop : stops suf := by
    intro c hc
    cases suf with
    | nil => simp at hc
    | cons a t =>
      simp only [List.head?_cons, Option.some.injEq] at hc
      simp only [ends_decimal, Bool.and_eq_true, Bool.not_eq_true', bne_iff_ne, ne_eq] at hsuf
      rw [← hc]
      exact hsuf.1.1.1
  have hnodot : (suf.head? == some '.') = false := by
    cases suf with
    | nil => rfl
    | cons a t =>
      simp only [ends_decimal, Bool.and_eq_true, Bool.not_eq_true', bne_iff_ne, ne_eq] at hsuf
      simp [hsuf.1.1.2]
  have hne : ip.isEmpty = false := by
    cases ip with
    | nil => exact absurd rfl hip
    | cons a t => rfl
  cases dot with
  | true =>
    have e0 : decimal_text ip true fp ++ suf = ip ++ '.' :: (fp ++ suf) := by
      simp [decimal_text]
    have hstop2 : stops ('.' :: (fp ++ suf)) := by
      intro c hc
      simp only [List.head?_cons, Option.some.injEq] at hc
      rw [← hc]; decide
    have e1 := takeWhile_append_stop isdigit ip _ hipd hstop2
    have e2 := dropWhile_append_stop isdigit ip _ hipd hstop2
    have e3 := takeWhile_append_stop isdigit fp suf hfpd hstop
    have e4 := dropWhile_append_stop isdigit fp suf hfpd hstop
    have hd : (('.' :: (fp ++ suf)).head? == some '.') = true := by simp
    rw [e0]
    unfold lf_mantissa
    simp only [e1, e2, hd, if_true, List.tail_cons, e3, e4, hne, Bool.false_and,
      Bool.false_eq_true, if_false]
    exact lf_exponent_ends _ _ suf hsuf
  | false =>
    have hfp : fp = [] := hdot rfl
    subst hfp
    have e0 : decimal_text ip false [] ++ suf = ip ++ suf := by simp [decimal_text]
    have e1 := takeWhile_append_stop isdigit ip suf hipd hstop
    have e2 := dropWhile_append_stop isdigit ip suf hipd hstop
    rw [e0]
    unfold lf_mantissa
    simp only [e1, e2, hnodot, Bool.false_eq_true, if_false, hne, Bool.false_and]
    exact lf_exponent_ends _ _ suf hsuf

theorem scan_lf_decimal (ip fp suf : List Char) (dot : Bool) (hip : ip ≠ [])
    (hipd : ∀ c ∈ ip, isdigit c = true) (hfpd : ∀ c ∈ fp, isdigit c = true)
    (hdot : dot = false → fp = []) (hsuf : ends_decimal suf = true)
    (hhex : starts_with_ci "0x".toList (decimal_text ip dot fp ++ suf) = false) :
    scan_lf (decimal_text ip dot fp ++ suf) = LfResult.value (decimal_value ip fp) := by
  have hm := lf_mantissa_decimal ip fp suf dot hip hipd hfpd hdot hsuf
  rw [mkRat_decimal] at hm
  cases hipc : ip with
  | nil => exact absurd hipc hip
  | cons d t =>
    have hd : isdigit d = true := hipd d (by simp [hipc])
    have hsp : isspace d = false := isdigit_not_isspace d hd
    have hlow := toLower_of_isdigit d hd
    have hminus : d ≠ '-' := by
      intro e; rw [e] at hd; exact absurd hd (by decide)
    have hplus : d ≠ '+' := by
      intro e; rw [e] at hd; exact absurd hd (by decide)
    have hi : d ≠ 'i' := by
      intro e; rw [e] at hd; exact absurd hd (by decide)
    have hn : d ≠ 'n' := by
      intro e; rw [e] at hd; exact absurd hd (by decide)
    obtain ⟨rest, hT⟩ : ∃ rest, decimal_text ip dot fp ++ suf = d :: rest :=
      ⟨t ++ ((if dot then '.' :: fp else []) ++ suf), by simp [decimal_text, hipc]⟩
    rw [← hipc]
    rw [hT] at hhex hm ⊢
    have e1 : skip_space (d :: rest) = d :: rest := by
      simp [skip_space, List.dropWhile_cons, hsp]
    have hs1 : (some d == some '-') = false := by simp [hminus]
    have hs2 : (some d == some '+') = false := by simp [hplus]
    have hinf : starts_with_ci "inf".toList (d :: rest) = false := by
      show ('i' == d.toLower && starts_with_ci _ rest) = false
      rw [hlow]
      have : ('i' == d) = false := by simpa using fun e => hi e.symm
      rw [this]; rfl
    have hnan : starts_with_ci "nan".toList (d :: rest) = false := by
      show ('n' == d.toLower && starts_with_ci _ rest) = false
      rw [hlow]
      have : ('n' == d) = false := by simpa using fun e => hn e.symm
      rw [this]; rfl
    unfold scan_lf
    simp only [e1, List.head?_cons, hs1, hs2, Bool.or_self, Bool.false_eq_true, if_false, hinf,
      hnan, hhex]
    exact hm

theorem sscanf_time_at (t : List Char) : sscanf_time ("time=".toList ++ t) = scan_lf t := by
  have h : starts_with "time=".toList ("time=".toList ++ t) = true :=
    starts_with_append _ _ _ (by decide)
  unfold sscanf_time
  rw [if_pos h]
  rfl

theorem time_reading_ping_line (pre ip fp suf : List Char) (dot : Bool)
    (hfirst : strstr (ping_line pre ip dot fp suf) "time=".toList = some pre.length)
    (hip : ip ≠ []) (hipd : ∀ c ∈ ip, isdigit c = true) (hfpd : ∀ c ∈ fp, isdigit c = true)
    (hdot : dot = false → fp = []) (hsuf : ends_decimal suf = true)
    (hhex : starts_with_ci "0x".toList (decimal_text ip dot fp ++ suf) = false) :
    time_reading (ping_line pre ip dot fp suf) =
      some (LfResult.value (decimal_value ip fp)) := by
  unfold time_reading
  rw [hfirst]
  show some (sscanf_time ((ping_line pre ip dot fp suf).drop pre.length)) = _
  have hd : (ping_line pre ip dot fp suf).drop pre.length =
      "time=".toList ++ (decimal_text ip dot fp ++ suf) := by
    unfold ping_line
    exact List.drop_left _ _
  rw [hd, sscanf_time_at, scan_lf_decimal ip fp suf dot hip hipd hfpd hdot hsuf hhex]

theorem decimal_value_23_5 : decimal_value "23".toList "5".toList = 47 / 2 := by
  have h1 : digits_value "23".toList = 23 := by decide
  have h2 : digits_value "5".toList = 5 := by decide
  have h3 : "5".toList.length = 1 := by decide
  unfold decimal_value
  rw [h1, h2, h3]
  norm_num

/-- C12 (amended): `measure_ping_ms` returns -1.0 when the probe could not be
started, and for every probe output in which no line contains `time=`.  When
every earlier line is shorter than 256 characters and has no `time=`, or has a
first `time=` that `%lf` cannot read a number after, and the next line is
shorter than 256 characters, has its first `time=` followed immediately by a
decimal number (digits, optionally a point and digits, not beginning `0x`) and
then by a suffix that does not begin with a digit, a point or `e`/`E`, it
returns that number, whatever the lines after it are. -/
theorem measure_ping_ms_reading (earlier : List (List Char)) (pre ip fp suf after : List Char)
    (dot : Bool)
    (hearlier : ∀ l ∈ earlier, '\n' ∉ l ∧ l.length < 256 ∧
      (time_reading l = none ∨ time_reading l = some LfResult.fail))
    (hnl : '\n' ∉ ping_line pre ip dot fp suf)
    (hlen : (ping_line pre ip dot fp suf).length < 256)
    (hfirst : strstr (ping_line pre ip dot fp suf) "time=".toList = some pre.length)
    (hip : ip ≠ []) (hipd : ∀ c ∈ ip, isdigit c = true) (hfpd : ∀ c ∈ fp, isdigit c = true)
    (hdot : dot = false → fp = []) (hsuf : ends_decimal suf = true)
    (hhex : starts_with_ci "0x".toList (decimal_text ip dot fp ++ suf) = false)
    (hafter : after = [] ∨ ∃ t, after = '\n' :: t) :
    measure_ping_ms none = some (-1) ∧
    (∀ (ls : List (List Char)) (last : List Char),
      (∀ l ∈ ls ++ [last], strstr l "time=".toList = none) →
      measure_ping_ms (some (lines_text ls ++ last)) = some (-1)) ∧
    measure_ping_ms (some (lines_text earlier ++ (ping_line pre ip dot fp suf ++ after))) =
      some (decimal_value ip fp) := by
  refine ⟨rfl, ?_, ?_⟩
  · intro ls last h
    exact measure_ping_loop_none _ _
      (strstr_lines_text_none ls last _ (by decide) (by decide) h)
  · show measure_ping_loop _ _ = _
    rw [measure_ping_loop_skip_lines earlier _ hearlier]
    exact measure_ping_loop_at_line _ _ _ hnl hlen hafter
      (time_reading_ping_line pre ip fp suf dot hfirst hip hipd hfpd hdot hsuf hhex)

/-- C12, witness: after the header line of `ping`, the line
`64 bytes from h: icmp_seq=1 ttl=64 time=23.5 ms` gives 23.5, whatever the
later line `... time=99.1 ms` says. -/
theorem measure_ping_ms_reading_witness :
    measure_ping_ms
        (some (lines_text ["PING h (10.0.0.1) 56(84) bytes of data.".toList] ++
          (ping_line "64 bytes from h: icmp_seq=1 ttl=64 ".toList "23".toList true "5".toList
              " ms".toList ++
            "\n64 bytes from h: icmp_seq=2 ttl=64 time=99.1 ms\n".toList))) =
      some (decimal_value "23".toList "5".toList) ∧
    decimal_value "23".toList "5".toList = 47 / 2 :=
  ⟨(measure_ping_ms_reading ["PING h (10.0.0.1) 56(84) bytes of data.".toList]
      "64 bytes from h: icmp_seq=1 ttl=64 ".toList "23".toList "5".toList " ms".toList
      "\n64 bytes from h: icmp_seq=2 ttl=64 time=99.1 ms\n".toList true
      (by decide) (by decide) (by decide) (by decide) (by decide) (by decide) (by decide)
      (by decide) (by decide) (by decide) (Or.inr ⟨_, rfl⟩)).2.2,
    decimal_value_23_5⟩

/-- C12 (as stated) fails.  The only line of the probe output, 249 characters
`p` followed by `time=23.5 ms`, contains `time=` once, followed immediately by
the decimal number 23.5 and the unit suffix ` ms`; `measure_ping_ms` returns 2:
`fgets` delivers the first 255 characters of the line, which end in `time=2`.
And for the line `time=x time=5 ms`, which contains `time=` followed immediately
by a decimal number, it returns -1.0: only the first `time=` of a record is
looked at. -/
theorem measure_ping_ms_long_line :
    (¬ ∀ (pre ip fp suf : List Char) (dot : Bool),
        '\n' ∉ ping_line pre ip dot fp suf →
        strstr (ping_line pre ip dot fp suf) "time=".toList = some pre.length →
        ip ≠ [] → (∀ c ∈ ip, isdigit c = true) → (∀ c ∈ fp, isdigit c = true) →
        (dot = false → fp = []) → ends_decimal suf = true →
        starts_with_ci "0x".toList (decimal_text ip dot fp ++ suf) = false →
        measure_ping_ms (some (ping_line pre ip dot fp suf ++ ['\n'])) =
          some (decimal_value ip fp)) ∧
    measure_ping_ms
        (some (ping_line (List.replicate 249 'p') "23".toList true "5".toList " ms".toList ++
          ['\n'])) = some 2 ∧
    strstr "time=x time=5 ms".toList "time=".toList = some 0 ∧
    strstr "x time=5 ms".toList "time=".toList = some 2 ∧
    measure_ping_ms (some "time=x time=5 ms\n".toList) = some (-1) := by
  have h2 : measure_ping_ms
        (some (ping_line (List.replicate 249 'p') "23".toList true "5".toList " ms".toList ++
          ['\n'])) = some 2 := by decide
  refine ⟨?_, h2, by decide, by decide, by decide⟩
  intro h
  have h1 := h (List.replicate 249 'p') "23".toList "5".toList " ms".toList true
    (by decide) (by decide) (by decide) (by decide) (by decide) (by decide) (by decide)
    (by decide)
  rw [h2, decimal_value_23_5] at h1
  have h3 : (2 : ℚ) = 47 / 2 := Option.some.inj h1
  norm_num at h3

/-- A probe line `time=-3 ms` is read as the negative number -3. -/
theorem measure_ping_ms_negative :
    measure_ping_ms (some "64 bytes from h: icmp_seq=1 ttl=64 time=-3 ms\n".toList) =
      some (-3) := by
  decide

end NetSpeed
